import Mathlib

/-!
Verification of the delivery pipeline of `leofvo/bridgr`, as a shallow embedding:

* `internal/domain/models.go`: `Item`, the `Exporter` and `Store` interfaces;
* `internal/services/notification.go`: `NotificationService.ProcessItems`;
* `internal/store/redis.go`: `RedisStore.HasProcessed`, `RedisStore.MarkProcessed`;
* `internal/ratelimit/limiter.go`: `NewLimiter`, `Limiter.Allow`, `Limiter.Wait`;
* `internal/config/config.go`, `types.go`: the configuration structs, `ValidateConfig`;
* `internal/exporters/webhook.go`, `factory.go`: `WebhookExporter.Export`,
  `Factory.CreateExporter`;
* `internal/sources/rss.go`: `RSSSource.GetSourceTTL`;
* `internal/services/scheduler.go`: `SchedulerService.scheduleSource`, `pollSource`.

Go strings are Lean strings, Go `error` values are represented by their message
(`nil` is `none`), `time.Duration` is an integer number of nanoseconds, and `float64`
values are the rationals that binary64 represents, every float operation being the
exact operation followed by the rounding `round64`.

Everything outside the process (the Redis server, the HTTP endpoints) is an explicit
world state `σ` that the interface methods read and update; the clock is an explicit
argument.  The goroutines of `ProcessItems` are interleaved by an explicit schedule,
one interface call or channel send at a time.
-/

namespace Bridgr

/-! ## Definitions -/

/-- A Go `error`, represented by its message. -/
abbrev Error := String

/-- A `time.Duration`: signed nanoseconds. -/
abbrev Duration := Int

/-- The struct `domain.Item`. -/
structure Item where
  ID : String
  Title : String
  Description : String
  Link : String
  PublishedAt : Int
  Source : String
  Group : String
deriving DecidableEq, Repr

/-- The interface `domain.Exporter`, over a world state `σ`.  `GetSourceTTL` is the
optional method probed by the type assertion of `ProcessItems`: `none` when the
dynamic type does not have it, `some r` when it has it and the call yields `r`. -/
structure Exporter (σ : Type) where
  Export : Item → σ → Option Error × σ
  GetType : String
  GetGroup : String
  GetSourceTTL : Option (Option Duration)

/-- The interface `domain.Store` (without `Close`), over a world state `σ`.
`HasProcessed` yields the Go pair `(bool, error)`. -/
structure Store (σ : Type) where
  HasProcessed : String → String → σ → (Bool × Option Error) × σ
  MarkProcessed : String → String → Option Duration → σ → Option Error × σ

/-- The observable actions of one unit of work (one goroutine of `ProcessItems`):
the three interface calls with their arguments and results, and the send on `errChan`. -/
inductive Action where
  | hasProcessed (itemID exporterID : String) (processed : Bool) (err : Option Error)
  | export (item : Item) (err : Option Error)
  | markProcessed (itemID exporterID : String) (sourceTTL : Option Duration) (err : Option Error)
  | sendErr (err : Error)
deriving DecidableEq, Repr

/-- Program counter of one goroutine launched at `notification.go:41`. -/
inductive Pc where
  /-- about to call `s.store.HasProcessed` (line 45) -/
  | check
  /-- about to call `exporter.Export` (line 57) -/
  | send
  /-- about to call `s.store.MarkProcessed` (line 69) -/
  | mark
  /-- about to execute `errChan <- err` (lines 47, 58, 70) -/
  | report (err : Error)
  /-- returned (`wg.Done()` has run) -/
  | done
deriving DecidableEq, Repr

/-- The message built at `notification.go:47`. -/
def checkError (item : Item) (exporterType : String) (err : Error) : Error :=
  "failed to check if item was processed: item=" ++ item.ID ++ " exporter=" ++ exporterType
    ++ " error=" ++ err

/-- The message built at `notification.go:58`. -/
def exportError (item : Item) (exporterType : String) (err : Error) : Error :=
  "failed to export item: item=" ++ item.ID ++ " exporter=" ++ exporterType
    ++ " error=" ++ err

/-- The message built at `notification.go:70`. -/
def markError (item : Item) (exporterType : String) (err : Error) : Error :=
  "failed to mark item as processed: item=" ++ item.ID ++ " exporter=" ++ exporterType
    ++ " error=" ++ err

/-- The `sourceTTL` computed at `notification.go:63-66`. -/
def sourceTTLOf {σ : Type} (exporter : Exporter σ) : Option Duration :=
  match exporter.GetSourceTTL with
  | some ttl => ttl
  | none => none

/-- Result of one atomic action of a goroutine. -/
structure UnitResult (σ : Type) where
  pc : Pc
  world : σ
  action : Option Action

/-- One atomic action of the goroutine body (`notification.go:41-75`) for the pair
`(item, exporter)`, from program counter `pc` in world `w`.  `chanFull` tells whether
`errChan` is full, in which case a send blocks (the goroutine does not move). -/
def unitStep {σ : Type} (store : Store σ) (item : Item) (exporter : Exporter σ)
    (chanFull : Bool) (pc : Pc) (w : σ) : UnitResult σ :=
  match pc with
  | .check =>
    match store.HasProcessed item.ID exporter.GetType w with
    | ((processed, some err), w1) =>
      ⟨.report (checkError item exporter.GetType err), w1,
        some (.hasProcessed item.ID exporter.GetType processed (some err))⟩
    | ((true, none), w1) =>
      ⟨.done, w1, some (.hasProcessed item.ID exporter.GetType true none)⟩
    | ((false, none), w1) =>
      ⟨.send, w1, some (.hasProcessed item.ID exporter.GetType false none)⟩
  | .send =>
    match exporter.Export item w with
    | (some err, w1) =>
      ⟨.report (exportError item exporter.GetType err), w1, some (.export item (some err))⟩
    | (none, w1) => ⟨.mark, w1, some (.export item none)⟩
  | .mark =>
    match store.MarkProcessed item.ID exporter.GetType (sourceTTLOf exporter) w with
    | (some err, w1) =>
      ⟨.report (markError item exporter.GetType err), w1,
        some (.markProcessed item.ID exporter.GetType (sourceTTLOf exporter) (some err))⟩
    | (none, w1) =>
      ⟨.done, w1, some (.markProcessed item.ID exporter.GetType (sourceTTLOf exporter) none)⟩
  | .report err =>
    if chanFull then ⟨.report err, w, none⟩ else ⟨.done, w, some (.sendErr err)⟩
  | .done => ⟨.done, w, none⟩

/-- The state of one `ProcessItems` call while its goroutines run: the world, the
program counter of every goroutine, the contents of `errChan`, and the log of all
actions so far, each tagged with the index of the goroutine that performed it. -/
structure FanOut (σ : Type) where
  world : σ
  pcs : List Pc
  errChan : List Error
  trace : List (Nat × Action)

/-- The goroutines launched by the loops at `notification.go:30-39`, in launch order:
for each item, one per exporter whose group equals the item's group. -/
def unitsOf {σ : Type} (items : List Item) (exporters : List (Exporter σ)) :
    List (Item × Exporter σ) :=
  items.flatMap fun item =>
    (exporters.filter fun exporter => exporter.GetGroup == item.Group).map
      fun exporter => (item, exporter)

/-- The goroutine with index `i` performs its next atomic action. -/
def step {σ : Type} (store : Store σ) (cap : Nat) (units : List (Item × Exporter σ))
    (i : Nat) (st : FanOut σ) : FanOut σ :=
  match units[i]?, st.pcs[i]? with
  | some (item, exporter), some pc =>
    let r := unitStep store item exporter (decide (cap ≤ st.errChan.length)) pc st.world
    { world := r.world
      pcs := st.pcs.set i r.pc
      errChan := match r.action with
        | some (.sendErr err) => st.errChan ++ [err]
        | _ => st.errChan
      trace := match r.action with
        | some a => st.trace ++ [(i, a)]
        | none => st.trace }
  | _, _ => st

/-- Runs the goroutines in the order given by the schedule `sched`. -/
def run {σ : Type} (store : Store σ) (cap : Nat) (units : List (Item × Exporter σ))
    (sched : List Nat) (st : FanOut σ) : FanOut σ :=
  sched.foldl (fun s i => step store cap units i s) st

/-- A schedule that lets every goroutine still running finish, one after the other
(a goroutine performs at most four actions). -/
def drain (n : Nat) : List Nat :=
  (List.range n).flatMap fun i => [i, i, i, i]

/-- The error value built at `notification.go:91`, kept as the two arguments of
the format string. -/
structure ProcessError where
  count : Nat
  errors : List Error
deriving DecidableEq, Repr

/-- The message of a `ProcessError`. -/
def ProcessError.Error (e : ProcessError) : String :=
  "encountered " ++ toString e.count ++ " errors while processing items: ["
    ++ " ".intercalate e.errors ++ "]"

/-- Lines 83-94 of `notification.go`: drain the closed channel and build the result. -/
def collect (errors : List Error) : Option ProcessError :=
  if errors.length > 0 then some ⟨errors.length, errors⟩ else none

/-- What a `ProcessItems` call leaves behind: the returned error, the world, and the
log of the actions of its goroutines. -/
structure Outcome (σ : Type) where
  result : Option ProcessError
  world : σ
  trace : List (Nat × Action)

/-- The goroutines of one `ProcessItems` call (`notification.go:27-80`) run from
launch until `wg.Wait()`: they interleave as `sched` dictates and are then left to
finish.  `errChan` has capacity `len(items)*len(exporters)`. -/
def fanOut {σ : Type} (store : Store σ) (items : List Item)
    (exporters : List (Exporter σ)) (sched : List Nat) (w : σ) : FanOut σ :=
  run store (items.length * exporters.length) (unitsOf items exporters)
    (sched ++ drain (unitsOf items exporters).length)
    ⟨w, List.replicate (unitsOf items exporters).length Pc.check, [], []⟩

/-- The state of the goroutines of one `ProcessItems` call after the steps `sched`,
counted from their launch. -/
def reach {σ : Type} (store : Store σ) (items : List Item)
    (exporters : List (Exporter σ)) (sched : List Nat) (w : σ) : FanOut σ :=
  run store (items.length * exporters.length) (unitsOf items exporters) sched
    ⟨w, List.replicate (unitsOf items exporters).length Pc.check, [], []⟩

/-- The method `NotificationService.ProcessItems` (`notification.go:26-95`).
`wg.Wait()` returns once every goroutine has returned, and the call yields `none`
when some goroutine never returns (it stays blocked on `errChan`). -/
def ProcessItems {σ : Type} (store : Store σ) (items : List Item)
    (exporters : List (Exporter σ)) (sched : List Nat) (w : σ) : Option (Outcome σ) :=
  let st := fanOut store items exporters sched w
  if st.pcs.all (fun pc => pc == Pc.done) then
    some ⟨collect st.errChan, st.world, st.trace⟩
  else none

/-! ### The Redis-backed store (`internal/store/redis.go`) -/

/-- The two commands of `*redis.Client` that the store issues, over a server state `ρ`:
`Exists(ctx, key).Result()` and `Set(ctx, key, value, ttl).Err()`. -/
structure RedisClient (ρ : Type) where
  Exists : String → ρ → (Int × Option Error) × ρ
  Set : String → String → Duration → ρ → Option Error × ρ

/-- The struct `config.RedisConfig`. -/
structure RedisConfig where
  Address : String
  Password : String
  DB : Int
  TTL : Duration
deriving DecidableEq, Repr

/-- The struct `store.RedisStore`. -/
structure RedisStore (ρ : Type) where
  client : RedisClient ρ
  config : RedisConfig

/-- The key built at `redis.go:44` and `redis.go:57`:
`fmt.Sprintf("bridgr:processed:%s:%s", exporterID, itemID)`. -/
def processedKey (exporterID itemID : String) : String :=
  "bridgr:processed:" ++ exporterID ++ ":" ++ itemID

/-- The method `RedisStore.HasProcessed` (`redis.go:42-52`). -/
def RedisStore.HasProcessed {ρ : Type} (s : RedisStore ρ) (itemID exporterID : String)
    (r : ρ) : (Bool × Option Error) × ρ :=
  let key := processedKey exporterID itemID
  match s.client.Exists key r with
  | ((_, some err), r1) => ((false, some ("failed to check if item was processed: " ++ err)), r1)
  | ((n, none), r1) => ((n == 1, none), r1)

/-- The method `RedisStore.MarkProcessed` (`redis.go:54-71`). -/
def RedisStore.MarkProcessed {ρ : Type} (s : RedisStore ρ) (itemID exporterID : String)
    (sourceTTL : Option Duration) (r : ρ) : Option Error × ρ :=
  let key := processedKey exporterID itemID
  let ttl := match sourceTTL with
    | some d => d
    | none => s.config.TTL
  match s.client.Set key "1" ttl r with
  | (some err, r1) => (some ("failed to mark item as processed: " ++ err), r1)
  | (none, r1) => (none, r1)

/-- A `RedisStore` seen through the interface `domain.Store`. -/
def RedisStore.toStore {ρ : Type} (s : RedisStore ρ) : Store ρ :=
  ⟨s.HasProcessed, s.MarkProcessed⟩

/-- An in-memory Redis server for concrete runs: a clock and the stored entries
`(key, value, expiry instant)`; an entry without expiry instant never expires. -/
structure MemRedis where
  now : Int
  entries : List (String × String × Option Int)
deriving DecidableEq, Repr

/-- Whether `key` is present and not expired. -/
def MemRedis.live (m : MemRedis) (key : String) : Bool :=
  m.entries.any fun e => e.1 == key &&
    match e.2.2 with
    | some t => decide (m.now < t)
    | none => true

/-- A client talking to a `MemRedis` server that always answers: `EXISTS` counts the
live key, `SET` replaces the entry, with expiry `ttl` from now when `ttl` is positive
and without expiry when it is zero (go-redis: zero expiration means no expiry). -/
def memClient : RedisClient MemRedis where
  Exists := fun key m => ((if m.live key then 1 else 0, none), m)
  Set := fun key value ttl m =>
    (none, { m with entries :=
      (key, value, if 0 < ttl then some (m.now + ttl) else none) ::
        m.entries.filter fun e => e.1 != key })

/-- The methods `GetType` and `GetGroup` of `WebhookExporter` (`webhook.go:164-172`)
with the method `Export` supplied as `deliver`; the type has no method
`GetSourceTTL`. -/
def webhookExporter {σ : Type} (group : String) (deliver : Item → σ → Option Error × σ) :
    Exporter σ where
  Export := deliver
  GetType := "webhook"
  GetGroup := group
  GetSourceTTL := none

/-! ### Reading the action log -/

/-- The actions of goroutine `i` in a log, in the order they happened. -/
def actsOf (i : Nat) (trace : List (Nat × Action)) : List Action :=
  (trace.filter fun e => e.1 == i).map Prod.snd

/-- An interface call that returned a non-nil error. -/
def Action.failed : Action → Bool
  | .hasProcessed _ _ _ (some _) => true
  | .export _ (some _) => true
  | .markProcessed _ _ _ (some _) => true
  | _ => false

/-- A call of `Export`. -/
def Action.isExport : Action → Bool
  | .export _ _ => true
  | _ => false

/-- A call of `MarkProcessed`. -/
def Action.isMark : Action → Bool
  | .markProcessed _ _ _ _ => true
  | _ => false

/-- A call of `HasProcessed`. -/
def Action.isLookup : Action → Bool
  | .hasProcessed _ _ _ _ => true
  | _ => false

/-- A send on `errChan`. -/
def Action.isSend : Action → Bool
  | .sendErr _ => true
  | _ => false

/-- The error sent on `errChan` by a log entry, if it is a send. -/
def sentErr (e : Nat × Action) : Option Error :=
  match e.2 with
  | .sendErr err => some err
  | _ => none

/-- The goroutines, among the first `n`, one of whose calls returned an error. -/
def failedUnits (n : Nat) (trace : List (Nat × Action)) : List Nat :=
  (List.range n).filter fun i => (actsOf i trace).any Action.failed

/-- The history of a goroutine for `(item, exporter)` that ends with a failed call,
and the error `e` it is about to report. -/
def Failing {σ : Type} (item : Item) (exporter : Exporter σ) (e : Error)
    (acts : List Action) : Prop :=
  (∃ b err, acts = [.hasProcessed item.ID exporter.GetType b (some err)] ∧
      e = checkError item exporter.GetType err) ∨
  (∃ err, acts = [.hasProcessed item.ID exporter.GetType false none,
        .export item (some err)] ∧
      e = exportError item exporter.GetType err) ∨
  (∃ err, acts = [.hasProcessed item.ID exporter.GetType false none, .export item none,
        .markProcessed item.ID exporter.GetType (sourceTTLOf exporter) (some err)] ∧
      e = markError item exporter.GetType err)

/-- The history that a goroutine for `(item, exporter)` has at program counter `pc`. -/
def UnitInv {σ : Type} (item : Item) (exporter : Exporter σ) (pc : Pc)
    (acts : List Action) : Prop :=
  match pc with
  | .check => acts = []
  | .send => acts = [.hasProcessed item.ID exporter.GetType false none]
  | .mark => acts = [.hasProcessed item.ID exporter.GetType false none, .export item none]
  | .report e => Failing item exporter e acts
  | .done =>
    acts = [.hasProcessed item.ID exporter.GetType true none] ∨
    acts = [.hasProcessed item.ID exporter.GetType false none, .export item none,
      .markProcessed item.ID exporter.GetType (sourceTTLOf exporter) none] ∨
    ∃ e pre, Failing item exporter e pre ∧ acts = pre ++ [.sendErr e]

/-- Number of goroutines that have not returned yet. -/
def running (pcs : List Pc) : Nat :=
  pcs.countP fun pc => pc != Pc.done

/-- The invariant of the fan-out: every goroutine has the history that its program
counter implies, `errChan` holds exactly the errors sent, and there is room in
`errChan` for every goroutine still running. -/
structure Inv {σ : Type} (units : List (Item × Exporter σ)) (st : FanOut σ) : Prop where
  len : st.pcs.length = units.length
  unit : ∀ i item exporter pc, units[i]? = some (item, exporter) → st.pcs[i]? = some pc →
    UnitInv item exporter pc (actsOf i st.trace)
  idx : ∀ e ∈ st.trace, e.1 < units.length
  chan : st.errChan = st.trace.filterMap sentErr
  room : st.errChan.length + running st.pcs ≤ units.length

/-- Distance of a goroutine from its return, in atomic actions. -/
def Pc.rank : Pc → Nat
  | .check => 4
  | .send => 3
  | .mark => 2
  | .report _ => 1
  | .done => 0

/-- Rank of goroutine `i` in a state (zero when there is no such goroutine). -/
def rankAt {σ : Type} (st : FanOut σ) (i : Nat) : Nat :=
  (st.pcs[i]?.map Pc.rank).getD 0

/-- The goroutines that sent on `errChan`, one entry per send. -/
def senders (trace : List (Nat × Action)) : List Nat :=
  (trace.filter fun e => e.2.isSend).map Prod.fst

/-- The log entry `a` of a goroutine whose exporter is `exporter` records a call made in
world `w` that left world `w1`: the entry names the arguments of the call and the result
that the interface method returned in `w`.  A send on `errChan` leaves the world as it
is. -/
def Action.records {σ : Type} (store : Store σ) (exporter : Exporter σ) :
    Action → σ → σ → Prop
  | .hasProcessed id ty b err, w, w1 => store.HasProcessed id ty w = ((b, err), w1)
  | .export item err, w, w1 => exporter.Export item w = (err, w1)
  | .markProcessed id ty ttl err, w, w1 => store.MarkProcessed id ty ttl w = (err, w1)
  | .sendErr _, w, w1 => w1 = w

/-- The log `trace` is the true record of an execution that starts in world `w` and
ends in world `w'`: its entries are the calls made, in order, each by a launched
goroutine and each in the world left by the one before, with the results that the
interface methods returned there, and nothing else has touched the world. -/
def Faithful {σ : Type} (store : Store σ) (units : List (Item × Exporter σ)) :
    List (Nat × Action) → σ → σ → Prop
  | [], w, w' => w' = w
  | (i, a) :: rest, w, w' =>
    ∃ item exporter w1, units[i]? = some (item, exporter) ∧ a.records store exporter w w1 ∧
      Faithful store units rest w1 w'

/-- The histories of a goroutine for `(item, exporter)` that has returned: the lookup
alone when it reported the item as processed; lookup, `Export` and `MarkProcessed` when
all three succeeded; otherwise the calls up to the first that failed, followed by the
send of the error built from that failure. -/
def Complete {σ : Type} (item : Item) (exporter : Exporter σ) (acts : List Action) : Prop :=
  acts = [.hasProcessed item.ID exporter.GetType true none] ∨
  acts = [.hasProcessed item.ID exporter.GetType false none, .export item none,
    .markProcessed item.ID exporter.GetType (sourceTTLOf exporter) none] ∨
  (∃ b err, acts = [.hasProcessed item.ID exporter.GetType b (some err),
    .sendErr (checkError item exporter.GetType err)]) ∨
  (∃ err, acts = [.hasProcessed item.ID exporter.GetType false none,
    .export item (some err), .sendErr (exportError item exporter.GetType err)]) ∨
  (∃ err, acts = [.hasProcessed item.ID exporter.GetType false none, .export item none,
    .markProcessed item.ID exporter.GetType (sourceTTLOf exporter) (some err),
    .sendErr (markError item exporter.GetType err)])

/-! ### The token bucket (`internal/ratelimit/limiter.go`) -/

/-- Round to the nearest integer, ties to the even one. -/
def roundHalfEven (q : ℚ) : ℤ :=
  if q - ⌊q⌋ < 1 / 2 then ⌊q⌋
  else if 1 / 2 < q - ⌊q⌋ then ⌊q⌋ + 1
  else if ⌊q⌋ % 2 = 0 then ⌊q⌋
  else ⌊q⌋ + 1

/-- Exponent of the unit in the last place of the binary64 numbers near `x`. -/
def ulpExp (x : ℚ) : ℤ :=
  max (Int.log 2 |x| - 52) (-1074)

/-- Rounding to binary64 (`float64`): to the nearest number with a 53-bit significand,
ties to the even significand, with gradual underflow.  Every float operation of the
program is the exact operation on rationals followed by this rounding; NaN, the
infinities and overflow past the largest finite number are outside the model. -/
def round64 (x : ℚ) : ℚ :=
  roundHalfEven (x / 2 ^ ulpExp x) * 2 ^ ulpExp x

/-- The method `time.Duration.Seconds`: `float64(sec) + float64(nsec)/1e9` with
`sec := d / Second` and `nsec := d % Second` (truncated division). -/
def Seconds (d : Duration) : ℚ :=
  round64 (round64 (d.tdiv 1000000000) + round64 (round64 (d.tmod 1000000000) / 1000000000))

/-- The struct `ratelimit.Limiter` (without its mutex); `lastRefill` is a reading of
the monotonic clock in nanoseconds. -/
structure Limiter where
  rate : ℚ
  bucketSize : ℚ
  tokens : ℚ
  lastRefill : Int
deriving DecidableEq, Repr

/-- The function `NewLimiter` (`limiter.go:19-30`), called at instant `now`. -/
def NewLimiter (requestsPerSecond : ℚ) (now : Int) : Limiter :=
  { rate := requestsPerSecond
    bucketSize := round64 (requestsPerSecond * (3 / 2))
    tokens := round64 (requestsPerSecond * (3 / 2))
    lastRefill := now }

/-- The function `min` of `limiter.go:80-85`. -/
def minFloat (a b : ℚ) : ℚ :=
  if a < b then a else b

/-- The method `Limiter.Allow` (`limiter.go:32-53`), called at instant `now` (the
value of `time.Now()`), every float operation rounded on its own. -/
def Limiter.Allow (l : Limiter) (now : Int) : Bool × Limiter :=
  let elapsed := Seconds (now - l.lastRefill)
  let tokens := minFloat l.bucketSize (round64 (l.tokens + round64 (elapsed * l.rate)))
  if 1 ≤ tokens then
    (true, { l with lastRefill := now, tokens := round64 (tokens - 1) })
  else
    (false, { l with lastRefill := now, tokens := tokens })

/-- Consecutive calls of `Allow` at the given instants: the answers and the limiter
they leave. -/
def allowMany (l : Limiter) : List Int → List Bool × Limiter
  | [] => ([], l)
  | now :: rest =>
    ((l.Allow now).1 :: (allowMany (l.Allow now).2 rest).1, (allowMany (l.Allow now).2 rest).2)

/-- With no time passing, exactly `n` consecutive calls of `Allow` are admitted: the
first `n` return true and the next one returns false. -/
def admitsExactly (l : Limiter) (now : Int) (n : Nat) : Prop :=
  (allowMany l (List.replicate (n + 1) now)).1 = List.replicate n true ++ [false]

/-! ### Waiting for a token (`limiter.go:55-78`) -/

/-- The conversion `time.Duration(x)` of a `float64`: truncation toward zero.  This is
the conversion for values within the range of `int64`; beyond it Go leaves the result to
the implementation, and such values are outside the model. -/
def durationOfFloat (x : ℚ) : Duration :=
  if 0 ≤ x then ⌊x⌋ else ⌈x⌉

/-- The `sleepDuration` of `limiter.go:64`:
`time.Duration(float64(time.Second) / l.rate / 5)`. -/
def sleepDuration (l : Limiter) : Duration :=
  durationOfFloat (round64 (round64 (1000000000 / l.rate) / 5))

/-- The method `Limiter.Wait` (`limiter.go:55-78`), entered at instant `now`.  Each
`time.Sleep` lasts `sleepDuration` plus an overrun taken from `delays`; the result is the
limiter and the instant at which `Wait` returns, or `none` when `Allow` has refused
once more than there are overruns given, the loop still running. -/
def Limiter.Wait (l : Limiter) (now : Int) : List Nat → Option (Limiter × Int)
  | [] => if (l.Allow now).1 then some ((l.Allow now).2, now) else none
  | d :: rest =>
    if (l.Allow now).1 then some ((l.Allow now).2, now)
    else Limiter.Wait (l.Allow now).2 (now + sleepDuration l + d) rest

/-! ### Configuration (`internal/config`) -/

/-- The struct `config.SourceConfig`. -/
structure SourceConfig where
  Type_ : String
  URL : String
  Interval : Duration
  TTL : Duration
deriving DecidableEq, Repr

/-- The struct `config.RateLimitConfig`. -/
structure RateLimitConfig where
  RequestsPerSecond : ℚ
deriving DecidableEq, Repr

/-- A value of the map `ExporterConfig.Options`, as far as the program inspects it: a
string, or a value of another type. -/
inductive OptionValue where
  | str (s : String)
  | other
deriving DecidableEq, Repr

/-- The struct `config.ExporterConfig`; `Options` is the lookup of the map. -/
structure ExporterConfig where
  Type_ : String
  Value : String
  Options : String → Option OptionValue
  RateLimit : Option RateLimitConfig

/-- The struct `config.GroupConfig`. -/
structure GroupConfig where
  Name : String
  Sources : List SourceConfig
  Exporters : List ExporterConfig

/-- The struct `config.ServerConfig`. -/
structure ServerConfig where
  Port : Int
deriving DecidableEq, Repr

/-- The struct `config.Config`. -/
structure Config where
  Groups : List GroupConfig
  Redis : RedisConfig
  Server : ServerConfig

/-- The loop over `group.Sources` in `ValidateConfig` (`config.go:83-93`): the first
error, if any. -/
def validateSources (groupName : String) : List SourceConfig → Option Error
  | [] => none
  | source :: rest =>
    if source.Type_ = "" then
      some ("source type cannot be empty in group " ++ groupName)
    else if source.URL = "" then
      some ("source URL cannot be empty in group " ++ groupName)
    else if source.Interval = 0 then
      some ("source interval cannot be zero in group " ++ groupName)
    else validateSources groupName rest

/-- The loop over `group.Exporters` in `ValidateConfig` (`config.go:95-102`). -/
def validateExporters (groupName : String) : List ExporterConfig → Option Error
  | [] => none
  | exporter :: rest =>
    if exporter.Type_ = "" then
      some ("exporter type cannot be empty in group " ++ groupName)
    else if exporter.Value = "" then
      some ("exporter value cannot be empty in group " ++ groupName)
    else validateExporters groupName rest

/-- The loop over `config.Groups` in `ValidateConfig` (`config.go:70-103`). -/
def validateGroups : List GroupConfig → Option Error
  | [] => none
  | group :: rest =>
    if group.Name = "" then
      some "group name cannot be empty"
    else if group.Sources.length = 0 then
      some ("group " ++ group.Name ++ " has no sources")
    else if group.Exporters.length = 0 then
      some ("group " ++ group.Name ++ " has no exporters")
    else
      match validateSources group.Name group.Sources with
      | some err => some err
      | none =>
        match validateExporters group.Name group.Exporters with
        | some err => some err
        | none => validateGroups rest

/-- The function `ValidateConfig` (`config.go:64-106`). -/
def ValidateConfig (config : Config) : Option Error :=
  if config.Groups.length = 0 then some "no groups configured"
  else validateGroups config.Groups

/-- What the specification requires of a configuration. -/
def Config.WellFormed (config : Config) : Prop :=
  config.Groups ≠ [] ∧
  ∀ group ∈ config.Groups,
    group.Name ≠ "" ∧ group.Sources ≠ [] ∧ group.Exporters ≠ [] ∧
    (∀ source ∈ group.Sources,
      source.Type_ ≠ "" ∧ source.URL ≠ "" ∧ source.Interval ≠ 0) ∧
    (∀ exporter ∈ group.Exporters, exporter.Type_ ≠ "" ∧ exporter.Value ≠ "")

/-! ### The webhook exporter (`internal/exporters`) -/

/-- An outbound `*http.Request`. -/
structure Request where
  Method : String
  URL : String
  Header : List (String × String)
  Body : String
deriving DecidableEq, Repr

/-- An `*http.Response`, with the body that `io.ReadAll` yields. -/
structure Response where
  StatusCode : Int
  Body : String
deriving DecidableEq, Repr

/-- What `client.Do` returns: a response, or a transport error. -/
inductive Reply where
  | response (resp : Response)
  | failure (err : Error)
deriving DecidableEq, Repr

/-- The anonymous struct `rateLimitResp` of `webhook.go:143-147`. -/
structure RateLimitResp where
  Message : String
  RetryAfter : ℚ
  Global : Bool
deriving DecidableEq, Repr

/-- The `payload` chosen at `webhook.go:104-119`: `createDiscordPayload(item)`,
`createTeamsPayload(item)`, or the item itself. -/
inductive Payload where
  | discord (item : Item)
  | teams (item : Item)
  | plain (item : Item)
deriving DecidableEq, Repr

/-- The functions of the Go standard library that `Export` calls: `json.Marshal` on the
payload, `http.NewRequest(method, url, body)`, and `json.Unmarshal(body, &rateLimitResp)`,
which is `none` when it returns an error. -/
structure Lib where
  Marshal : Payload → Except Error String
  NewRequest : String → String → String → Except Error Request
  Unmarshal : String → Option RateLimitResp

/-- What lies outside a webhook exporter: the clock, the replies that the endpoint will
give to the coming requests (once they are used up the client times out), and the log of
the requests sent and of the pauses taken. -/
structure Net where
  now : Int
  replies : List Reply
  sent : List Request
  slept : List Duration
deriving DecidableEq, Repr

/-- The call `e.client.Do(req)`. -/
def Net.Do (net : Net) (req : Request) : Reply × Net :=
  match net.replies with
  | [] => (.failure "context deadline exceeded", { net with sent := net.sent ++ [req] })
  | r :: rest => (r, { net with replies := rest, sent := net.sent ++ [req] })

/-- The call `time.Sleep(d)`: returns at once when `d` is not positive. -/
def Net.Sleep (net : Net) (d : Duration) : Net :=
  { net with now := net.now + max d 0, slept := net.slept ++ [d] }

/-- The struct `exporters.WebhookExporter`; `limiter` is the limiter that the pointer
field addresses, `none` for `nil`.  The HTTP client is part of `Net`. -/
structure WebhookExporter where
  config : ExporterConfig
  group : String
  limiter : Option Limiter

/-- The function `NewWebhookExporter` (`webhook.go:78-94`), called at instant `now`. -/
def NewWebhookExporter (cfg : ExporterConfig) (group : String) (now : Int) :
    WebhookExporter :=
  { config := cfg
    group := group
    limiter := match cfg.RateLimit with
      | some rl => some (NewLimiter rl.RequestsPerSecond now)
      | none => none }

/-- The method `WebhookExporter.GetType` (`webhook.go:164-167`). -/
def WebhookExporter.GetType (_e : WebhookExporter) : String := "webhook"

/-- The method `WebhookExporter.GetGroup` (`webhook.go:169-172`). -/
def WebhookExporter.GetGroup (e : WebhookExporter) : String := e.group

/-- Lines 98-101 of `webhook.go`: wait for the rate limit if one is configured.  The
pauses of `Wait` are exact, and `fuel` bounds the refusals that are waited for;
`none` when `Wait` has not returned by then. -/
def WebhookExporter.waitLimiter (fuel : Nat) (e : WebhookExporter) (net : Net) :
    Option (WebhookExporter × Net) :=
  match e.limiter with
  | none => some (e, net)
  | some l =>
    match l.Wait net.now (List.replicate fuel 0) with
    | none => none
    | some (l1, t) => some ({ e with limiter := some l1 }, { net with now := t })

/-- Lines 103-131 of `webhook.go`: the payload for the configured format, marshalled,
in a POST request to the configured URL. -/
def WebhookExporter.request (lib : Lib) (e : WebhookExporter) (item : Item) :
    Except Error Request :=
  let payload :=
    match e.config.Options "format" with
    | some (.str "discord") => Payload.discord item
    | some (.str "teams") => Payload.teams item
    | _ => Payload.plain item
  match lib.Marshal payload with
  | .error err => .error ("failed to marshal payload: item=" ++ item.ID ++ " error=" ++ err)
  | .ok data =>
    match lib.NewRequest "POST" e.config.Value data with
    | .error err =>
      .error ("failed to create request: item=" ++ item.ID ++ " error=" ++ err)
    | .ok req =>
      .ok { req with Header := req.Header ++ [("Content-Type", "application/json")] }

/-- The error built at `webhook.go:157`. -/
def requestFailed (e : WebhookExporter) (item : Item) (resp : Response) : Error :=
  "webhook request failed: item=" ++ item.ID ++ " url=" ++ e.config.Value ++ " status="
    ++ toString resp.StatusCode ++ " body=" ++ resp.Body

/-- The method `WebhookExporter.Export` (`webhook.go:96-162`): the returned error, the
exporter and the outside after the call.  The method calls itself after a rate-limit
response; `fuel` bounds the number of attempts, and the result is `none` when the call
has not returned within them. -/
def WebhookExporter.Export (lib : Lib) :
    Nat → WebhookExporter → Item → Net → Option (Option Error × WebhookExporter × Net)
  | 0, _, _, _ => none
  | fuel + 1, e, item, net =>
    match e.waitLimiter fuel net with
    | none => none
    | some (e1, net1) =>
      match e1.request lib item with
      | .error err => some (some err, e1, net1)
      | .ok req =>
        match net1.Do req with
        | (.failure err, net2) =>
          some (some ("failed to send webhook: item=" ++ item.ID ++ " url=" ++ e1.config.Value
            ++ " error=" ++ err), e1, net2)
        | (.response resp, net2) =>
          if 400 ≤ resp.StatusCode then
            if resp.StatusCode = 429 then
              match lib.Unmarshal resp.Body with
              | some rateLimitResp =>
                WebhookExporter.Export lib fuel e1 item
                  (net2.Sleep (durationOfFloat (round64 (rateLimitResp.RetryAfter * 1000000000))))
              | none => some (some (requestFailed e1 item resp), e1, net2)
            else some (some (requestFailed e1 item resp), e1, net2)
          else some (none, e1, net2)

/-- A `*WebhookExporter` seen through the interface `domain.Exporter`, its method
`Export` acting on the world as `deliver`: the type has the methods `Export`, `GetType`
and `GetGroup`, and no method `GetSourceTTL`. -/
def WebhookExporter.toExporter {σ : Type} (e : WebhookExporter)
    (deliver : Item → σ → Option Error × σ) : Exporter σ :=
  webhookExporter e.GetGroup deliver

/-- The method `Factory.CreateExporter` (`exporters/factory.go:19-26`), called at
instant `now`. -/
def CreateExporter (cfg : ExporterConfig) (group : String) (now : Int) :
    Except Error WebhookExporter :=
  if cfg.Type_ = "webhook" then .ok (NewWebhookExporter cfg group now)
  else .error ("unknown exporter type: " ++ cfg.Type_)

/-- The struct `sources.RSSSource` (without its feed parser). -/
structure RSSSource where
  config : SourceConfig
  group : String
  lastRun : Int
deriving DecidableEq, Repr

/-- The function `NewRSSSource` (`rss.go:22-29`). -/
def NewRSSSource (cfg : SourceConfig) (group : String) : RSSSource :=
  { config := cfg, group := group, lastRun := 0 }

/-- The method `RSSSource.GetSourceTTL` (`rss.go:96-102`). -/
def RSSSource.GetSourceTTL (s : RSSSource) : Option Duration :=
  if 0 < s.config.TTL then some s.config.TTL else none

/-! ### The scheduler (`internal/services/scheduler.go`) -/

/-- The interface `domain.Source`, over a world state `σ`. -/
structure Source (σ : Type) where
  Fetch : σ → (List Item × Option Error) × σ
  GetType : String
  GetInterval : Duration
  GetGroup : String

/-- What one source task does and undergoes, as it is logged. -/
inductive Logged where
  /-- the cancellation signal is raised: `ctx.Done()` is closed -/
  | cancelled
  /-- the task receives a tick from `ticker.C` -/
  | received
  /-- `source.Fetch()` is called and returns that many items and that error -/
  | fetch (items : Nat) (err : Option Error)
  /-- `ProcessItems` is called on the batch and returns that error -/
  | processItems (items : List Item) (result : Option ProcessError)
  /-- `logger.Error("Failed to poll source: ...")` -/
  | logError (msg : String)
  /-- `scheduleSource` returns -/
  | returned
  /-- `time.NewTicker` panics -/
  | panicked
deriving DecidableEq, Repr

/-- The method `SchedulerService.pollSource` (`scheduler.go:65-77`): the returned error,
the world, and what the call logs.  `sched` is the schedule of the goroutines of
`ProcessItems`; the result is `none` when `ProcessItems` does not return. -/
def pollSource {σ : Type} (store : Store σ) (exporters : List (Exporter σ))
    (source : Source σ) (sched : List Nat) (w : σ) :
    Option (Option Error × σ × List Logged) :=
  match source.Fetch w with
  | ((items, some err), w1) =>
    some (some ("failed to fetch items: " ++ err), w1, [.fetch items.length (some err)])
  | ((items, none), w1) =>
    if items.length = 0 then some (none, w1, [.fetch 0 none])
    else
      match ProcessItems store items exporters sched w1 with
      | none => none
      | some out =>
        some (out.result.map ProcessError.Error, out.world,
          [.fetch items.length none, .processItems items out.result])

/-- Where a source task stands in `scheduleSource` (`scheduler.go:48-63`). -/
inductive Loc where
  /-- about to execute the `select` (line 53) -/
  | head
  /-- blocked in the `select`, neither case having been ready when it got there -/
  | parked
  /-- has received from `ticker.C` (line 57) and is about to call `pollSource` -/
  | received
  /-- inside a call of `pollSource` that does not return -/
  | stuck
  /-- has returned (line 55) -/
  | returned
  /-- has panicked in `time.NewTicker` (line 49) -/
  | panicked
deriving DecidableEq, Repr

/-- The state of one source task running `scheduleSource`: the world, where the task
stands, whether `ctx.Done()` is closed, whether a tick waits in `ticker.C`, and the
log. -/
structure Task (σ : Type) where
  world : σ
  loc : Loc
  done : Bool
  tick : Bool
  log : List Logged

/-- What happens to a source task.  `cancel`: the cancellation signal is raised.
`tick`: the ticker fires; the tick is dropped when one already waits, the channel holding
one.  `arrive`: the task executes its `select`; when both cases are ready the Go runtime
picks one at random, `pickTick` telling which.  `poll`: the task, having received a
tick, calls `pollSource`; `sched` schedules the goroutines of its `ProcessItems`. -/
inductive Event where
  | cancel
  | tick
  | arrive (pickTick : Bool)
  | poll (sched : List Nat)
deriving DecidableEq, Repr

/-- The body of the case `<-ticker.C` of `scheduleSource` (`scheduler.go:58-60`): poll
the source and log the error, if any; the task then heads for its `select` again. -/
def Task.poll {σ : Type} (store : Store σ) (exporters : List (Exporter σ))
    (source : Source σ) (sched : List Nat) (t : Task σ) : Task σ :=
  match pollSource store exporters source sched t.world with
  | none => { t with loc := .stuck }
  | some (some err, w, logged) =>
    { t with
      world := w
      loc := .head
      log := t.log ++ logged ++
        [.logError ("Failed to poll source: source=" ++ source.GetType ++ " error=" ++ err)] }
  | some (none, w, logged) =>
    { t with world := w, loc := .head, log := t.log ++ logged }

/-- One event in the life of a source task running the loop of `scheduleSource`
(`scheduler.go:53-62`).  A task blocked in `select` takes the case that becomes ready
first; a task that executes `select` takes the ready case, either of them when both are
ready, and blocks when none is.  Receiving the tick and calling `pollSource` are two
steps, and other events may fall between them. -/
def Task.step {σ : Type} (store : Store σ) (exporters : List (Exporter σ))
    (source : Source σ) (t : Task σ) (ev : Event) : Task σ :=
  match ev with
  | .cancel =>
    if t.done || t.loc == .panicked then t
    else if t.loc == .parked then
      { t with done := true, loc := .returned, log := t.log ++ [.cancelled, .returned] }
    else { t with done := true, log := t.log ++ [.cancelled] }
  | .tick =>
    if t.loc == .parked then { t with loc := .received, log := t.log ++ [.received] }
    else if t.loc == .returned || t.loc == .panicked then t
    else { t with tick := true }
  | .arrive pickTick =>
    if t.loc == .head then
      if t.done then
        if t.tick && pickTick then
          { t with loc := .received, tick := false, log := t.log ++ [.received] }
        else { t with loc := .returned, log := t.log ++ [.returned] }
      else if t.tick then
        { t with loc := .received, tick := false, log := t.log ++ [.received] }
      else { t with loc := .parked }
    else t
  | .poll sched =>
    if t.loc == .received then t.poll store exporters source sched else t

/-- The method `SchedulerService.scheduleSource` (`scheduler.go:48-63`), driven by the
events of one execution.  `time.NewTicker` panics when the interval is not positive;
otherwise the task enters its loop. -/
def scheduleSource {σ : Type} (store : Store σ) (exporters : List (Exporter σ))
    (source : Source σ) (events : List Event) (w : σ) : Task σ :=
  if source.GetInterval ≤ 0 then ⟨w, .panicked, false, false, [.panicked]⟩
  else events.foldl (Task.step store exporters source) ⟨w, .head, false, false, []⟩

/-- A call of `Fetch`. -/
def Logged.isFetch : Logged → Bool
  | .fetch _ _ => true
  | _ => false

/-- The number of calls of `Fetch` logged after the cancellation signal. -/
def fetchesAfterCancel : List Logged → Nat
  | [] => 0
  | .cancelled :: rest => rest.countP Logged.isFetch
  | _ :: rest => fetchesAfterCancel rest

/-! ### Concrete inputs -/

/-- An item of group `news`. -/
def demoItem : Item :=
  ⟨"abc123", "Title", "Body", "https://example.org/a", 0, "https://example.org/feed", "news"⟩

/-- A `RedisStore` on the in-memory server, with a default TTL of 60 s. -/
def demoStore : Store MemRedis :=
  (RedisStore.mk memClient ⟨"localhost:6379", "", 0, 60000000000⟩).toStore

/-- A webhook exporter whose endpoint accepts every delivery. -/
def okHook (group : String) : Exporter MemRedis :=
  webhookExporter group fun _ w => (none, w)

/-- A webhook exporter whose endpoint rejects every delivery. -/
def failHook (group : String) : Exporter MemRedis :=
  webhookExporter group fun _ w => (some "status=500", w)

/-- The ledger entry of `demoItem` for webhook exporters is live. -/
def demoLive (m : MemRedis) : Prop :=
  m.live (processedKey "webhook" "abc123") = true

/-- The world before the first poll: an empty ledger. -/
def emptyRedis : MemRedis := ⟨0, []⟩

/-- The world after the first poll of the two-webhook scenario. -/
def demoAfterFirst : MemRedis :=
  ⟨0, [("bridgr:processed:webhook:abc123", "1", some 60000000000)]⟩

/-- A stand-in for the library: marshalling and request creation always succeed, and
`json.Unmarshal` accepts the two bodies used below, an object without fields (every
field keeps its zero value) and an object with `retry_after`. -/
def demoLib : Lib where
  Marshal := fun _ => .ok "\x7b\x7d"
  NewRequest := fun method url body => .ok ⟨method, url, [], body⟩
  Unmarshal := fun body =>
    if body = "\x7b\x7d" then some ⟨"", 0, false⟩
    else if body = "\x7b\"retry_after\": 2.5\x7d" then some ⟨"", 5 / 2, false⟩
    else none

/-- A webhook exporter of group `news` without rate limit. -/
def demoHook : WebhookExporter :=
  NewWebhookExporter ⟨"webhook", "https://hooks.example.org/1", fun _ => none, none⟩ "news" 0

/-- The outside with no request sent yet, at instant zero, whose endpoint will give
the replies `replies`. -/
def freshNet (replies : List Reply) : Net :=
  ⟨0, replies, [], []⟩

/-- A source configuration with a TTL override of one hour. -/
def demoSourceConfig : SourceConfig :=
  ⟨"rss", "https://example.org/feed", 60000000000, 3600000000000⟩

/-- The configuration of a webhook exporter without rate limit. -/
def demoExporterConfig : ExporterConfig :=
  ⟨"webhook", "https://hooks.example.org/1", fun _ => none, none⟩

/-- A source whose feed is empty. -/
def quietSource : Source MemRedis where
  Fetch := fun w => (([], none), w)
  GetType := "rss"
  GetInterval := 1000000000
  GetGroup := "news"

/-- A source whose feed cannot be read. -/
def brokenSource : Source MemRedis where
  Fetch := fun w => (([], some "failed to parse RSS feed"), w)
  GetType := "rss"
  GetInterval := 1000000000
  GetGroup := "news"

/-- A source whose feed holds `demoItem`. -/
def demoSource : Source MemRedis where
  Fetch := fun w => (([demoItem], none), w)
  GetType := "rss"
  GetInterval := 1000000000
  GetGroup := "news"

/-! ## Theorems -/

theorem actsOf_nil (i : Nat) : actsOf i [] = [] := rfl

theorem actsOf_append (i : Nat) (t1 t2 : List (Nat × Action)) :
    actsOf i (t1 ++ t2) = actsOf i t1 ++ actsOf i t2 := by
  simp [actsOf]

theorem actsOf_single_self (i : Nat) (a : Action) : actsOf i [(i, a)] = [a] := by
  simp [actsOf]

theorem actsOf_single_other {i j : Nat} (h : j ≠ i) (a : Action) : actsOf i [(j, a)] = [] := by
  simp [actsOf, h]

theorem mem_actsOf {i : Nat} {a : Action} {trace : List (Nat × Action)} :
    a ∈ actsOf i trace ↔ (i, a) ∈ trace := by
  simp only [actsOf, List.mem_map, List.mem_filter, beq_iff_eq]
  constructor
  · rintro ⟨⟨j, b⟩, ⟨hm, hj⟩, hb⟩
    simp only at hj hb
    subst hj; subst hb; exact hm
  · intro h
    exact ⟨(i, a), ⟨h, rfl⟩, rfl⟩

/-- One atomic action keeps the history of the goroutine in step with its program counter. -/
theorem unitStep_inv {σ : Type} (store : Store σ) (item : Item) (exporter : Exporter σ)
    (full : Bool) (pc : Pc) (w : σ) (acts : List Action)
    (h : UnitInv item exporter pc acts) :
    UnitInv item exporter (unitStep store item exporter full pc w).pc
      (acts ++ (unitStep store item exporter full pc w).action.toList) := by
  cases pc with
  | check =>
    simp only [UnitInv] at h
    subst h
    simp only [unitStep]
    rcases hq : store.HasProcessed item.ID exporter.GetType w with ⟨⟨b, e⟩, w1⟩
    cases e with
    | some err =>
      cases b
      · show Failing item exporter _ _
        exact Or.inl ⟨false, err, rfl, rfl⟩
      · show Failing item exporter _ _
        exact Or.inl ⟨true, err, rfl, rfl⟩
    | none => cases b <;> simp [UnitInv]
  | send =>
    simp only [UnitInv] at h
    subst h
    simp only [unitStep]
    rcases hq : exporter.Export item w with ⟨e, w1⟩
    cases e with
    | some err => simp [UnitInv, Failing]
    | none => simp [UnitInv]
  | mark =>
    simp only [UnitInv] at h
    subst h
    simp only [unitStep]
    rcases hq : store.MarkProcessed item.ID exporter.GetType (sourceTTLOf exporter) w with ⟨e, w1⟩
    cases e with
    | some err => simp [UnitInv, Failing]
    | none => simp [UnitInv]
  | report e =>
    simp only [UnitInv] at h
    simp only [unitStep]
    cases full with
    | true => simpa [UnitInv] using h
    | false =>
      simp only [Bool.false_eq_true, if_false, Option.toList, UnitInv]
      exact Or.inr (Or.inr ⟨e, acts, h, rfl⟩)
  | done =>
    simpa [unitStep] using h

theorem running_set {pcs : List Pc} {i : Nat} {pc : Pc} (h : pcs[i]? = some pc) (pc' : Pc) :
    running (pcs.set i pc') + (if pc = Pc.done then 0 else 1)
      = running pcs + (if pc' = Pc.done then 0 else 1) := by
  induction pcs generalizing i with
  | nil => simp at h
  | cons p ps ih =>
    cases i with
    | zero =>
      simp only [List.getElem?_cons_zero, Option.some.injEq] at h
      subst h
      simp only [running, List.set_cons_zero, List.countP_cons, bne_iff_ne, ne_eq, ite_not]
      omega
    | succ k =>
      simp only [List.getElem?_cons_succ] at h
      have := ih h
      simp only [running, List.set_cons_succ, List.countP_cons] at this ⊢
      omega

theorem unitsOf_length_le {σ : Type} (items : List Item) (exporters : List (Exporter σ)) :
    (unitsOf items exporters).length ≤ items.length * exporters.length := by
  induction items with
  | nil => simp [unitsOf]
  | cons item rest ih =>
    have h1 : (exporters.filter fun exporter => exporter.GetGroup == item.Group).length
        ≤ exporters.length := List.length_filter_le _ _
    simp only [unitsOf, List.flatMap_cons, List.length_append, List.length_map,
      List.length_cons] at ih ⊢
    rw [Nat.add_mul, Nat.one_mul]
    omega

/-- A goroutine that has returned stays so, silently. -/
theorem unitStep_done {σ : Type} (store : Store σ) (item : Item) (exporter : Exporter σ)
    (full : Bool) (w : σ) :
    unitStep store item exporter full Pc.done w = ⟨Pc.done, w, none⟩ := rfl

/-- Only a goroutine at a send reaches `errChan`, and then it returns. -/
theorem unitStep_sendErr {σ : Type} {store : Store σ} {item : Item} {exporter : Exporter σ}
    {full : Bool} {pc : Pc} {w : σ} {e : Error}
    (h : (unitStep store item exporter full pc w).action = some (.sendErr e)) :
    pc = Pc.report e ∧ full = false ∧ (unitStep store item exporter full pc w).pc = Pc.done := by
  cases pc with
  | check =>
    simp only [unitStep] at h
    rcases hq : store.HasProcessed item.ID exporter.GetType w with ⟨⟨b, err⟩, w1⟩
    rw [hq] at h
    cases err <;> cases b <;> simp at h
  | send =>
    simp only [unitStep] at h
    rcases hq : exporter.Export item w with ⟨err, w1⟩
    rw [hq] at h
    cases err <;> simp at h
  | mark =>
    simp only [unitStep] at h
    rcases hq : store.MarkProcessed item.ID exporter.GetType (sourceTTLOf exporter) w
      with ⟨err, w1⟩
    rw [hq] at h
    cases err <;> simp at h
  | report e' =>
    cases full with
    | true => simp [unitStep] at h
    | false =>
      simp only [unitStep, Bool.false_eq_true, if_false, Option.some.injEq,
        Action.sendErr.injEq] at h
      subst h
      simp [unitStep]
  | done => simp [unitStep] at h

/-- An atomic action never takes a goroutine further from its return, and brings it
closer unless it is blocked on a full channel. -/
theorem unitStep_rank {σ : Type} (store : Store σ) (item : Item) (exporter : Exporter σ)
    (full : Bool) (pc : Pc) (w : σ) :
    (unitStep store item exporter full pc w).pc.rank ≤ pc.rank ∧
    (full = false → (unitStep store item exporter full pc w).pc.rank ≤ pc.rank - 1) := by
  cases pc with
  | check =>
    simp only [unitStep]
    rcases hq : store.HasProcessed item.ID exporter.GetType w with ⟨⟨b, err⟩, w1⟩
    cases err <;> cases b <;> simp [Pc.rank]
  | send =>
    simp only [unitStep]
    rcases hq : exporter.Export item w with ⟨err, w1⟩
    cases err <;> simp [Pc.rank]
  | mark =>
    simp only [unitStep]
    rcases hq : store.MarkProcessed item.ID exporter.GetType (sourceTTLOf exporter) w
      with ⟨err, w1⟩
    cases err <;> simp [Pc.rank]
  | report e => cases full <;> simp [unitStep, Pc.rank]
  | done => simp [unitStep, Pc.rank]

/-- The effect of `step` when goroutine `i` exists. -/
theorem step_eq {σ : Type} (store : Store σ) (cap : Nat) (units : List (Item × Exporter σ))
    (i : Nat) (st : FanOut σ) {item : Item} {exporter : Exporter σ} {pc : Pc}
    (hu : units[i]? = some (item, exporter)) (hp : st.pcs[i]? = some pc) :
    step store cap units i st =
      { world := (unitStep store item exporter (decide (cap ≤ st.errChan.length)) pc st.world).world
        pcs := st.pcs.set i
          (unitStep store item exporter (decide (cap ≤ st.errChan.length)) pc st.world).pc
        errChan := st.errChan ++
          ((unitStep store item exporter (decide (cap ≤ st.errChan.length)) pc
            st.world).action.toList.map fun a => (i, a)).filterMap sentErr
        trace := st.trace ++
          (unitStep store item exporter (decide (cap ≤ st.errChan.length)) pc
            st.world).action.toList.map fun a => (i, a) } := by
  simp only [step, hu, hp]
  rcases ha : (unitStep store item exporter (decide (cap ≤ st.errChan.length)) pc
    st.world).action with _ | a
  · simp
  · cases a <;> simp [sentErr]

/-- A step of a goroutine that does not exist changes nothing. -/
theorem step_eq_self {σ : Type} (store : Store σ) (cap : Nat)
    (units : List (Item × Exporter σ)) (i : Nat) (st : FanOut σ)
    (h : units[i]? = none ∨ st.pcs[i]? = none) : step store cap units i st = st := by
  rcases h with h | h
  · simp [step, h]
  · simp only [step, h]
    split <;> simp_all

theorem actsOf_step {i j : Nat} (trace : List (Nat × Action)) (a : Option Action) :
    actsOf j (trace ++ a.toList.map fun x => (i, x))
      = if i = j then actsOf j trace ++ a.toList else actsOf j trace := by
  cases a with
  | none => simp
  | some x =>
    by_cases h : i = j
    · subst h
      simp [actsOf_append, actsOf_single_self]
    · simp [actsOf_append, actsOf_single_other h, h]

/-- Every step of every goroutine preserves the invariant. -/
theorem step_inv {σ : Type} (store : Store σ) (cap : Nat) (units : List (Item × Exporter σ))
    (i : Nat) (st : FanOut σ) (h : Inv units st) :
    Inv units (step store cap units i st) := by
  rcases hu : units[i]? with _ | ⟨item, exporter⟩
  · rw [step_eq_self store cap units i st (Or.inl hu)]; exact h
  rcases hp : st.pcs[i]? with _ | pc
  · rw [step_eq_self store cap units i st (Or.inr hp)]; exact h
  rw [step_eq store cap units i st hu hp]
  have hi : i < units.length := by
    rcases List.getElem?_eq_some_iff.mp hu with ⟨hlt, _⟩
    exact hlt
  have hip : i < st.pcs.length := by rw [h.len]; exact hi
  set r := unitStep store item exporter (decide (cap ≤ st.errChan.length)) pc st.world with hr
  refine ⟨?_, ?_, ?_, ?_, ?_⟩
  · simpa using h.len
  · intro j item' exporter' pc' hu' hp'
    simp only at hp' ⊢
    rw [actsOf_step]
    by_cases hij : i = j
    · subst hij
      rw [hu] at hu'
      simp only [Option.some.injEq, Prod.mk.injEq] at hu'
      obtain ⟨rfl, rfl⟩ := hu'
      rw [List.getElem?_set_self hip] at hp'
      simp only [Option.some.injEq] at hp'
      subst hp'
      simp only [if_true]
      exact unitStep_inv store item exporter _ pc st.world _ (h.unit i item exporter pc hu hp)
    · rw [List.getElem?_set_ne hij] at hp'
      simp only [hij, if_false]
      exact h.unit j item' exporter' pc' hu' hp'
  · intro e he
    simp only [List.mem_append, List.mem_map] at he
    rcases he with he | ⟨a, _, rfl⟩
    · exact h.idx e he
    · exact hi
  · simp only [List.filterMap_append]
    rw [← h.chan]
  · simp only
    have hroom := h.room
    have hset := running_set hp r.pc
    have hstay : pc = Pc.done → r.pc = Pc.done := by
      intro hd; rw [hr, hd, unitStep_done]
    rcases ha : r.action with _ | a
    · simp only [Option.toList, List.map_nil, List.filterMap_nil, List.append_nil]
      by_cases hd : pc = Pc.done
      · rw [if_pos hd, if_pos (hstay hd)] at hset
        omega
      · rw [if_neg hd] at hset
        split at hset <;> omega
    · by_cases hs : ∃ e, a = Action.sendErr e
      · obtain ⟨e, rfl⟩ := hs
        obtain ⟨hpc, _, hdone⟩ := unitStep_sendErr ha
        rw [if_pos hdone, if_neg (by rw [hpc]; exact Pc.noConfusion)] at hset
        simp only [Option.toList, List.map_cons, List.map_nil, sentErr, List.filterMap_cons,
          List.filterMap_nil, List.length_append, List.length_singleton]
        omega
      · have hnone : ([(i, a)] : List (Nat × Action)).filterMap sentErr = [] := by
          cases a <;> simp_all [sentErr]
        simp only [Option.toList, List.map_cons, List.map_nil, hnone, List.append_nil]
        by_cases hd : pc = Pc.done
        · rw [hr, hd, unitStep_done] at ha
          simp at ha
        · rw [if_neg hd] at hset
          split at hset <;> omega

theorem run_nil {σ : Type} (store : Store σ) (cap : Nat) (units : List (Item × Exporter σ))
    (st : FanOut σ) : run store cap units [] st = st := rfl

theorem run_cons {σ : Type} (store : Store σ) (cap : Nat) (units : List (Item × Exporter σ))
    (i : Nat) (sched : List Nat) (st : FanOut σ) :
    run store cap units (i :: sched) st
      = run store cap units sched (step store cap units i st) := rfl

theorem run_append {σ : Type} (store : Store σ) (cap : Nat) (units : List (Item × Exporter σ))
    (s1 s2 : List Nat) (st : FanOut σ) :
    run store cap units (s1 ++ s2) st
      = run store cap units s2 (run store cap units s1 st) := by
  simp [run, List.foldl_append]

/-- The invariant holds along every schedule. -/
theorem run_inv {σ : Type} (store : Store σ) (cap : Nat) (units : List (Item × Exporter σ))
    (sched : List Nat) (st : FanOut σ) (h : Inv units st) :
    Inv units (run store cap units sched st) := by
  induction sched generalizing st with
  | nil => exact h
  | cons i rest ih => exact ih _ (step_inv store cap units i st h)

/-- The invariant holds when the goroutines are launched. -/
theorem init_inv {σ : Type} (units : List (Item × Exporter σ)) (w : σ) :
    Inv units ⟨w, List.replicate units.length Pc.check, [], []⟩ := by
  refine ⟨by simp, ?_, by simp, by simp, ?_⟩
  · intro i item exporter pc _ hp
    simp only [List.getElem?_replicate] at hp
    split at hp
    · simp only [Option.some.injEq] at hp
      subst hp
      simp [UnitInv, actsOf]
    · simp at hp
  · simp [running, List.countP_replicate]

theorem running_pos {pcs : List Pc} {i : Nat} {pc : Pc} (h : pcs[i]? = some pc)
    (hpc : pc ≠ Pc.done) : 0 < running pcs := by
  have hmem : pc ∈ pcs := List.getElem?_mem h
  exact List.countP_pos_iff.mpr ⟨pc, hmem, by simpa using hpc⟩

/-- A step of goroutine `i` brings it closer to its return and leaves the others
where they are. -/
theorem rank_step_le {σ : Type} (store : Store σ) (cap : Nat)
    (units : List (Item × Exporter σ)) (hcap : units.length ≤ cap) (i j : Nat)
    (st : FanOut σ) (h : Inv units st) :
    rankAt (step store cap units i st) j ≤ rankAt st j - (if i = j then 1 else 0) := by
  rcases hu : units[i]? with _ | ⟨item, exporter⟩
  · rw [step_eq_self store cap units i st (Or.inl hu)]
    have hnone : st.pcs[i]? = none := by
      rw [List.getElem?_eq_none_iff] at hu ⊢
      rw [h.len]; exact hu
    by_cases hij : i = j
    · subst hij; simp [rankAt, hnone]
    · simp [hij]
  rcases hp : st.pcs[i]? with _ | pc
  · rw [step_eq_self store cap units i st (Or.inr hp)]
    by_cases hij : i = j
    · subst hij; simp [rankAt, hp]
    · simp [hij]
  rw [step_eq store cap units i st hu hp]
  have hip : i < st.pcs.length := by
    rcases List.getElem?_eq_some_iff.mp hp with ⟨hlt, _⟩
    exact hlt
  by_cases hij : i = j
  · subst hij
    simp only [rankAt, List.getElem?_set_self hip, hp, Option.map_some', Option.getD_some,
      if_true]
    by_cases hd : pc = Pc.done
    · subst hd
      simp [unitStep_done, Pc.rank]
    · apply (unitStep_rank store item exporter _ pc st.world).2
      have := running_pos hp hd
      have := h.room
      simp only [decide_eq_false_iff_not, not_le]
      omega
  · simp [rankAt, List.getElem?_set_ne hij, hij]

theorem rank_run_le {σ : Type} (store : Store σ) (cap : Nat)
    (units : List (Item × Exporter σ)) (hcap : units.length ≤ cap) (sched : List Nat) (j : Nat)
    (st : FanOut σ) (h : Inv units st) :
    rankAt (run store cap units sched st) j ≤ rankAt st j := by
  induction sched generalizing st with
  | nil => exact le_rfl
  | cons i rest ih =>
    rw [run_cons]
    have h1 := ih _ (step_inv store cap units i st h)
    have h2 := rank_step_le store cap units hcap i j st h
    omega

theorem rankAt_le_four {σ : Type} (st : FanOut σ) (i : Nat) : rankAt st i ≤ 4 := by
  unfold rankAt
  rcases st.pcs[i]? with _ | pc
  · simp
  · cases pc <;> simp [Pc.rank]

/-- Four consecutive actions make a goroutine return. -/
theorem rank_four_steps {σ : Type} (store : Store σ) (cap : Nat)
    (units : List (Item × Exporter σ)) (hcap : units.length ≤ cap) (i : Nat)
    (st : FanOut σ) (h : Inv units st) :
    rankAt (run store cap units [i, i, i, i] st) i = 0 := by
  simp only [run_cons, run_nil]
  have h1 := step_inv store cap units i st h
  have h2 := step_inv store cap units i _ h1
  have h3 := step_inv store cap units i _ h2
  have r1 := rank_step_le store cap units hcap i i st h
  have r2 := rank_step_le store cap units hcap i i _ h1
  have r3 := rank_step_le store cap units hcap i i _ h2
  have r4 := rank_step_le store cap units hcap i i _ h3
  have r0 := rankAt_le_four st i
  simp only [if_true] at r1 r2 r3 r4
  omega

/-- Draining a list of goroutines makes each of them return. -/
theorem rank_drain {σ : Type} (store : Store σ) (cap : Nat)
    (units : List (Item × Exporter σ)) (hcap : units.length ≤ cap) (l : List Nat)
    (st : FanOut σ) (h : Inv units st) :
    ∀ i ∈ l, rankAt (run store cap units (l.flatMap fun i => [i, i, i, i]) st) i = 0 := by
  induction l generalizing st with
  | nil => simp
  | cons k rest ih =>
    intro i hi
    rw [List.flatMap_cons, run_append]
    have hk := run_inv store cap units [k, k, k, k] st h
    rcases List.mem_cons.mp hi with rfl | hi'
    · have := rank_run_le store cap units hcap (rest.flatMap fun i => [i, i, i, i]) i _ hk
      have := rank_four_steps store cap units hcap i st h
      omega
    · exact ih _ hk i hi'

theorem rank_eq_zero {pc : Pc} (h : pc.rank = 0) : pc = Pc.done := by
  cases pc <;> simp [Pc.rank] at h ⊢

/-- After the drain every goroutine has returned, whatever the schedule before. -/
theorem all_done {σ : Type} (store : Store σ) (cap : Nat)
    (units : List (Item × Exporter σ)) (hcap : units.length ≤ cap) (sched : List Nat)
    (st : FanOut σ) (h : Inv units st) :
    ∀ pc ∈ (run store cap units (sched ++ drain units.length) st).pcs, pc = Pc.done := by
  intro pc hpc
  rw [run_append] at hpc
  have hs := run_inv store cap units sched st h
  obtain ⟨i, hget⟩ := List.mem_iff_getElem?.mp hpc
  have hlen := (run_inv store cap units (drain units.length) _ hs).len
  have hmem : i ∈ List.range units.length := by
    rw [List.mem_range, ← hlen]
    exact (List.getElem?_eq_some_iff.mp hget).1
  have h0 := rank_drain store cap units hcap (List.range units.length) _ hs i hmem
  apply rank_eq_zero
  unfold drain at hget
  simpa [rankAt, hget] using h0

/-- The invariant holds when `wg.Wait()` returns. -/
theorem fanOut_inv {σ : Type} (store : Store σ) (items : List Item)
    (exporters : List (Exporter σ)) (sched : List Nat) (w : σ) :
    Inv (unitsOf items exporters) (fanOut store items exporters sched w) :=
  run_inv store _ _ _ _ (init_inv (unitsOf items exporters) w)

/-- Every goroutine returns: no send on `errChan` blocks for ever. -/
theorem fanOut_done {σ : Type} (store : Store σ) (items : List Item)
    (exporters : List (Exporter σ)) (sched : List Nat) (w : σ) :
    ∀ pc ∈ (fanOut store items exporters sched w).pcs, pc = Pc.done :=
  all_done store _ _ (unitsOf_length_le items exporters) sched _
    (init_inv (unitsOf items exporters) w)

/-- Every call of `ProcessItems` returns, with what the goroutines left behind. -/
theorem ProcessItems_eq {σ : Type} (store : Store σ) (items : List Item)
    (exporters : List (Exporter σ)) (sched : List Nat) (w : σ) :
    ProcessItems store items exporters sched w
      = some ⟨collect (fanOut store items exporters sched w).errChan,
          (fanOut store items exporters sched w).world,
          (fanOut store items exporters sched w).trace⟩ := by
  unfold ProcessItems
  simp only
  rw [if_pos]
  simp only [List.all_eq_true, beq_iff_eq]
  exact fanOut_done store items exporters sched w

/-- Every call of `ProcessItems` returns, from a final state that satisfies the
invariant and in which every goroutine has returned. -/
theorem ProcessItems_final {σ : Type} (store : Store σ) (items : List Item)
    (exporters : List (Exporter σ)) (sched : List Nat) (w : σ) :
    ∃ st : FanOut σ, Inv (unitsOf items exporters) st ∧ (∀ pc ∈ st.pcs, pc = Pc.done) ∧
      ProcessItems store items exporters sched w
        = some ⟨collect st.errChan, st.world, st.trace⟩ :=
  ⟨_, fanOut_inv store items exporters sched w, fanOut_done store items exporters sched w,
    ProcessItems_eq store items exporters sched w⟩

/-- In a final state the history of every goroutine is a complete one. -/
theorem final_unit {σ : Type} {units : List (Item × Exporter σ)} {st : FanOut σ}
    (h : Inv units st) (hdone : ∀ pc ∈ st.pcs, pc = Pc.done) {i : Nat} {item : Item}
    {exporter : Exporter σ} (hu : units[i]? = some (item, exporter)) :
    UnitInv item exporter Pc.done (actsOf i st.trace) := by
  have hi : i < st.pcs.length := by
    rw [h.len]; exact (List.getElem?_eq_some_iff.mp hu).1
  have hp : st.pcs[i]? = some st.pcs[i] := List.getElem?_eq_getElem hi
  have := hdone _ (List.getElem_mem hi)
  rw [this] at hp
  exact h.unit i item exporter Pc.done hu hp

/-- Every logged action belongs to a launched goroutine. -/
theorem trace_unit {σ : Type} {units : List (Item × Exporter σ)} {st : FanOut σ}
    (h : Inv units st) {i : Nat} {a : Action} (hm : (i, a) ∈ st.trace) :
    ∃ item exporter, units[i]? = some (item, exporter) := by
  have hi := h.idx _ hm
  exact ⟨units[i].1, units[i].2, by simp [List.getElem?_eq_getElem hi]⟩

/-- Every goroutine was launched for an item and an exporter of the call that have
the same group. -/
theorem mem_unitsOf {σ : Type} {items : List Item} {exporters : List (Exporter σ)}
    {item : Item} {exporter : Exporter σ} :
    (item, exporter) ∈ unitsOf items exporters ↔
      item ∈ items ∧ exporter ∈ exporters ∧ exporter.GetGroup = item.Group := by
  simp only [unitsOf, List.mem_flatMap, List.mem_map, List.mem_filter, beq_iff_eq,
    Prod.mk.injEq]
  constructor
  · rintro ⟨it, hit, ex, ⟨hex, hg⟩, rfl, rfl⟩
    exact ⟨hit, hex, hg⟩
  · rintro ⟨hit, hex, hg⟩
    exact ⟨item, hit, exporter, ⟨hex, hg⟩, rfl, rfl⟩

/-- The five complete histories of a goroutine. -/
theorem done_cases {σ : Type} {item : Item} {exporter : Exporter σ} {acts : List Action}
    (h : UnitInv item exporter Pc.done acts) :
    acts = [.hasProcessed item.ID exporter.GetType true none] ∨
    acts = [.hasProcessed item.ID exporter.GetType false none, .export item none,
      .markProcessed item.ID exporter.GetType (sourceTTLOf exporter) none] ∨
    (∃ b err, acts = [.hasProcessed item.ID exporter.GetType b (some err),
      .sendErr (checkError item exporter.GetType err)]) ∨
    (∃ err, acts = [.hasProcessed item.ID exporter.GetType false none,
      .export item (some err), .sendErr (exportError item exporter.GetType err)]) ∨
    (∃ err, acts = [.hasProcessed item.ID exporter.GetType false none, .export item none,
      .markProcessed item.ID exporter.GetType (sourceTTLOf exporter) (some err),
      .sendErr (markError item exporter.GetType err)]) := by
  rcases h with h | h | ⟨e, pre, hf, h⟩
  · exact Or.inl h
  · exact Or.inr (Or.inl h)
  · rcases hf with ⟨b, err, rfl, rfl⟩ | ⟨err, rfl, rfl⟩ | ⟨err, rfl, rfl⟩
    · exact Or.inr (Or.inr (Or.inl ⟨b, err, h⟩))
    · exact Or.inr (Or.inr (Or.inr (Or.inl ⟨err, h⟩)))
    · exact Or.inr (Or.inr (Or.inr (Or.inr ⟨err, h⟩)))

/-- A property of the state that every step preserves holds along every schedule. -/
theorem run_preserves {σ : Type} (store : Store σ) (cap : Nat)
    (units : List (Item × Exporter σ)) (P : FanOut σ → Prop)
    (hstep : ∀ i st, P st → P (step store cap units i st)) (sched : List Nat)
    (st : FanOut σ) (h : P st) : P (run store cap units sched st) := by
  induction sched generalizing st with
  | nil => exact h
  | cons i rest ih => exact ih _ (hstep i st h)

/-- A call for one item and one exporter launches at most one goroutine, for them. -/
theorem unitsOf_single {σ : Type} (item : Item) (exporter : Exporter σ) {i : Nat} {it : Item}
    {ex : Exporter σ} (h : (unitsOf [item] [exporter])[i]? = some (it, ex)) :
    i = 0 ∧ it = item ∧ ex = exporter := by
  have hlen := unitsOf_length_le [item] [exporter]
  simp only [List.length_singleton, Nat.mul_one] at hlen
  have hi := (List.getElem?_eq_some_iff.mp h).1
  obtain ⟨h1, h2, _⟩ := mem_unitsOf.mp (List.getElem?_mem h)
  simp only [List.mem_singleton] at h1 h2
  exact ⟨by omega, h1, h2⟩

/-- While the ledger entry of a pair is live, a call for that pair only looks it up. -/
theorem fanOut_live {σ : Type} (store : Store σ) (item : Item) (exporter : Exporter σ)
    (live : σ → Prop)
    (hlook : ∀ w, live w → ∃ w1,
      store.HasProcessed item.ID exporter.GetType w = ((true, none), w1) ∧ live w1)
    (sched : List Nat) (w : σ) (hw : live w) :
    ∀ e ∈ (fanOut store [item] [exporter] sched w).trace,
      e = (0, Action.hasProcessed item.ID exporter.GetType true none) := by
  have key := run_preserves store ([item].length * [exporter].length)
    (unitsOf [item] [exporter])
    (fun st : FanOut σ => live st.world ∧
      (∀ pc ∈ st.pcs, pc = Pc.check ∨ pc = Pc.done) ∧
      ∀ e ∈ st.trace, e = (0, Action.hasProcessed item.ID exporter.GetType true none))
    (by
      rintro i st ⟨hl, hpcs, htr⟩
      rcases hu : (unitsOf [item] [exporter])[i]? with _ | ⟨it, ex⟩
      · rw [step_eq_self _ _ _ _ _ (Or.inl hu)]; exact ⟨hl, hpcs, htr⟩
      rcases hp : st.pcs[i]? with _ | pc
      · rw [step_eq_self _ _ _ _ _ (Or.inr hp)]; exact ⟨hl, hpcs, htr⟩
      obtain ⟨rfl, rfl, rfl⟩ := unitsOf_single item exporter hu
      rw [step_eq _ _ _ _ _ hu hp]
      rcases hpcs pc (List.getElem?_mem hp) with rfl | rfl
      · obtain ⟨w1, hq, hl1⟩ := hlook _ hl
        simp only [unitStep, hq]
        refine ⟨hl1, ?_, ?_⟩
        · intro pc hpc
          rcases List.mem_or_eq_of_mem_set hpc with h | h
          · exact hpcs pc h
          · exact Or.inr h
        · intro e he
          simp only [Option.toList, List.map_cons, List.map_nil, List.mem_append,
            List.mem_singleton] at he
          rcases he with he | he
          · exact htr e he
          · exact he
      · simp only [unitStep_done, Option.toList, List.map_nil, List.append_nil]
        refine ⟨hl, ?_, htr⟩
        intro pc hpc
        rcases List.mem_or_eq_of_mem_set hpc with h | h
        · exact hpcs pc h
        · exact Or.inr h)
    (sched ++ drain (unitsOf [item] [exporter]).length)
    ⟨w, List.replicate (unitsOf [item] [exporter]).length Pc.check, [], []⟩
    ⟨hw, fun pc hpc => Or.inl (List.eq_of_mem_replicate hpc), by simp⟩
  exact key.2.2

/-- Only the call of `MarkProcessed` logs a successful record, and then the goroutine
has returned in the world that the call left. -/
theorem unitStep_marked {σ : Type} {store : Store σ} {item : Item} {exporter : Exporter σ}
    {full : Bool} {pc : Pc} {w : σ} {id ty : String} {ttl : Option Duration}
    (h : (unitStep store item exporter full pc w).action
      = some (Action.markProcessed id ty ttl none)) :
    store.MarkProcessed item.ID exporter.GetType (sourceTTLOf exporter) w
        = (none, (unitStep store item exporter full pc w).world) ∧
      (unitStep store item exporter full pc w).pc = Pc.done := by
  cases pc with
  | check =>
    simp only [unitStep] at h
    rcases hq : store.HasProcessed item.ID exporter.GetType w with ⟨⟨b, err⟩, w1⟩
    rw [hq] at h
    cases err <;> cases b <;> simp at h
  | send =>
    simp only [unitStep] at h
    rcases hq : exporter.Export item w with ⟨err, w1⟩
    rw [hq] at h
    cases err <;> simp at h
  | mark =>
    simp only [unitStep] at h ⊢
    rcases hq : store.MarkProcessed item.ID exporter.GetType (sourceTTLOf exporter) w
      with ⟨err, w1⟩
    rw [hq] at h
    cases err with
    | some e => simp at h
    | none => simp
  | report e => cases full <;> simp [unitStep] at h
  | done => simp [unitStep] at h

/-- Once a call for one pair has recorded the delivery, the ledger entry is live in
the world that the call leaves. -/
theorem fanOut_marked {σ : Type} (store : Store σ) (item : Item) (exporter : Exporter σ)
    (live : σ → Prop)
    (hmark : ∀ ttl w w1,
      store.MarkProcessed item.ID exporter.GetType ttl w = (none, w1) → live w1)
    (sched : List Nat) (w : σ)
    (h : ∃ ttl, (0, Action.markProcessed item.ID exporter.GetType ttl none)
      ∈ (fanOut store [item] [exporter] sched w).trace) :
    live (fanOut store [item] [exporter] sched w).world := by
  have key := run_preserves store ([item].length * [exporter].length)
    (unitsOf [item] [exporter])
    (fun st : FanOut σ => st.pcs.length ≤ 1 ∧
      ((∃ ttl, (0, Action.markProcessed item.ID exporter.GetType ttl none) ∈ st.trace) →
        live st.world ∧ ∀ pc ∈ st.pcs, pc = Pc.done))
    (by
      rintro i st ⟨hlen, hM⟩
      rcases hu : (unitsOf [item] [exporter])[i]? with _ | ⟨it, ex⟩
      · rw [step_eq_self _ _ _ _ _ (Or.inl hu)]; exact ⟨hlen, hM⟩
      rcases hp : st.pcs[i]? with _ | pc
      · rw [step_eq_self _ _ _ _ _ (Or.inr hp)]; exact ⟨hlen, hM⟩
      obtain ⟨rfl, rfl, rfl⟩ := unitsOf_single item exporter hu
      rw [step_eq _ _ _ _ _ hu hp]
      refine ⟨by simpa using hlen, ?_⟩
      rintro ⟨ttl, hm⟩
      simp only [List.mem_append, List.mem_map, Option.mem_toList, Option.mem_def,
        Prod.mk.injEq, true_and, exists_eq_right] at hm
      rcases hm with hm | hm
      · obtain ⟨hl, hd⟩ := hM ⟨ttl, hm⟩
        have hpc : pc = Pc.done := hd pc (List.getElem?_mem hp)
        subst hpc
        simp only [unitStep_done]
        refine ⟨hl, ?_⟩
        intro pc hpc
        rcases List.mem_or_eq_of_mem_set hpc with h | h
        · exact hd pc h
        · exact h
      · obtain ⟨hq, hpc⟩ := unitStep_marked hm
        refine ⟨hmark _ _ _ hq, ?_⟩
        rw [hpc]
        have hpcs : st.pcs = [pc] := by
          rcases hst : st.pcs with _ | ⟨p, _ | ⟨q, l⟩⟩
          · simp [hst] at hp
          · simp [hst] at hp; rw [hp]
          · simp [hst] at hlen
        simp [hpcs])
    (sched ++ drain (unitsOf [item] [exporter]).length)
    ⟨w, List.replicate (unitsOf [item] [exporter]).length Pc.check, [], []⟩
    ⟨by simpa using unitsOf_length_le [item] [exporter], by simp⟩
  exact (key.2 h).1

/-- C1: a goroutine whose `HasProcessed` returns `(true, nil)` does nothing else: its
whole history is that one lookup, so it calls neither `Export` nor `MarkProcessed` and
sends no error, whatever the items, exporters, store and schedule.  Consequently, for
a store in which a successful `MarkProcessed` makes the entry `live` and a live entry
is reported as processed and stays live: once a call for `[item]` and `[exporter]` has
recorded the delivery the entry is live in the world it leaves, and every call for the
same item and exporter that starts while the entry is live returns `nil` and performs
no `Export` at all. -/
theorem ProcessItems_skips_processed {σ : Type} (store : Store σ) (item : Item)
    (exporter : Exporter σ) (live : σ → Prop)
    (hlook : ∀ w, live w → ∃ w1,
      store.HasProcessed item.ID exporter.GetType w = ((true, none), w1) ∧ live w1)
    (hmark : ∀ ttl w w1,
      store.MarkProcessed item.ID exporter.GetType ttl w = (none, w1) → live w1) :
    (∀ items exporters sched w,
      ∃ out, ProcessItems store items exporters sched w = some out ∧
        ∀ (i : Nat) it ex, (unitsOf items exporters)[i]? = some (it, ex) →
          (i, Action.hasProcessed it.ID ex.GetType true none) ∈ out.trace →
          actsOf i out.trace = [Action.hasProcessed it.ID ex.GetType true none]) ∧
    (∀ sched w, ∃ out, ProcessItems store [item] [exporter] sched w = some out ∧
      ((∃ ttl, (0, Action.markProcessed item.ID exporter.GetType ttl none) ∈ out.trace) →
        live out.world)) ∧
    (∀ sched w, live w →
      ∃ out, ProcessItems store [item] [exporter] sched w = some out ∧
        out.result = none ∧ ∀ e ∈ out.trace, e.2.isExport = false) := by
  refine ⟨?_, ?_, ?_⟩
  · intro items exporters sched w
    obtain ⟨st, hinv, hdone, hres⟩ := ProcessItems_final store items exporters sched w
    refine ⟨_, hres, ?_⟩
    intro i it ex hu hm
    simp only at hm ⊢
    have hm' := mem_actsOf.mpr hm
    rcases done_cases (final_unit hinv hdone hu) with h | h | ⟨b, e, h⟩ | ⟨e, h⟩ | ⟨e, h⟩
    · exact h
    all_goals
      rw [h] at hm'
      simp at hm'
  · intro sched w
    refine ⟨_, ProcessItems_eq store [item] [exporter] sched w, ?_⟩
    exact fanOut_marked store item exporter live hmark sched w
  · intro sched w hw
    have htr := fanOut_live store item exporter live hlook sched w hw
    have hinv := fanOut_inv store [item] [exporter] sched w
    refine ⟨_, ProcessItems_eq store [item] [exporter] sched w, ?_, ?_⟩
    · have hchan : (fanOut store [item] [exporter] sched w).errChan = [] := by
        rw [hinv.chan, List.filterMap_eq_nil_iff]
        intro e he
        rw [htr e he]
        rfl
      simp [hchan, collect]
    · intro e he
      rw [htr e he]
      rfl

theorem demoStore_lookup (w : MemRedis) (hw : demoLive w) :
    ∃ w1, demoStore.HasProcessed demoItem.ID (okHook "news").GetType w = ((true, none), w1) ∧
      demoLive w1 := by
  refine ⟨w, ?_, hw⟩
  unfold demoLive at hw
  simp [demoStore, RedisStore.toStore, RedisStore.HasProcessed, memClient, demoItem, okHook,
    webhookExporter, hw]

theorem demoStore_mark (ttl : Option Duration) (w w1 : MemRedis)
    (h : demoStore.MarkProcessed demoItem.ID (okHook "news").GetType ttl w = (none, w1)) :
    demoLive w1 := by
  simp only [demoStore, RedisStore.toStore, RedisStore.MarkProcessed, memClient, demoItem,
    okHook, webhookExporter, Prod.mk.injEq, true_and] at h
  subst h
  unfold demoLive MemRedis.live
  simp only [List.any_cons, beq_self_eq_true, Bool.true_and, Bool.or_eq_true]
  left
  split
  · rename_i t ht
    split at ht
    next hpos =>
      simp only [Option.some.injEq] at ht
      subst ht
      simp only [decide_eq_true_eq]
      exact Int.lt_add_of_pos_right _ hpos
    next => simp at ht
  · rfl

/-- C1, witness: the in-memory Redis store satisfies both hypotheses, and a second call
for `demoItem` and a webhook exporter, in a world where the entry is live, performs
no `Export`. -/
theorem ProcessItems_skips_processed_witness :
    ∃ out, ProcessItems demoStore [demoItem] [okHook "news"] [0, 0]
        ⟨5, [(processedKey "webhook" "abc123", "1", some 60)]⟩ = some out ∧
      out.result = none ∧ ∀ e ∈ out.trace, e.2.isExport = false :=
  (ProcessItems_skips_processed demoStore demoItem (okHook "news") demoLive
    demoStore_lookup demoStore_mark).2.2 [0, 0]
    ⟨5, [(processedKey "webhook" "abc123", "1", some 60)]⟩ (by unfold demoLive; decide)

/-- C2: every action of a `ProcessItems` call (a lookup, an `Export`, a
`MarkProcessed`, an error send) is performed by a goroutine launched for an item of the
call and an exporter of the call whose `GetGroup()` equals the item's `Group`, on that
item and with that exporter's type; no goroutine exists for a pair of different
groups. -/
theorem ProcessItems_group_isolation {σ : Type} (store : Store σ) (items : List Item)
    (exporters : List (Exporter σ)) (sched : List Nat) (w : σ) :
    ∃ out, ProcessItems store items exporters sched w = some out ∧
      (∀ i a, (i, a) ∈ out.trace →
        ∃ item exporter, (unitsOf items exporters)[i]? = some (item, exporter) ∧
          item ∈ items ∧ exporter ∈ exporters ∧ exporter.GetGroup = item.Group ∧
          (∀ it err, a = .export it err → it = item) ∧
          (∀ id ty b err, a = .hasProcessed id ty b err →
            id = item.ID ∧ ty = exporter.GetType) ∧
          (∀ id ty ttl err, a = .markProcessed id ty ttl err →
            id = item.ID ∧ ty = exporter.GetType)) ∧
      ∀ item exporter, exporter.GetGroup ≠ item.Group →
        ∀ i : Nat, (unitsOf items exporters)[i]? ≠ some (item, exporter) := by
  obtain ⟨st, hinv, hdone, hres⟩ := ProcessItems_final store items exporters sched w
  refine ⟨_, hres, ?_, ?_⟩
  swap
  · intro item exporter hne i hu
    exact hne (mem_unitsOf.mp (List.getElem?_mem hu)).2.2
  intro i a hm
  simp only at hm
  obtain ⟨item, exporter, hu⟩ := trace_unit hinv hm
  obtain ⟨hit, hex, hg⟩ := mem_unitsOf.mp (List.getElem?_mem hu)
  refine ⟨item, exporter, hu, hit, hex, hg, ?_⟩
  have ha : a ∈ actsOf i st.trace := mem_actsOf.mpr hm
  rcases done_cases (final_unit hinv hdone hu) with h | h | ⟨b, err, h⟩ | ⟨err, h⟩ | ⟨err, h⟩ <;>
  · rw [h] at ha
    simp only [List.mem_cons, List.mem_singleton, List.not_mem_nil, or_false] at ha
    refine ⟨?_, ?_, ?_⟩
    · rintro it e rfl
      simp_all
    · rintro id ty b e rfl
      simp_all
    · rintro id ty ttl e rfl
      simp_all

theorem actsOf_split (i : Nat) (pre post : List (Nat × Action)) (a : Action) :
    actsOf i (pre ++ (i, a) :: post) = actsOf i pre ++ a :: actsOf i post := by
  simp [actsOf]

theorem Faithful_append {σ : Type} (store : Store σ) (units : List (Item × Exporter σ))
    (t1 t2 : List (Nat × Action)) (w w' : σ) :
    Faithful store units (t1 ++ t2) w w' ↔
      ∃ w1, Faithful store units t1 w w1 ∧ Faithful store units t2 w1 w' := by
  induction t1 generalizing w with
  | nil =>
    simp only [List.nil_append, Faithful]
    constructor
    · intro h; exact ⟨w, rfl, h⟩
    · rintro ⟨w1, rfl, h⟩; exact h
  | cons e rest ih =>
    obtain ⟨i, a⟩ := e
    show (∃ item exporter w1, units[i]? = some (item, exporter) ∧
      a.records store exporter w w1 ∧ Faithful store units (rest ++ t2) w1 w') ↔ _
    constructor
    · rintro ⟨item, exporter, w1, hu, hr, h⟩
      obtain ⟨w2, h1, h2⟩ := (ih w1).mp h
      exact ⟨w2, ⟨item, exporter, w1, hu, hr, h1⟩, h2⟩
    · rintro ⟨w2, ⟨item, exporter, w1, hu, hr, h1⟩, h2⟩
      exact ⟨item, exporter, w1, hu, hr, (ih w1).mpr ⟨w2, h1, h2⟩⟩

theorem records_unique {σ : Type} {store : Store σ} {exporter : Exporter σ} {a : Action}
    {w w1 w2 : σ} (h1 : a.records store exporter w w1) (h2 : a.records store exporter w w2) :
    w1 = w2 := by
  cases a <;> simp only [Action.records] at h1 h2
  · rw [h1] at h2; exact (Prod.mk.inj h2).2
  · rw [h1] at h2; exact (Prod.mk.inj h2).2
  · rw [h1] at h2; exact (Prod.mk.inj h2).2
  · rw [h1, h2]

/-- The world that a true record leads to is determined by the record. -/
theorem Faithful_unique {σ : Type} {store : Store σ} {units : List (Item × Exporter σ)}
    {t : List (Nat × Action)} {w w1 w2 : σ}
    (h1 : Faithful store units t w w1) (h2 : Faithful store units t w w2) : w1 = w2 := by
  induction t generalizing w with
  | nil =>
    simp only [Faithful] at h1 h2
    rw [h1, h2]
  | cons e rest ih =>
    obtain ⟨i, a⟩ := e
    obtain ⟨item, exporter, v1, hu1, hr1, hf1⟩ := h1
    obtain ⟨item2, exporter2, v2, hu2, hr2, hf2⟩ := h2
    rw [hu1] at hu2
    simp only [Option.some.injEq, Prod.mk.injEq] at hu2
    obtain ⟨rfl, rfl⟩ := hu2
    have := records_unique hr1 hr2
    subst this
    exact ih hf1 hf2

/-- An entry of a true record: the goroutine, the world its call was made in, and the
result that the interface method returned there. -/
theorem Faithful_entry {σ : Type} {store : Store σ} {units : List (Item × Exporter σ)}
    {pre post : List (Nat × Action)} {i : Nat} {a : Action} {w w' : σ}
    (h : Faithful store units (pre ++ (i, a) :: post) w w') :
    ∃ item exporter w1 w2, units[i]? = some (item, exporter) ∧
      Faithful store units pre w w1 ∧ a.records store exporter w1 w2 ∧
      Faithful store units post w2 w' := by
  rw [Faithful_append] at h
  obtain ⟨w1, hpre, item, exporter, w2, hu, hr, hpost⟩ := h
  exact ⟨item, exporter, w1, w2, hu, hpre, hr, hpost⟩

/-- The action that a goroutine logs records the call it made. -/
theorem unitStep_records {σ : Type} (store : Store σ) (item : Item) (exporter : Exporter σ)
    (full : Bool) (pc : Pc) (w : σ) :
    match (unitStep store item exporter full pc w).action with
    | some a => a.records store exporter w (unitStep store item exporter full pc w).world
    | none => (unitStep store item exporter full pc w).world = w := by
  cases pc with
  | check =>
    simp only [unitStep]
    rcases hq : store.HasProcessed item.ID exporter.GetType w with ⟨⟨b, err⟩, w1⟩
    cases err <;> cases b <;> simp [Action.records, hq]
  | send =>
    simp only [unitStep]
    rcases hq : exporter.Export item w with ⟨err, w1⟩
    cases err <;> simp [Action.records, hq]
  | mark =>
    simp only [unitStep]
    rcases hq : store.MarkProcessed item.ID exporter.GetType (sourceTTLOf exporter) w
      with ⟨err, w1⟩
    cases err <;> simp [Action.records, hq]
  | report e => cases full <;> simp [unitStep, Action.records]
  | done => simp [unitStep]

/-- A step keeps the log a true record of the execution. -/
theorem step_faithful {σ : Type} (store : Store σ) (cap : Nat)
    (units : List (Item × Exporter σ)) (w0 : σ) (i : Nat) (st : FanOut σ)
    (h : Faithful store units st.trace w0 st.world) :
    Faithful store units (step store cap units i st).trace w0
      (step store cap units i st).world := by
  rcases hu : units[i]? with _ | ⟨item, exporter⟩
  · rw [step_eq_self _ _ _ _ _ (Or.inl hu)]; exact h
  rcases hp : st.pcs[i]? with _ | pc
  · rw [step_eq_self _ _ _ _ _ (Or.inr hp)]; exact h
  rw [step_eq _ _ _ _ _ hu hp]
  have hr := unitStep_records store item exporter (decide (cap ≤ st.errChan.length)) pc st.world
  rcases ha : (unitStep store item exporter (decide (cap ≤ st.errChan.length)) pc
    st.world).action with _ | a
  · rw [ha] at hr
    simp only at hr
    simp only [Option.toList, List.map_nil, List.append_nil]
    rw [hr]; exact h
  · rw [ha] at hr
    simp only at hr
    simp only [Option.toList, List.map_cons, List.map_nil]
    rw [Faithful_append]
    exact ⟨st.world, h, item, exporter, _, hu, hr, rfl⟩

/-- The log of a `ProcessItems` call is a true record of the calls of its goroutines. -/
theorem fanOut_faithful {σ : Type} (store : Store σ) (items : List Item)
    (exporters : List (Exporter σ)) (sched : List Nat) (w : σ) :
    Faithful store (unitsOf items exporters) (fanOut store items exporters sched w).trace w
      (fanOut store items exporters sched w).world :=
  run_preserves store _ _ (fun st => Faithful store (unitsOf items exporters) st.trace w st.world)
    (fun i st h => step_faithful store _ _ w i st h) _ _ rfl

/-- In a final state the history of every goroutine is a complete one. -/
theorem final_complete {σ : Type} {units : List (Item × Exporter σ)} {st : FanOut σ}
    (h : Inv units st) (hdone : ∀ pc ∈ st.pcs, pc = Pc.done) {i : Nat} {item : Item}
    {exporter : Exporter σ} (hu : units[i]? = some (item, exporter)) :
    Complete item exporter (actsOf i st.trace) :=
  done_cases (final_unit h hdone hu)

/-- An entry of goroutine `i` in a true record, read with the pair of that goroutine. -/
theorem Faithful_at {σ : Type} {store : Store σ} {units : List (Item × Exporter σ)}
    {pre post : List (Nat × Action)} {i : Nat} {a : Action} {w w' w1 : σ} {item : Item}
    {exporter : Exporter σ}
    (h : Faithful store units (pre ++ (i, a) :: post) w w')
    (hu : units[i]? = some (item, exporter)) (hpre : Faithful store units pre w w1) :
    ∃ w2, a.records store exporter w1 w2 := by
  obtain ⟨item2, exporter2, v1, v2, hu2, hp2, hr, _⟩ := Faithful_entry h
  rw [hu] at hu2
  simp only [Option.some.injEq, Prod.mk.injEq] at hu2
  obtain ⟨rfl, rfl⟩ := hu2
  have := Faithful_unique hpre hp2
  subst this
  exact ⟨v2, hr⟩

/-- Every call of `ProcessItems` returns, from a final state that satisfies the
invariant, in which every goroutine has returned, and whose log is a true record. -/
theorem ProcessItems_record {σ : Type} (store : Store σ) (items : List Item)
    (exporters : List (Exporter σ)) (sched : List Nat) (w : σ) :
    ∃ st : FanOut σ, Inv (unitsOf items exporters) st ∧ (∀ pc ∈ st.pcs, pc = Pc.done) ∧
      Faithful store (unitsOf items exporters) st.trace w st.world ∧
      ProcessItems store items exporters sched w
        = some ⟨collect st.errChan, st.world, st.trace⟩ :=
  ⟨_, fanOut_inv store items exporters sched w, fanOut_done store items exporters sched w,
    fanOut_faithful store items exporters sched w,
    ProcessItems_eq store items exporters sched w⟩

/-- An entry of a true record can be cut out of it, with the world its call was made
in. -/
theorem Faithful_mem {σ : Type} {store : Store σ} {units : List (Item × Exporter σ)}
    {trace : List (Nat × Action)} {w w' : σ} (h : Faithful store units trace w w')
    {i : Nat} {a : Action} (hm : (i, a) ∈ trace) {item : Item} {exporter : Exporter σ}
    (hu : units[i]? = some (item, exporter)) :
    ∃ pre post w1 w2, trace = pre ++ (i, a) :: post ∧ Faithful store units pre w w1 ∧
      a.records store exporter w1 w2 := by
  obtain ⟨pre, post, rfl⟩ := List.append_of_mem hm
  obtain ⟨item2, exporter2, w1, w2, hu2, hpre, hr, _⟩ := Faithful_entry h
  rw [hu] at hu2
  simp only [Option.some.injEq, Prod.mk.injEq] at hu2
  obtain ⟨rfl, rfl⟩ := hu2
  exact ⟨pre, post, w1, w2, rfl, hpre, hr⟩

/-- A logged call carries an error exactly when the interface method returned one. -/
theorem entry_failed_iff {σ : Type} {store : Store σ} {item : Item} {exporter : Exporter σ}
    {acts : List Action} {a : Action} {w1 w2 : σ} (hc : Complete item exporter acts)
    (ha : a ∈ acts) (hr : a.records store exporter w1 w2) :
    a.failed = true ↔
      (a.isLookup = true ∧ (store.HasProcessed item.ID exporter.GetType w1).1.2 ≠ none) ∨
      (a.isExport = true ∧ (exporter.Export item w1).1 ≠ none) ∨
      (a.isMark = true ∧
        (store.MarkProcessed item.ID exporter.GetType (sourceTTLOf exporter) w1).1 ≠ none) := by
  rcases hc with h | h | ⟨b, e, h⟩ | ⟨e, h⟩ | ⟨e, h⟩ <;>
  · rw [h] at ha
    simp only [List.mem_cons, List.mem_singleton, List.not_mem_nil, or_false] at ha
    rcases ha with rfl | rfl | rfl | rfl <;>
      simp_all [Action.records, Action.failed, Action.isLookup, Action.isExport, Action.isMark]

/-- In a final state, a goroutine with a failed lookup or `Export` has no
`MarkProcessed` in the log. -/
theorem no_mark_after_failure {σ : Type} {units : List (Item × Exporter σ)} {st : FanOut σ}
    (hinv : Inv units st) (hdone : ∀ pc ∈ st.pcs, pc = Pc.done) {i : Nat} {a b : Action}
    (ha : (i, a) ∈ st.trace) (hb : (i, b) ∈ st.trace) (hfail : a.failed = true)
    (hkind : a.isLookup = true ∨ a.isExport = true) : b.isMark = false := by
  obtain ⟨item, exporter, hu⟩ := trace_unit hinv ha
  have ha' : a ∈ actsOf i st.trace := mem_actsOf.mpr ha
  have hb' : b ∈ actsOf i st.trace := mem_actsOf.mpr hb
  rcases done_cases (final_unit hinv hdone hu) with h | h | ⟨c, e, h⟩ | ⟨e, h⟩ | ⟨e, h⟩ <;>
  · rw [h] at ha' hb'
    simp only [List.mem_cons, List.mem_singleton, List.not_mem_nil, or_false] at ha' hb'
    rcases ha' with rfl | rfl | rfl | rfl <;> rcases hb' with rfl | rfl | rfl | rfl <;>
      simp_all [Action.failed, Action.isLookup, Action.isExport, Action.isMark]

/-- In a final state, a `MarkProcessed` in the log comes after the successful `Export`
of the same goroutine. -/
theorem export_before_mark {σ : Type} {units : List (Item × Exporter σ)} {st : FanOut σ}
    (hinv : Inv units st) (hdone : ∀ pc ∈ st.pcs, pc = Pc.done) {i : Nat}
    {pre post : List (Nat × Action)} {id ty : String} {ttl : Option Duration}
    {err : Option Error}
    (htr : st.trace = pre ++ (i, Action.markProcessed id ty ttl err) :: post) :
    ∃ item exporter, units[i]? = some (item, exporter) ∧
      id = item.ID ∧ ty = exporter.GetType ∧ (i, Action.export item none) ∈ pre := by
  have hm : (i, Action.markProcessed id ty ttl err) ∈ st.trace := by
    rw [htr]; simp
  obtain ⟨item, exporter, hu⟩ := trace_unit hinv hm
  refine ⟨item, exporter, hu, ?_⟩
  have hsplit := actsOf_split i pre post (Action.markProcessed id ty ttl err)
  rw [← htr] at hsplit
  rcases done_cases (final_unit hinv hdone hu) with h | h | ⟨b, e, h⟩ | ⟨e, h⟩ | ⟨e, h⟩ <;>
  · rw [h] at hsplit
    rcases hpre : actsOf i pre with _ | ⟨a1, _ | ⟨a2, _ | ⟨a3, _ | ⟨a4, l⟩⟩⟩⟩ <;>
    · rw [hpre] at hsplit
      simp at hsplit
      try
        (obtain ⟨h1, h2, h3⟩ := hsplit
         refine ⟨?_, ?_, ?_⟩
         · simp_all
         · simp_all
         · apply mem_actsOf.mp
           rw [hpre]
           simp_all)

/-- C3: in every execution of `ProcessItems` the log is the true record of the calls
made, with the complete history of every goroutine; a call of `MarkProcessed` by a
goroutine comes after the call of `Export` by the same goroutine, for the same item, and
that call of `Export` returned `nil` in the world it was made in; and a goroutine whose
`HasProcessed` or `Export` returned an error, in the world it was called in, never calls
`MarkProcessed`. -/
theorem ProcessItems_mark_after_export {σ : Type} (store : Store σ) (items : List Item)
    (exporters : List (Exporter σ)) (sched : List Nat) (w : σ) :
    ∃ out, ProcessItems store items exporters sched w = some out ∧
      Faithful store (unitsOf items exporters) out.trace w out.world ∧
      (∀ i item exporter, (unitsOf items exporters)[i]? = some (item, exporter) →
        Complete item exporter (actsOf i out.trace)) ∧
      (∀ i pre post id ty ttl err,
        out.trace = pre ++ (i, Action.markProcessed id ty ttl err) :: post →
        ∃ item exporter, (unitsOf items exporters)[i]? = some (item, exporter) ∧
          id = item.ID ∧ ty = exporter.GetType ∧
          ∃ pre1 pre2 w1 w2, pre = pre1 ++ (i, Action.export item none) :: pre2 ∧
            Faithful store (unitsOf items exporters) pre1 w w1 ∧
            exporter.Export item w1 = (none, w2)) ∧
      (∀ i a b, (i, a) ∈ out.trace → (i, b) ∈ out.trace → a.failed = true →
        a.isLookup = true ∨ a.isExport = true → b.isMark = false) ∧
      (∀ i item exporter pre a post w1,
        (unitsOf items exporters)[i]? = some (item, exporter) →
        out.trace = pre ++ (i, a) :: post →
        Faithful store (unitsOf items exporters) pre w w1 →
        (a.isLookup = true ∧ (store.HasProcessed item.ID exporter.GetType w1).1.2 ≠ none) ∨
          (a.isExport = true ∧ (exporter.Export item w1).1 ≠ none) →
        ∀ b, (i, b) ∈ out.trace → b.isMark = false) := by
  obtain ⟨st, hinv, hdone, hfaith, hres⟩ := ProcessItems_record store items exporters sched w
  refine ⟨_, hres, hfaith, fun i item exporter hu => final_complete hinv hdone hu,
    ?_, ?_, ?_⟩
  · intro i pre post id ty ttl err htr
    simp only at htr
    obtain ⟨item, exporter, hu, hid, hty, hmem⟩ := export_before_mark hinv hdone htr
    refine ⟨item, exporter, hu, hid, hty, ?_⟩
    obtain ⟨pre1, pre2, hpre⟩ := List.append_of_mem hmem
    have hF := hfaith
    rw [htr, hpre, List.append_assoc, List.cons_append] at hF
    obtain ⟨item2, exporter2, w1, w2, hu2, hp1, hr, _⟩ := Faithful_entry hF
    rw [hu] at hu2
    simp only [Option.some.injEq, Prod.mk.injEq] at hu2
    obtain ⟨rfl, rfl⟩ := hu2
    exact ⟨pre1, pre2, w1, w2, hpre, hp1, hr⟩
  · intro i a b ha hb hfail hkind
    exact no_mark_after_failure hinv hdone ha hb hfail hkind
  · intro i item exporter pre a post w1 hu htr hpre hcase b hb
    simp only at htr hb
    have hm : (i, a) ∈ st.trace := by rw [htr]; simp
    have hF := hfaith
    rw [htr] at hF
    obtain ⟨w2, hr⟩ := Faithful_at hF hu hpre
    have hiff := entry_failed_iff (final_complete hinv hdone hu) (mem_actsOf.mpr hm) hr
    have hfail : a.failed = true := by
      rw [hiff]
      rcases hcase with h | h
      · exact Or.inl h
      · exact Or.inr (Or.inl h)
    have hkind : a.isLookup = true ∨ a.isExport = true := by
      rcases hcase with h | h
      · exact Or.inl h.1
      · exact Or.inr h.1
    exact no_mark_after_failure hinv hdone hm hb hfail hkind

/-- C4: every call of `ProcessItems` returns, its log being the true record of the calls
made, and by then every pair of an item and an exporter of the same group has a
goroutine; every goroutine has called `HasProcessed` for its pair exactly once; if that
call returned not-delivered, `(false, nil)` in the world it was made in, the goroutine
has called `Export` exactly once, on its item; otherwise it has not called `Export`.
This holds for every store and exporters, hence whatever fails for the other pairs. -/
theorem ProcessItems_attempts_every_pair {σ : Type} (store : Store σ)
    (items : List Item) (exporters : List (Exporter σ)) (sched : List Nat) (w : σ) :
    ∃ out, ProcessItems store items exporters sched w = some out ∧
      Faithful store (unitsOf items exporters) out.trace w out.world ∧
      (∀ item exporter, item ∈ items → exporter ∈ exporters →
        exporter.GetGroup = item.Group →
        ∃ i : Nat, (unitsOf items exporters)[i]? = some (item, exporter)) ∧
      (∀ i item exporter, (unitsOf items exporters)[i]? = some (item, exporter) →
        ∃ b err pre post w1 w2,
          out.trace = pre ++ (i, Action.hasProcessed item.ID exporter.GetType b err) :: post ∧
          Faithful store (unitsOf items exporters) pre w w1 ∧
          store.HasProcessed item.ID exporter.GetType w1 = ((b, err), w2) ∧
          (actsOf i out.trace).filter Action.isLookup
            = [Action.hasProcessed item.ID exporter.GetType b err] ∧
          (b = false ∧ err = none →
            ∃ e pre2 post2 w3 w4,
              out.trace = pre2 ++ (i, Action.export item e) :: post2 ∧
              Faithful store (unitsOf items exporters) pre2 w w3 ∧
              exporter.Export item w3 = (e, w4) ∧
              (actsOf i out.trace).filter Action.isExport = [Action.export item e]) ∧
          (¬ (b = false ∧ err = none) →
            (actsOf i out.trace).filter Action.isExport = [])) := by
  obtain ⟨st, hinv, hdone, hfaith, hres⟩ := ProcessItems_record store items exporters sched w
  refine ⟨_, hres, hfaith, ?_, ?_⟩
  · intro item exporter hit hex hg
    exact List.mem_iff_getElem?.mp (mem_unitsOf.mpr ⟨hit, hex, hg⟩)
  · intro i item exporter hu
    simp only
    have hlook : ∀ b err, Action.hasProcessed item.ID exporter.GetType b err
        ∈ actsOf i st.trace →
        ∃ pre post w1 w2,
          st.trace = pre ++ (i, Action.hasProcessed item.ID exporter.GetType b err) :: post ∧
          Faithful store (unitsOf items exporters) pre w w1 ∧
          store.HasProcessed item.ID exporter.GetType w1 = ((b, err), w2) := by
      intro b err hm
      exact Faithful_mem hfaith (mem_actsOf.mp hm) hu
    have hexp : ∀ e, Action.export item e ∈ actsOf i st.trace →
        ∃ pre2 post2 w3 w4, st.trace = pre2 ++ (i, Action.export item e) :: post2 ∧
          Faithful store (unitsOf items exporters) pre2 w w3 ∧
          exporter.Export item w3 = (e, w4) := by
      intro e hm
      exact Faithful_mem hfaith (mem_actsOf.mp hm) hu
    rcases final_complete hinv hdone hu with h | h | ⟨b, e, h⟩ | ⟨e, h⟩ | ⟨e, h⟩
    · obtain ⟨pre, post, w1, w2, h1, h2, h3⟩ := hlook true none (by rw [h]; simp)
      refine ⟨true, none, pre, post, w1, w2, h1, h2, h3, ?_, ?_, ?_⟩
      · rw [h]; simp [Action.isLookup]
      · intro hc; simp at hc
      · intro _; rw [h]; simp [Action.isExport]
    · obtain ⟨pre, post, w1, w2, h1, h2, h3⟩ := hlook false none (by rw [h]; simp)
      obtain ⟨pre2, post2, w3, w4, h4, h5, h6⟩ := hexp none (by rw [h]; simp)
      refine ⟨false, none, pre, post, w1, w2, h1, h2, h3, ?_, ?_, ?_⟩
      · rw [h]; simp [Action.isLookup]
      · intro _
        refine ⟨none, pre2, post2, w3, w4, h4, h5, h6, ?_⟩
        rw [h]; simp [Action.isExport]
      · intro hc; simp at hc
    · obtain ⟨pre, post, w1, w2, h1, h2, h3⟩ := hlook b (some e) (by rw [h]; simp)
      refine ⟨b, some e, pre, post, w1, w2, h1, h2, h3, ?_, ?_, ?_⟩
      · rw [h]; simp [Action.isLookup]
      · intro hc; simp at hc
      · intro _; rw [h]; simp [Action.isExport]
    · obtain ⟨pre, post, w1, w2, h1, h2, h3⟩ := hlook false none (by rw [h]; simp)
      obtain ⟨pre2, post2, w3, w4, h4, h5, h6⟩ := hexp (some e) (by rw [h]; simp)
      refine ⟨false, none, pre, post, w1, w2, h1, h2, h3, ?_, ?_, ?_⟩
      · rw [h]; simp [Action.isLookup]
      · intro _
        refine ⟨some e, pre2, post2, w3, w4, h4, h5, h6, ?_⟩
        rw [h]; simp [Action.isExport]
      · intro hc; simp at hc
    · obtain ⟨pre, post, w1, w2, h1, h2, h3⟩ := hlook false none (by rw [h]; simp)
      obtain ⟨pre2, post2, w3, w4, h4, h5, h6⟩ := hexp none (by rw [h]; simp)
      refine ⟨false, none, pre, post, w1, w2, h1, h2, h3, ?_, ?_, ?_⟩
      · rw [h]; simp [Action.isLookup]
      · intro _
        refine ⟨none, pre2, post2, w3, w4, h4, h5, h6, ?_⟩
        rw [h]; simp [Action.isExport]
      · intro hc; simp at hc

theorem length_filterMap_sentErr (trace : List (Nat × Action)) :
    (trace.filterMap sentErr).length = (senders trace).length := by
  induction trace with
  | nil => rfl
  | cons e rest ih =>
    obtain ⟨i, a⟩ := e
    cases a <;> simp_all [senders, sentErr, Action.isSend, List.filterMap_cons, List.filter_cons]

theorem count_senders (i : Nat) (trace : List (Nat × Action)) :
    (senders trace).count i = ((actsOf i trace).filter Action.isSend).length := by
  induction trace with
  | nil => rfl
  | cons e rest ih =>
    obtain ⟨j, a⟩ := e
    by_cases hj : j = i
    · subst hj
      cases hs : a.isSend <;>
        simp_all [senders, actsOf, List.filter_cons, List.count_cons]
    · have hj' : (j == i) = false := by simpa using hj
      cases hs : a.isSend <;>
        simp_all [senders, actsOf, List.filter_cons, List.count_cons]

/-- In a final state a goroutine has sent exactly one error if one of its calls
failed, and none otherwise. -/
theorem final_sends {σ : Type} {units : List (Item × Exporter σ)} {st : FanOut σ}
    (h : Inv units st) (hdone : ∀ pc ∈ st.pcs, pc = Pc.done) (i : Nat) :
    ((actsOf i st.trace).filter Action.isSend).length
      = if i ∈ failedUnits units.length st.trace then 1 else 0 := by
  by_cases hi : i < units.length
  · have hu : units[i]? = some (units[i].1, units[i].2) := by
      simp [List.getElem?_eq_getElem hi]
    have hmem : i ∈ failedUnits units.length st.trace ↔
        (actsOf i st.trace).any Action.failed = true := by
      simp [failedUnits, hi]
    rcases done_cases (final_unit h hdone hu) with h1 | h1 | ⟨b, e, h1⟩ | ⟨e, h1⟩ | ⟨e, h1⟩ <;>
    · have hmem' := hmem
      rw [h1] at hmem' ⊢
      simp [Action.failed, Action.isSend] at hmem' ⊢
      simp [hmem']
  · have hnil : actsOf i st.trace = [] := by
      rw [List.eq_nil_iff_forall_not_mem]
      intro a ha
      exact hi (h.idx _ (mem_actsOf.mp ha))
    have hmem : i ∉ failedUnits units.length st.trace := by
      simp [failedUnits, hi]
    simp [hnil, hmem]

/-- In a final state `errChan` holds as many errors as goroutines failed. -/
theorem final_count {σ : Type} {units : List (Item × Exporter σ)} {st : FanOut σ}
    (h : Inv units st) (hdone : ∀ pc ∈ st.pcs, pc = Pc.done) :
    st.errChan.length = (failedUnits units.length st.trace).length := by
  rw [h.chan, length_filterMap_sentErr]
  have hcount : ∀ i, (senders st.trace).count i
      = if i ∈ failedUnits units.length st.trace then 1 else 0 := by
    intro i
    rw [count_senders, final_sends h hdone]
  have hnd : (senders st.trace).Nodup := by
    rw [List.nodup_iff_count_le_one]
    intro i
    rw [hcount]
    split <;> omega
  have hnd' : (failedUnits units.length st.trace).Nodup :=
    List.Nodup.filter _ (List.nodup_range _)
  apply List.Perm.length_eq
  rw [List.perm_ext_iff_of_nodup hnd hnd']
  intro i
  rw [← List.count_pos_iff, hcount]
  split <;> simp_all

/-- C5: every call of `ProcessItems` returns, its log being the true record of the calls
made, with the complete history of every goroutine.  The result is `nil` exactly when no
call of `HasProcessed`, `Export` or `MarkProcessed` made by a goroutine returned an
error in the world it was made in.  Otherwise the returned error reports as count the
number of goroutines with a failed call and carries that many causes, the errors sent on
`errChan`, each goroutine with a failed call having sent exactly one and every other
goroutine none. -/
theorem ProcessItems_result {σ : Type} (store : Store σ) (items : List Item)
    (exporters : List (Exporter σ)) (sched : List Nat) (w : σ) :
    ∃ out, ProcessItems store items exporters sched w = some out ∧
      Faithful store (unitsOf items exporters) out.trace w out.world ∧
      (∀ i item exporter, (unitsOf items exporters)[i]? = some (item, exporter) →
        Complete item exporter (actsOf i out.trace)) ∧
      (out.result = none ↔ ∀ e ∈ out.trace, e.2.failed = false) ∧
      (out.result = none ↔
        ∀ i item exporter pre a post w1,
          (unitsOf items exporters)[i]? = some (item, exporter) →
          out.trace = pre ++ (i, a) :: post →
          Faithful store (unitsOf items exporters) pre w w1 →
          (a.isLookup = true →
            (store.HasProcessed item.ID exporter.GetType w1).1.2 = none) ∧
          (a.isExport = true → (exporter.Export item w1).1 = none) ∧
          (a.isMark = true →
            (store.MarkProcessed item.ID exporter.GetType (sourceTTLOf exporter) w1).1
              = none)) ∧
      (∀ err, out.result = some err →
        err.count = (failedUnits (unitsOf items exporters).length out.trace).length ∧
        err.errors.length = err.count ∧
        err.errors = out.trace.filterMap sentErr) ∧
      (∀ i, ((actsOf i out.trace).filter Action.isSend).length
        = if i ∈ failedUnits (unitsOf items exporters).length out.trace then 1 else 0) := by
  obtain ⟨st, hinv, hdone, hfaith, hres⟩ := ProcessItems_record store items exporters sched w
  have hcount := final_count hinv hdone
  have hfail : failedUnits (unitsOf items exporters).length st.trace = [] ↔
      ∀ e ∈ st.trace, e.2.failed = false := by
    simp only [failedUnits, List.filter_eq_nil_iff, List.mem_range, List.any_eq_true,
      not_exists, not_and, Bool.not_eq_true]
    constructor
    · rintro hall ⟨i, a⟩ hm
      exact hall i (hinv.idx _ hm) a (mem_actsOf.mpr hm)
    · intro hall i _ a ha
      exact hall (i, a) (mem_actsOf.mp ha)
  have hnil : collect st.errChan = none ↔ ∀ e ∈ st.trace, e.2.failed = false := by
    simp only [collect]
    rw [← hfail, ← List.length_eq_zero, ← hcount]
    by_cases hz : st.errChan.length > 0
    · rw [if_pos hz]
      constructor
      · intro hc; cases hc
      · intro hc; omega
    · rw [if_neg hz]
      constructor
      · intro _; omega
      · intro _; rfl
  refine ⟨_, hres, hfaith, ?_, hnil, ?_, ?_, final_sends hinv hdone⟩
  · intro i item exporter hu
    exact final_complete hinv hdone hu
  · simp only
    rw [hnil]
    constructor
    · intro hall i item exporter pre a post w1 hu htr hpre
      have hm : (i, a) ∈ st.trace := by rw [htr]; simp
      have hF := hfaith
      rw [htr] at hF
      obtain ⟨w2, hr⟩ := Faithful_at hF hu hpre
      have hiff := entry_failed_iff (final_complete hinv hdone hu) (mem_actsOf.mpr hm) hr
      have hnf : ¬ a.failed = true := by
        have := hall (i, a) hm
        simp only at this
        rw [this]; simp
      rw [hiff] at hnf
      simp only [not_or, not_and, ne_eq, not_not] at hnf
      exact hnf
    · rintro hall ⟨i, a⟩ hm
      obtain ⟨item, exporter, hu⟩ := trace_unit hinv hm
      obtain ⟨pre, post, w1, w2, htr, hpre, hr⟩ := Faithful_mem hfaith hm hu
      have hiff := entry_failed_iff (final_complete hinv hdone hu) (mem_actsOf.mpr hm) hr
      obtain ⟨h1, h2, h3⟩ := hall i item exporter pre a post w1 hu htr hpre
      simp only
      rcases hf : a.failed with _ | _
      · rfl
      · rcases hiff.mp hf with h | h | h
        · exact absurd (h1 h.1) h.2
        · exact absurd (h2 h.1) h.2
        · exact absurd (h3 h.1) h.2
  · intro err herr
    simp only [collect] at herr
    split at herr
    · simp only [Option.some.injEq] at herr
      subst herr
      exact ⟨hcount, rfl, hinv.chan⟩
    · simp at herr

/-- C6, evaluated at the failing input: two webhook exporters of group `news`; in the
first call the delivery through the first fails and the delivery through the second
succeeds and is recorded under the key of type `webhook`; in the next call the lookup
for the first exporter reports the item as processed and its `Export` is not invoked
again. -/
theorem ProcessItems_failed_pair_not_retried :
    (ProcessItems demoStore [demoItem] [failHook "news", okHook "news"] [] emptyRedis).map
        (fun out => (out.result, out.world, out.trace))
      = some (some ⟨1, [exportError demoItem "webhook" "status=500"]⟩, demoAfterFirst,
          [(0, Action.hasProcessed "abc123" "webhook" false none),
           (0, Action.export demoItem (some "status=500")),
           (0, Action.sendErr (exportError demoItem "webhook" "status=500")),
           (1, Action.hasProcessed "abc123" "webhook" false none),
           (1, Action.export demoItem none),
           (1, Action.markProcessed "abc123" "webhook" none none)]) ∧
    (ProcessItems demoStore [demoItem] [failHook "news", okHook "news"] [] demoAfterFirst).map
        (fun out => (out.result, out.world, out.trace))
      = some (none, demoAfterFirst,
          [(0, Action.hasProcessed "abc123" "webhook" true none),
           (1, Action.hasProcessed "abc123" "webhook" true none)]) := by
  constructor <;> decide

/-- Two lists that agree after a separator absent from both heads have equal heads
and equal tails. -/
theorem append_sep_inj {α : Type} {c : α} :
    ∀ (l1 l2 r1 r2 : List α), c ∉ l1 → c ∉ l2 → l1 ++ c :: r1 = l2 ++ c :: r2 →
      l1 = l2 ∧ r1 = r2
  | [], [], _, _, _, _, h => by simpa using h
  | [], b :: l2, _, _, _, h2, h => by
    simp only [List.nil_append, List.cons_append, List.cons.injEq] at h
    exact absurd (h.1 ▸ List.mem_cons_self _ _) h2
  | a :: l1, [], _, _, h1, _, h => by
    simp only [List.nil_append, List.cons_append, List.cons.injEq] at h
    exact absurd (h.1 ▸ List.mem_cons_self _ _) h1
  | a :: l1, b :: l2, r1, r2, h1, h2, h => by
    simp only [List.cons_append, List.cons.injEq] at h
    obtain ⟨hab, ht⟩ := h
    have := append_sep_inj l1 l2 r1 r2 (fun hm => h1 (List.mem_cons_of_mem _ hm))
      (fun hm => h2 (List.mem_cons_of_mem _ hm)) ht
    exact ⟨by rw [hab, this.1], this.2⟩

/-- C7, counterexample: two different pairs of exporter and item identifiers with the
same ledger key. -/
theorem processedKey_collision :
    processedKey "a:b" "c" = processedKey "a" "b:c" ∧ ("a:b", "c") ≠ ("a", "b:c") := by
  decide

/-- C7, amended: for exporter identifiers that do not contain `:`, two pairs of
exporter and item identifiers have the same ledger key only if they are the same
pair. -/
theorem processedKey_injective (exporterID1 itemID1 exporterID2 itemID2 : String)
    (h1 : ':' ∉ exporterID1.data) (h2 : ':' ∉ exporterID2.data) :
    processedKey exporterID1 itemID1 = processedKey exporterID2 itemID2 ↔
      exporterID1 = exporterID2 ∧ itemID1 = itemID2 := by
  constructor
  · intro h
    have hd := congrArg String.data h
    simp only [processedKey, String.data_append, List.append_assoc] at hd
    have hd' := List.append_cancel_left hd
    simp only [List.singleton_append] at hd'
    obtain ⟨he, hi⟩ := append_sep_inj _ _ _ _ h1 h2 hd'
    exact ⟨String.ext he, String.ext hi⟩
  · rintro ⟨rfl, rfl⟩
    rfl

/-- C7, witness: exporter identifiers `webhook` and `web` contain no `:`, and the keys
of `(webhook, urn:item:1)` and `(web, hook:urn:item:1)` differ. -/
theorem processedKey_injective_witness :
    ':' ∉ "webhook".data ∧ ':' ∉ "web".data ∧
    (processedKey "webhook" "urn:item:1" = processedKey "web" "hook:urn:item:1" ↔
      "webhook" = "web" ∧ "urn:item:1" = "hook:urn:item:1") :=
  ⟨by decide, by decide, processedKey_injective "webhook" "urn:item:1" "web" "hook:urn:item:1"
    (by decide) (by decide)⟩

/-- C8: `MarkProcessed` issues `SET key "1"` with expiry `*sourceTTL` when
`sourceTTL` is non-nil and with the configured `config.TTL` when it is nil, for every
item and exporter identifier, and returns the client's error wrapped, or `nil`. -/
theorem MarkProcessed_expiry {ρ : Type} (s : RedisStore ρ) (itemID exporterID : String)
    (r : ρ) :
    (∀ d : Duration, s.MarkProcessed itemID exporterID (some d) r =
      ((s.client.Set (processedKey exporterID itemID) "1" d r).1.map
          (fun err => "failed to mark item as processed: " ++ err),
        (s.client.Set (processedKey exporterID itemID) "1" d r).2)) ∧
    s.MarkProcessed itemID exporterID none r =
      ((s.client.Set (processedKey exporterID itemID) "1" s.config.TTL r).1.map
          (fun err => "failed to mark item as processed: " ++ err),
        (s.client.Set (processedKey exporterID itemID) "1" s.config.TTL r).2) := by
  constructor
  · intro d
    simp only [RedisStore.MarkProcessed]
    rcases s.client.Set (processedKey exporterID itemID) "1" d r with ⟨_ | err, r1⟩ <;> rfl
  · simp only [RedisStore.MarkProcessed]
    rcases s.client.Set (processedKey exporterID itemID) "1" s.config.TTL r
      with ⟨_ | err, r1⟩ <;> rfl

/-! ### The token bucket -/

theorem floor_le_roundHalfEven (q : ℚ) : ⌊q⌋ ≤ roundHalfEven q := by
  unfold roundHalfEven
  split_ifs <;> omega

theorem roundHalfEven_le_floor_succ (q : ℚ) : roundHalfEven q ≤ ⌊q⌋ + 1 := by
  unfold roundHalfEven
  split_ifs <;> omega

/-- Rounding does not jump over an integer above. -/
theorem roundHalfEven_le_of_le (q : ℚ) (k : ℤ) (h : q ≤ k) : roundHalfEven q ≤ k := by
  have hfl : ⌊q⌋ ≤ k := by
    have := Int.floor_le q
    exact_mod_cast this.trans h
  by_cases hq : q - ⌊q⌋ < 1 / 2
  · simp only [roundHalfEven, if_pos hq]
    exact hfl
  · have hlt : (⌊q⌋ : ℚ) < k := by
      have : (⌊q⌋ : ℚ) < q := by linarith
      linarith
    have hlt' : ⌊q⌋ < k := by exact_mod_cast hlt
    have := roundHalfEven_le_floor_succ q
    omega

/-- Rounding does not jump over an integer below. -/
theorem le_roundHalfEven_of_le (q : ℚ) (k : ℤ) (h : (k : ℚ) ≤ q) : k ≤ roundHalfEven q :=
  (Int.le_floor.mpr h).trans (floor_le_roundHalfEven q)

theorem roundHalfEven_intCast (k : ℤ) : roundHalfEven (k : ℚ) = k := by
  simp [roundHalfEven]

theorem ulpExp_ge (x : ℚ) : -1074 ≤ ulpExp x := le_max_right _ _

theorem ulpExp_mono {x y : ℚ} (hx : 0 < x) (h : x ≤ y) : ulpExp x ≤ ulpExp y := by
  unfold ulpExp
  rw [abs_of_pos hx, abs_of_pos (hx.trans_le h)]
  have := Int.log_mono_right (b := 2) hx h
  exact max_le_max (by omega) le_rfl

theorem two_zpow_pos (e : ℤ) : (0 : ℚ) < 2 ^ e := zpow_pos (by norm_num) e

/-- The binary logarithm of a positive rational, from a bracket of powers of two. -/
theorem log_two_eq {x : ℚ} {e : ℤ} (h1 : (2 : ℚ) ^ e ≤ x) (h2 : x < 2 ^ (e + 1)) :
    Int.log 2 x = e := by
  have hx : 0 < x := (two_zpow_pos e).trans_le h1
  have ha : e ≤ Int.log 2 x := by
    rw [← Int.zpow_le_iff_le_log (by norm_num) hx]
    exact_mod_cast h1
  have hb : Int.log 2 x < e + 1 := by
    rw [← Int.lt_zpow_iff_log_lt (by norm_num) hx]
    exact_mod_cast h2
  omega

theorem two_zpow_log_le {x : ℚ} (hx : 0 < x) : (2 : ℚ) ^ Int.log 2 x ≤ x := by
  have := Int.zpow_log_le_self (b := 2) (by norm_num) hx
  exact_mod_cast this

theorem lt_two_zpow_log_succ (x : ℚ) : x < (2 : ℚ) ^ (Int.log 2 x + 1) := by
  have := Int.lt_zpow_succ_log_self (b := 2) (by norm_num) x
  exact_mod_cast this

theorem round64_zero : round64 0 = 0 := by
  simp [round64, roundHalfEven]

/-- A power of two with non-negative exponent is an integer. -/
theorem two_zpow_nonneg_eq {d : ℤ} (hd : 0 ≤ d) : (2 : ℚ) ^ d = ((2 ^ d.toNat : ℤ) : ℚ) := by
  lift d to ℕ using hd
  simp

/-- Rounding does not jump over a binary64 number above: P2. -/
theorem round64_le_of_le {x B : ℚ} (hx : 0 ≤ x) (h : x ≤ B) (hB : round64 B = B) :
    round64 x ≤ B := by
  rcases hx.eq_or_lt with rfl | hpos
  · rw [round64_zero]; exact h
  have hq := ulpExp_mono hpos h
  have hd : 0 ≤ ulpExp B - ulpExp x := by omega
  -- `B` is an integer multiple of the unit in the last place of `x`
  have hBk : B = ((roundHalfEven (B / 2 ^ ulpExp B) * 2 ^ (ulpExp B - ulpExp x).toNat : ℤ) : ℚ)
      * 2 ^ ulpExp x := by
    conv_lhs => rw [← hB, round64]
    push_cast
    rw [mul_assoc]
    congr 1
    have : (2 : ℚ) ^ (ulpExp B - ulpExp x).toNat = 2 ^ (ulpExp B - ulpExp x) := by
      rw [two_zpow_nonneg_eq hd]; push_cast; rfl
    rw [this, ← zpow_add₀ (by norm_num : (2 : ℚ) ≠ 0)]
    congr 1
    omega
  have hle : x / 2 ^ ulpExp x ≤
      ((roundHalfEven (B / 2 ^ ulpExp B) * 2 ^ (ulpExp B - ulpExp x).toNat : ℤ) : ℚ) := by
    rw [div_le_iff₀ (two_zpow_pos _), ← hBk]
    exact h
  have hr := roundHalfEven_le_of_le _ _ hle
  have hr' : (roundHalfEven (x / 2 ^ ulpExp x) : ℚ) ≤
      ((roundHalfEven (B / 2 ^ ulpExp B) * 2 ^ (ulpExp B - ulpExp x).toNat : ℤ) : ℚ) := by
    exact_mod_cast hr
  calc round64 x = roundHalfEven (x / 2 ^ ulpExp x) * 2 ^ ulpExp x := rfl
    _ ≤ ((roundHalfEven (B / 2 ^ ulpExp B) * 2 ^ (ulpExp B - ulpExp x).toNat : ℤ) : ℚ)
        * 2 ^ ulpExp x := mul_le_mul_of_nonneg_right hr' (two_zpow_pos _).le
    _ = B := hBk.symm

/-- A number that is a whole number of its own units in the last place is a binary64
number. -/
theorem round64_of_int_div {z : ℚ} {k : ℤ} (h : z / 2 ^ ulpExp z = k) : round64 z = z := by
  unfold round64
  rw [h, roundHalfEven_intCast, ← h]
  exact div_mul_cancel₀ _ (two_zpow_pos _).ne'

/-- Integers of at most 53 bits scaled by a power of two in range are binary64 numbers. -/
theorem round64_int_mul_zpow (m q : ℤ) (hm0 : 0 ≤ m) (hm : m ≤ 2 ^ 53) (hq : -1074 ≤ q) :
    round64 (m * 2 ^ q) = m * 2 ^ q := by
  rcases hm0.eq_or_lt with rfl | hpos
  · simp [round64_zero]
  have hposq : (0 : ℚ) < m := by exact_mod_cast hpos
  have hz : (0 : ℚ) < m * 2 ^ q := mul_pos hposq (two_zpow_pos q)
  rcases hm.eq_or_lt with rfl | hlt
  · -- the top of the binade
    have hval : (((2 : ℤ) ^ 53 : ℤ) : ℚ) * 2 ^ q = 2 ^ (q + 53) := by
      rw [zpow_add₀ (by norm_num : (2 : ℚ) ≠ 0), mul_comm]
      norm_num
    rw [hval]
    have hlog : Int.log 2 ((2 : ℚ) ^ (q + 53)) = q + 53 :=
      log_two_eq le_rfl (zpow_lt_zpow_right₀ (by norm_num) (by omega))
    have hu : ulpExp ((2 : ℚ) ^ (q + 53)) = q + 1 := by
      unfold ulpExp
      rw [abs_of_pos (two_zpow_pos _), hlog]
      omega
    apply round64_of_int_div (k := 2 ^ 52)
    rw [hu, div_eq_iff (two_zpow_pos _).ne']
    have he : q + 53 = 52 + (q + 1) := by omega
    rw [he, zpow_add₀ (by norm_num : (2 : ℚ) ≠ 0)]
    norm_num
  · have hlt' : ((m : ℚ)) * 2 ^ q < 2 ^ (q + 53) := by
      rw [zpow_add₀ (by norm_num : (2 : ℚ) ≠ 0), mul_comm]
      apply mul_lt_mul_of_pos_left _ (two_zpow_pos q)
      have : (m : ℚ) < ((2 ^ 53 : ℤ) : ℚ) := by exact_mod_cast hlt
      norm_num at this ⊢
      exact this
    have hlog : Int.log 2 ((m : ℚ) * 2 ^ q) < q + 53 := by
      rw [← Int.lt_zpow_iff_log_lt (by norm_num) hz]
      exact_mod_cast hlt'
    have hu : ulpExp ((m : ℚ) * 2 ^ q) ≤ q := by
      unfold ulpExp
      rw [abs_of_pos hz]
      exact max_le (by omega) hq
    have hd : 0 ≤ q - ulpExp ((m : ℚ) * 2 ^ q) := by omega
    apply round64_of_int_div (k := m * 2 ^ (q - ulpExp ((m : ℚ) * 2 ^ q)).toNat)
    rw [div_eq_iff (two_zpow_pos _).ne']
    push_cast
    rw [mul_assoc]
    congr 1
    have : (2 : ℚ) ^ (q - ulpExp ((m : ℚ) * 2 ^ q)).toNat
        = 2 ^ (q - ulpExp ((m : ℚ) * 2 ^ q)) := by
      rw [two_zpow_nonneg_eq hd]; push_cast; rfl
    rw [this, ← zpow_add₀ (by norm_num : (2 : ℚ) ≠ 0)]
    congr 1
    omega

/-- The significand of a rounded non-negative number has at most 53 bits. -/
theorem roundHalfEven_ulp_bounds {y : ℚ} (hy : 0 ≤ y) :
    0 ≤ roundHalfEven (y / 2 ^ ulpExp y) ∧ roundHalfEven (y / 2 ^ ulpExp y) ≤ 2 ^ 53 := by
  constructor
  · apply le_roundHalfEven_of_le
    simpa using div_nonneg hy (two_zpow_pos _).le
  · apply roundHalfEven_le_of_le
    rw [div_le_iff₀ (two_zpow_pos _)]
    have h1 := lt_two_zpow_log_succ y
    have h2 : Int.log 2 y + 1 ≤ 53 + ulpExp y := by
      have : Int.log 2 |y| - 52 ≤ ulpExp y := le_max_left _ _
      rw [abs_of_nonneg hy] at this
      omega
    have h3 := h1.le.trans (zpow_le_zpow_right₀ (by norm_num) h2)
    rw [zpow_add₀ (by norm_num : (2 : ℚ) ≠ 0)] at h3
    norm_num at h3 ⊢
    exact h3

/-- Rounding is idempotent on non-negative numbers. -/
theorem round64_round64 {y : ℚ} (hy : 0 ≤ y) : round64 (round64 y) = round64 y := by
  obtain ⟨h0, h53⟩ := roundHalfEven_ulp_bounds hy
  exact round64_int_mul_zpow _ _ h0 h53 (ulpExp_ge y)

theorem round64_nonneg {y : ℚ} (hy : 0 ≤ y) : 0 ≤ round64 y := by
  have := (roundHalfEven_ulp_bounds hy).1
  have h' : (0 : ℚ) ≤ roundHalfEven (y / 2 ^ ulpExp y) := by exact_mod_cast this
  exact mul_nonneg h' (two_zpow_pos _).le

theorem round64_nonpos {y : ℚ} (hy : y ≤ 0) : round64 y ≤ 0 := by
  have h : roundHalfEven (y / 2 ^ ulpExp y) ≤ 0 := by
    apply roundHalfEven_le_of_le
    simpa using div_nonpos_of_nonpos_of_nonneg hy (two_zpow_pos _).le
  have h' : (roundHalfEven (y / 2 ^ ulpExp y) : ℚ) ≤ 0 := by exact_mod_cast h
  exact mul_nonpos_of_nonpos_of_nonneg h' (two_zpow_pos _).le

/-- Below `2 ^ 53`, taking one from a binary64 number that is at least one is exact. -/
theorem round64_sub_one {t : ℚ} (ht : round64 t = t) (h1 : 1 ≤ t) (h53 : t < 2 ^ 53) :
    round64 (t - 1) = t - 1 := by
  have hpos : 0 < t := by linarith
  have hlog0 : 0 ≤ Int.log 2 t := by
    rw [← Int.zpow_le_iff_le_log (by norm_num) hpos]
    simpa using h1
  have hlog1 : Int.log 2 t < 53 := by
    rw [← Int.lt_zpow_iff_log_lt (by norm_num) hpos]
    exact_mod_cast h53
  have hu : ulpExp t = Int.log 2 t - 52 := by
    unfold ulpExp
    rw [abs_of_pos hpos]
    omega
  obtain ⟨hn0, hn53⟩ := roundHalfEven_ulp_bounds hpos.le
  set n := roundHalfEven (t / 2 ^ ulpExp t) with hn
  have htn : t = n * 2 ^ ulpExp t := by
    conv_lhs => rw [← ht]
    rfl
  have hd : 0 ≤ -ulpExp t := by omega
  have hone : (1 : ℚ) = ((2 ^ (-ulpExp t).toNat : ℤ) : ℚ) * 2 ^ ulpExp t := by
    push_cast
    have : (2 : ℚ) ^ (-ulpExp t).toNat = 2 ^ (-ulpExp t) := by
      rw [two_zpow_nonneg_eq hd]; push_cast; rfl
    rw [this, ← zpow_add₀ (by norm_num : (2 : ℚ) ≠ 0)]
    simp
  have hsub : t - 1 = ((n - 2 ^ (-ulpExp t).toNat : ℤ) : ℚ) * 2 ^ ulpExp t := by
    push_cast
    rw [sub_mul, ← htn]
    congr 1
    rw [hone]
    push_cast
    ring
  have hm0 : 0 ≤ n - 2 ^ (-ulpExp t).toNat := by
    have h : (0 : ℚ) ≤ ((n - 2 ^ (-ulpExp t).toNat : ℤ) : ℚ) * 2 ^ ulpExp t := by
      rw [← hsub]; linarith
    have h' := nonneg_of_mul_nonneg_left h (two_zpow_pos _)
    exact_mod_cast h'
  have hm53 : n - 2 ^ (-ulpExp t).toNat ≤ 2 ^ 53 := by
    have : (0 : ℤ) ≤ 2 ^ (-ulpExp t).toNat := by positivity
    omega
  rw [hsub]
  exact round64_int_mul_zpow _ _ hm0 hm53 (ulpExp_ge t)

theorem minFloat_le_left (a b : ℚ) : minFloat a b ≤ a := by
  unfold minFloat
  split <;> linarith

theorem Allow_bucketSize (l : Limiter) (now : Int) :
    (l.Allow now).2.bucketSize = l.bucketSize := by
  unfold Limiter.Allow
  simp only
  split <;> rfl

/-- One call of `Allow` leaves the tokens within the bucket. -/
theorem Allow_tokens_le (l : Limiter) (now : Int)
    (hB : 1 ≤ l.bucketSize → round64 l.bucketSize = l.bucketSize) :
    (l.Allow now).2.tokens ≤ l.bucketSize := by
  unfold Limiter.Allow
  simp only
  have hmin := minFloat_le_left l.bucketSize
    (round64 (l.tokens + round64 (Seconds (now - l.lastRefill) * l.rate)))
  split
  · next h1 =>
    simp only
    exact round64_le_of_le (by linarith) (by linarith) (hB (h1.trans hmin))
  · exact hmin

/-- The bucket size of a new limiter is a binary64 number when it is positive. -/
theorem NewLimiter_bucketSize (rate : ℚ) (now : Int)
    (h : 1 ≤ (NewLimiter rate now).bucketSize) :
    round64 (NewLimiter rate now).bucketSize = (NewLimiter rate now).bucketSize := by
  simp only [NewLimiter] at h ⊢
  by_cases hr : 0 ≤ rate * (3 / 2)
  · exact round64_round64 hr
  · have := round64_nonpos (le_of_not_le hr)
    linarith

/-- C9: for a limiter created by `NewLimiter(rate)`, after any sequence of `Allow`
calls at any instants, the bucket size is still the capacity `rate × 1.5` (the
`float64` product) and the token count does not exceed it. -/
theorem Limiter_tokens_le_capacity (rate : ℚ) (start : Int) (nows : List Int) :
    (allowMany (NewLimiter rate start) nows).2.bucketSize = round64 (rate * (3 / 2)) ∧
    (allowMany (NewLimiter rate start) nows).2.tokens ≤ round64 (rate * (3 / 2)) := by
  have key : ∀ (nows : List Int) (l : Limiter),
      l.bucketSize = round64 (rate * (3 / 2)) →
      (1 ≤ l.bucketSize → round64 l.bucketSize = l.bucketSize) →
      l.tokens ≤ l.bucketSize →
      (allowMany l nows).2.bucketSize = round64 (rate * (3 / 2)) ∧
        (allowMany l nows).2.tokens ≤ round64 (rate * (3 / 2)) := by
    intro nows
    induction nows with
    | nil =>
      intro l hb _ ht
      exact ⟨hb, hb ▸ ht⟩
    | cons now rest ih =>
      intro l hb hfix ht
      simp only [allowMany]
      have hb' := Allow_bucketSize l now
      apply ih
      · rw [hb', hb]
      · rw [hb']; exact hfix
      · rw [hb']; exact Allow_tokens_le l now hfix
  exact key nows (NewLimiter rate start) rfl (NewLimiter_bucketSize rate start) le_rfl

theorem Seconds_zero : Seconds 0 = 0 := by
  simp [Seconds, round64_zero]

theorem minFloat_of_le {a b : ℚ} (h : b ≤ a) : minFloat a b = b := by
  unfold minFloat
  rw [if_neg (not_lt.mpr h)]

/-- A call of `Allow` with no time elapsed since the last one adds no token. -/
theorem Allow_no_elapsed (l : Limiter) (hfix : round64 l.tokens = l.tokens)
    (hle : l.tokens ≤ l.bucketSize) :
    l.Allow l.lastRefill =
      if 1 ≤ l.tokens then (true, { l with tokens := round64 (l.tokens - 1) })
      else (false, l) := by
  unfold Limiter.Allow
  simp only [sub_self, Seconds_zero, zero_mul, round64_zero, add_zero, hfix,
    minFloat_of_le hle]

/-- Below `2 ^ 53`, a full bucket less a whole number of tokens is a binary64 number. -/
theorem round64_sub_nat {B : ℚ} (hB : round64 B = B) (h53 : B < 2 ^ 53) :
    ∀ k : ℕ, (k : ℚ) ≤ B → round64 (B - k) = B - k
  | 0, _ => by simpa using hB
  | k + 1, hk => by
    have hk' : (k : ℚ) ≤ B := by push_cast at hk; linarith
    have ih := round64_sub_nat hB h53 k hk'
    have h1 : (1 : ℚ) ≤ B - k := by push_cast at hk; linarith
    have h2 : B - k < 2 ^ 53 := by
      have : (0 : ℚ) ≤ k := Nat.cast_nonneg k
      linarith
    have := round64_sub_one ih h1 h2
    push_cast
    rw [← sub_sub]
    exact this

/-- With no time passing, a limiter holding `B - k` tokens admits exactly the
`n - k` next calls, `n` being the integer part of `B`. -/
theorem allowMany_no_elapsed (rate B : ℚ) (now : Int) (n : ℕ) (hB : round64 B = B)
    (h53 : B < 2 ^ 53) (hn : (n : ℚ) ≤ B) (hn1 : B < n + 1) :
    ∀ j k : ℕ, k + j = n →
      (allowMany ⟨rate, B, B - k, now⟩ (List.replicate (j + 1) now)).1
        = List.replicate j true ++ [false]
  | 0, k, hk => by
    have hkn : k = n := by omega
    subst hkn
    have hfix := round64_sub_nat hB h53 k hn
    have hk0 : (0 : ℚ) ≤ k := Nat.cast_nonneg k
    have hallow := Allow_no_elapsed ⟨rate, B, B - k, now⟩ hfix (by simp only; linarith)
    simp only at hallow
    rw [if_neg (by linarith)] at hallow
    simp [allowMany, hallow]
  | j + 1, k, hk => by
    have hk1 : ((k + 1 : ℕ) : ℚ) ≤ B := by
      have : ((k + 1 : ℕ) : ℚ) ≤ n := by exact_mod_cast (by omega : k + 1 ≤ n)
      linarith
    have hk0 : (0 : ℚ) ≤ k := Nat.cast_nonneg k
    have hkB : (k : ℚ) ≤ B := by push_cast at hk1; linarith
    have hfix := round64_sub_nat hB h53 k hkB
    have hfix1 := round64_sub_nat hB h53 (k + 1) hk1
    have hallow := Allow_no_elapsed ⟨rate, B, B - k, now⟩ hfix (by simp only; linarith)
    simp only at hallow
    rw [if_pos (by push_cast at hk1; linarith)] at hallow
    have hstate : round64 (B - k - 1) = B - ((k + 1 : ℕ) : ℚ) := by
      rw [← hfix1]; push_cast; rw [← sub_sub]
    rw [hstate] at hallow
    have ih := allowMany_no_elapsed rate B now n hB h53 hn hn1 j (k + 1) (by omega)
    rw [List.replicate_succ (n := j + 1), allowMany, hallow]
    simp only
    rw [ih]
    rfl

/-- Integers of at most 53 bits are binary64 numbers. -/
theorem round64_intCast (m : ℤ) (hm0 : 0 ≤ m) (hm : m ≤ 2 ^ 53) : round64 (m : ℚ) = m := by
  have := round64_int_mul_zpow m 0 hm0 hm (by norm_num)
  simpa using this

theorem round64_three : round64 3 = 3 := by
  have := round64_intCast 3 (by norm_num) (by norm_num)
  simpa using this

theorem round64_one : round64 1 = 1 := by
  have := round64_intCast 1 (by norm_num) (by norm_num)
  simpa using this

theorem round64_two : round64 2 = 2 := by
  have := round64_intCast 2 (by norm_num) (by norm_num)
  simpa using this

theorem round64_half : round64 (1 / 2) = 1 / 2 := by
  have := round64_int_mul_zpow 1 (-1) (by norm_num) (by norm_num) (by norm_num)
  norm_num at this ⊢
  exact this

theorem Seconds_half : Seconds 500000000 = 1 / 2 := by
  have h1 : round64 (500000000 : ℚ) = 500000000 := by
    have := round64_intCast 500000000 (by norm_num) (by norm_num)
    simpa using this
  have h2 : (500000000 : ℚ) / 1000000000 = 1 / 2 := by norm_num
  have h3 : Int.tdiv 500000000 1000000000 = 0 := by decide
  have h4 : Int.tmod 500000000 1000000000 = 500000000 := by decide
  simp only [Seconds, h3, h4, Int.cast_zero, Int.cast_ofNat, round64_zero, h1, h2,
    round64_half, zero_add]

/-- A limiter for two requests per second admits three calls at once and refuses the
fourth; the fourth is admitted when it comes half a second later. -/
theorem Limiter_rate_two (start : Int) :
    (allowMany (NewLimiter 2 start) [start, start, start, start]).1
      = [true, true, true, false] ∧
    (allowMany (NewLimiter 2 start) [start, start, start, start + 500000000]).1
      = [true, true, true, true] := by
  have hB : round64 ((2 : ℚ) * (3 / 2)) = 3 := by
    rw [show (2 : ℚ) * (3 / 2) = 3 by norm_num, round64_three]
  have h32 : round64 ((3 : ℚ) - 1) = 2 := by
    rw [show (3 : ℚ) - 1 = 2 by norm_num, round64_two]
  have h21 : round64 ((2 : ℚ) - 1) = 1 := by
    rw [show (2 : ℚ) - 1 = 1 by norm_num, round64_one]
  have h10 : round64 ((1 : ℚ) - 1) = 0 := by
    rw [show (1 : ℚ) - 1 = 0 by norm_num, round64_zero]
  have hhalf : round64 ((1 : ℚ) / 2 * 2) = 1 := by
    rw [show (1 : ℚ) / 2 * 2 = 1 by norm_num, round64_one]
  have hm3 : minFloat 3 3 = 3 := minFloat_of_le le_rfl
  have hm2 : minFloat 3 2 = 2 := minFloat_of_le (by norm_num)
  have hm1 : minFloat 3 1 = 1 := minFloat_of_le (by norm_num)
  have hm0 : minFloat 3 0 = 0 := minFloat_of_le (by norm_num)
  constructor
  · simp [allowMany, Limiter.Allow, NewLimiter, hB, Seconds_zero, round64_zero,
      round64_three, round64_two, round64_one, hm3, hm2, hm1, hm0, h32, h21, h10]
    norm_num
  · simp [allowMany, Limiter.Allow, NewLimiter, hB, Seconds_zero, round64_zero,
      round64_three, round64_two, round64_one, hm3, hm2, hm1, hm0, h32, h21, h10,
      Seconds_half, hhalf]

/-- C10, amended: for every rate ≥ 0 whose bucket size `rate × 1.5` (the `float64`
product) is below `2 ^ 53`, a fresh limiter with no time elapsing between calls admits
exactly `floor(bucket size)` consecutive `Allow` calls and refuses the next one; for
rate 2.0 that is three admissions, and the fourth call is admitted when 0.5 s have
elapsed. -/
theorem Limiter_burst (rate : ℚ) (start : Int) (hrate : 0 ≤ rate)
    (h53 : round64 (rate * (3 / 2)) < 2 ^ 53) :
    admitsExactly (NewLimiter rate start) start ⌊round64 (rate * (3 / 2))⌋.toNat ∧
    (allowMany (NewLimiter 2 start) [start, start, start, start]).1
      = [true, true, true, false] ∧
    (allowMany (NewLimiter 2 start) [start, start, start, start + 500000000]).1
      = [true, true, true, true] := by
  refine ⟨?_, Limiter_rate_two start⟩
  have hy : 0 ≤ rate * (3 / 2) := by positivity
  have hB := round64_round64 hy
  have hB0 := round64_nonneg hy
  have hfl0 : 0 ≤ ⌊round64 (rate * (3 / 2))⌋ := Int.floor_nonneg.mpr hB0
  have hcast : ((⌊round64 (rate * (3 / 2))⌋.toNat : ℕ) : ℚ)
      = ((⌊round64 (rate * (3 / 2))⌋ : ℤ) : ℚ) := by
    have : ((⌊round64 (rate * (3 / 2))⌋.toNat : ℕ) : ℤ) = ⌊round64 (rate * (3 / 2))⌋ :=
      Int.toNat_of_nonneg hfl0
    exact_mod_cast this
  have hn : ((⌊round64 (rate * (3 / 2))⌋.toNat : ℕ) : ℚ) ≤ round64 (rate * (3 / 2)) := by
    rw [hcast]; exact Int.floor_le _
  have hn1 : round64 (rate * (3 / 2)) < (⌊round64 (rate * (3 / 2))⌋.toNat : ℕ) + 1 := by
    rw [hcast]; exact Int.lt_floor_add_one _
  have := allowMany_no_elapsed rate (round64 (rate * (3 / 2))) start _ hB h53 hn hn1
    ⌊round64 (rate * (3 / 2))⌋.toNat 0 (by omega)
  simpa [admitsExactly, NewLimiter] using this

/-- C10, witness: rate 2.0 is non-negative with a bucket size below `2 ^ 53`, and the
fresh limiter admits exactly `floor(bucket size)` calls. -/
theorem Limiter_burst_witness :
    (0 : ℚ) ≤ 2 ∧ round64 ((2 : ℚ) * (3 / 2)) < 2 ^ 53 ∧
    admitsExactly (NewLimiter 2 0) 0 ⌊round64 ((2 : ℚ) * (3 / 2))⌋.toNat :=
  ⟨by norm_num,
    by rw [show (2 : ℚ) * (3 / 2) = 3 by norm_num, round64_three]; norm_num,
    (Limiter_burst 2 0 (by norm_num)
      (by rw [show (2 : ℚ) * (3 / 2) = 3 by norm_num, round64_three]; norm_num)).1⟩

/-- A limiter that a call of `Allow` leaves unchanged admits every further call. -/
theorem allowMany_stuck (l : Limiter) (now : Int) (h : l.Allow now = (true, l)) :
    ∀ k : ℕ, allowMany l (List.replicate k now) = (List.replicate k true, l)
  | 0 => rfl
  | k + 1 => by
    rw [List.replicate_succ, allowMany, h]
    simp only
    rw [allowMany_stuck l now h k]
    rfl

/-- The bucket of a limiter for `2 ^ 54` requests per second holds `3 * 2 ^ 53` tokens. -/
theorem round64_huge : round64 ((2 : ℚ) ^ 54 * (3 / 2)) = 27021597764222976 := by
  have := round64_int_mul_zpow 3 53 (by norm_num) (by norm_num) (by norm_num)
  norm_num at this ⊢
  exact this

/-- In binary64, `3 * 2 ^ 53 - 1` rounds to `3 * 2 ^ 53`. -/
theorem round64_huge_sub_one : round64 (27021597764222976 - 1) = 27021597764222976 := by
  have hlog : Int.log 2 (27021597764222975 : ℚ) = 54 :=
    log_two_eq (by norm_num) (by norm_num)
  have hu : ulpExp (27021597764222975 : ℚ) = 2 := by
    unfold ulpExp
    rw [abs_of_pos (by norm_num), hlog]
    rfl
  have hfloor : ⌊(27021597764222975 : ℚ) / 2 ^ (2 : ℤ)⌋ = 6755399441055743 := by
    rw [Int.floor_eq_iff]
    constructor <;> norm_num
  rw [show (27021597764222976 : ℚ) - 1 = 27021597764222975 by norm_num]
  unfold round64 roundHalfEven
  rw [hu, hfloor]
  norm_num

/-- The limiter for `2 ^ 54` requests per second never runs out of tokens. -/
theorem Allow_huge :
    (NewLimiter (2 ^ 54) 0).Allow 0 = (true, NewLimiter (2 ^ 54) 0) := by
  have hl : NewLimiter (2 ^ 54) 0
      = ⟨2 ^ 54, 27021597764222976, 27021597764222976, 0⟩ := by
    simp only [NewLimiter, round64_huge]
  have hfix : round64 (27021597764222976 : ℚ) = 27021597764222976 := by
    have := round64_round64 (y := (2 : ℚ) ^ 54 * (3 / 2)) (by norm_num)
    rwa [round64_huge] at this
  rw [hl]
  have := Allow_no_elapsed ⟨2 ^ 54, 27021597764222976, 27021597764222976, 0⟩ hfix le_rfl
  simp only at this
  rw [this, if_pos (by norm_num), round64_huge_sub_one]

/-- C10, counterexample: for rate `2 ^ 54` the bucket holds `3 * 2 ^ 53` tokens, taking
one token away rounds back to the same `float64`, every `Allow` returns true, and the
call after the first `floor(rate × 1.5)` ones is not refused. -/
theorem Limiter_burst_unbounded :
    ¬ admitsExactly (NewLimiter (2 ^ 54) 0) 0 ⌊round64 ((2 : ℚ) ^ 54 * (3 / 2))⌋.toNat := by
  unfold admitsExactly
  generalize ⌊round64 ((2 : ℚ) ^ 54 * (3 / 2))⌋.toNat = n
  rw [allowMany_stuck _ 0 Allow_huge (n + 1), List.replicate_succ']
  intro h
  have := List.append_cancel_left h
  simp at this

/-! ### Capacity of the error channel, waiting, validation, delivery, scheduling -/

/-- A goroutine has sent at most one error, whatever its program counter. -/
theorem unitInv_sends_le_one {σ : Type} {item : Item} {exporter : Exporter σ} {pc : Pc}
    {acts : List Action} (h : UnitInv item exporter pc acts) :
    (acts.filter Action.isSend).length ≤ 1 := by
  cases pc with
  | check => simp only [UnitInv] at h; subst h; simp
  | send => simp only [UnitInv] at h; subst h; simp [Action.isSend]
  | mark => simp only [UnitInv] at h; subst h; simp [Action.isSend]
  | report e =>
    simp only [UnitInv] at h
    rcases h with ⟨b, err, rfl, _⟩ | ⟨err, rfl, _⟩ | ⟨err, rfl, _⟩ <;> simp [Action.isSend]
  | done =>
    rcases done_cases h with h | h | ⟨b, e, h⟩ | ⟨e, h⟩ | ⟨e, h⟩ <;>
    · rw [h]
      simp [Action.isSend]

/-- C18: in every `ProcessItems` call at most `len(items) × len(exporters)` goroutines
are launched, the capacity of `errChan`; at every point of every execution each
goroutine has sent at most one error, and a goroutine about to send finds room in
`errChan`, so that its send does not block and it returns; and once the goroutines have
been left to run every one of them has returned, `wg.Wait()` returns and so does the
call. -/
theorem errChan_capacity_suffices {σ : Type} (store : Store σ) (items : List Item)
    (exporters : List (Exporter σ)) (sched : List Nat) (w : σ) :
    (unitsOf items exporters).length ≤ items.length * exporters.length ∧
    (∀ i, ((actsOf i (reach store items exporters sched w).trace).filter
      Action.isSend).length ≤ 1) ∧
    (∀ (i : Nat) e, (reach store items exporters sched w).pcs[i]? = some (Pc.report e) →
      (reach store items exporters sched w).errChan.length
        < items.length * exporters.length ∧
      (step store (items.length * exporters.length) (unitsOf items exporters) i
        (reach store items exporters sched w)).pcs[i]? = some Pc.done) ∧
    (∀ pc ∈ (reach store items exporters (sched ++ drain (unitsOf items exporters).length)
      w).pcs, pc = Pc.done) ∧
    (∃ out, ProcessItems store items exporters sched w = some out) := by
  have hcap := unitsOf_length_le items exporters
  have hinv : Inv (unitsOf items exporters) (reach store items exporters sched w) :=
    run_inv store (items.length * exporters.length) (unitsOf items exporters) sched
      _ (init_inv (unitsOf items exporters) w)
  refine ⟨hcap, ?_, ?_, fanOut_done store items exporters sched w,
    ⟨_, ProcessItems_eq store items exporters sched w⟩⟩
  · intro i
    by_cases hi : i < (unitsOf items exporters).length
    · have hu : (unitsOf items exporters)[i]?
          = some ((unitsOf items exporters)[i].1, (unitsOf items exporters)[i].2) := by
        simp [List.getElem?_eq_getElem hi]
      have hip : i < (reach store items exporters sched w).pcs.length := by
        rw [hinv.len]; exact hi
      exact unitInv_sends_le_one (hinv.unit i _ _ _ hu (List.getElem?_eq_getElem hip))
    · have hnil : actsOf i (reach store items exporters sched w).trace = [] := by
        rw [List.eq_nil_iff_forall_not_mem]
        intro a ha
        exact hi (hinv.idx _ (mem_actsOf.mp ha))
      simp [hnil]
  · intro i e hp
    have hrun := running_pos hp (by simp)
    have hroom := hinv.room
    have hlt : (reach store items exporters sched w).errChan.length
        < items.length * exporters.length := by omega
    refine ⟨hlt, ?_⟩
    have hi : i < (unitsOf items exporters).length := by
      rw [← hinv.len]; exact (List.getElem?_eq_some_iff.mp hp).1
    have hu : (unitsOf items exporters)[i]?
        = some ((unitsOf items exporters)[i].1, (unitsOf items exporters)[i].2) := by
      simp [List.getElem?_eq_getElem hi]
    rw [step_eq _ _ _ _ _ hu hp]
    simp only
    rw [List.getElem?_set_self (List.getElem?_eq_some_iff.mp hp).1]
    have hfull : decide (items.length * exporters.length ≤
        (reach store items exporters sched w).errChan.length) = false := by
      simp only [decide_eq_false_iff_not, not_le]; exact hlt
    rw [hfull]
    simp [unitStep]

/-- A limiter whose bucket holds less than one token refuses every call. -/
theorem Allow_small_bucket (l : Limiter) (now : Int) (h : l.bucketSize < 1) :
    (l.Allow now).1 = false ∧ (l.Allow now).2.bucketSize = l.bucketSize := by
  have hmin := minFloat_le_left l.bucketSize
    (round64 (l.tokens + round64 (Seconds (now - l.lastRefill) * l.rate)))
  unfold Limiter.Allow
  simp only
  rw [if_neg (by linarith)]
  exact ⟨rfl, rfl⟩

/-- With a bucket of less than one token `Wait` does not return, however long it runs. -/
theorem Wait_small_bucket (delays : List Nat) :
    ∀ (l : Limiter) (now : Int), l.bucketSize < 1 → l.Wait now delays = none := by
  induction delays with
  | nil =>
    intro l now h
    simp [Limiter.Wait, (Allow_small_bucket l now h).1]
  | cons d rest ih =>
    intro l now h
    obtain ⟨h1, h2⟩ := Allow_small_bucket l now h
    simp only [Limiter.Wait, h1, Bool.false_eq_true, if_false]
    exact ih _ _ (by rw [h2]; exact h)

theorem round64_three_quarters : round64 (3 / 4) = 3 / 4 := by
  have := round64_int_mul_zpow 3 (-2) (by norm_num) (by norm_num) (by norm_num)
  norm_num at this ⊢
  exact this

/-- C11, evaluated at the failing input: a limiter for half a request per second has a
bucket of 0.75 token, so that the token count never reaches one: `Allow` returns false
at every instant, however long after the last refill, and `Wait` does not return,
whatever the number of attempts and the length of the pauses. -/
theorem Limiter_half_rate_never_admits (start now : Int) (delays : List Nat) :
    (NewLimiter (1 / 2) start).bucketSize = 3 / 4 ∧
    ((NewLimiter (1 / 2) start).Allow now).1 = false ∧
    (NewLimiter (1 / 2) start).Wait now delays = none := by
  have hb : (NewLimiter (1 / 2) start).bucketSize = 3 / 4 := by
    simp only [NewLimiter]
    rw [show (1 : ℚ) / 2 * (3 / 2) = 3 / 4 by norm_num, round64_three_quarters]
  have hlt : (NewLimiter (1 / 2) start).bucketSize < 1 := by rw [hb]; norm_num
  exact ⟨hb, (Allow_small_bucket _ now hlt).1, Wait_small_bucket delays _ now hlt⟩

theorem validateSources_none (groupName : String) (sources : List SourceConfig) :
    validateSources groupName sources = none ↔
      ∀ source ∈ sources, source.Type_ ≠ "" ∧ source.URL ≠ "" ∧ source.Interval ≠ 0 := by
  induction sources with
  | nil => simp [validateSources]
  | cons s rest ih =>
    simp only [validateSources, List.mem_cons, forall_eq_or_imp]
    by_cases h1 : s.Type_ = ""
    · simp [h1]
    by_cases h2 : s.URL = ""
    · simp [h1, h2]
    by_cases h3 : s.Interval = 0
    · simp [h1, h2, h3]
    · simp [h1, h2, h3, ih]

theorem validateExporters_none (groupName : String) (exporters : List ExporterConfig) :
    validateExporters groupName exporters = none ↔
      ∀ exporter ∈ exporters, exporter.Type_ ≠ "" ∧ exporter.Value ≠ "" := by
  induction exporters with
  | nil => simp [validateExporters]
  | cons e rest ih =>
    simp only [validateExporters, List.mem_cons, forall_eq_or_imp]
    by_cases h1 : e.Type_ = ""
    · simp [h1]
    by_cases h2 : e.Value = ""
    · simp [h1, h2]
    · simp [h1, h2, ih]

theorem validateGroups_none (groups : List GroupConfig) :
    validateGroups groups = none ↔
      ∀ group ∈ groups,
        group.Name ≠ "" ∧ group.Sources ≠ [] ∧ group.Exporters ≠ [] ∧
        (∀ source ∈ group.Sources,
          source.Type_ ≠ "" ∧ source.URL ≠ "" ∧ source.Interval ≠ 0) ∧
        (∀ exporter ∈ group.Exporters, exporter.Type_ ≠ "" ∧ exporter.Value ≠ "") := by
  induction groups with
  | nil => simp [validateGroups]
  | cons g rest ih =>
    simp only [validateGroups, List.mem_cons, forall_eq_or_imp]
    by_cases h1 : g.Name = ""
    · simp [h1]
    by_cases h2 : g.Sources = []
    · simp [h1, h2]
    by_cases h3 : g.Exporters = []
    · simp [h1, h2, h3]
    rw [if_neg h1, if_neg (by simpa using h2), if_neg (by simpa using h3)]
    rcases hs : validateSources g.Name g.Sources with _ | err
    · rcases he : validateExporters g.Name g.Exporters with _ | err
      · simp only [ih, ne_eq, h1, not_false_eq_true, h2, h3, true_and]
        rw [validateSources_none] at hs
        rw [validateExporters_none] at he
        simp only [ne_eq] at hs he
        exact ⟨fun h => ⟨⟨hs, he⟩, h⟩, fun h => h.2⟩
      · have : ¬ ∀ exporter ∈ g.Exporters, exporter.Type_ ≠ "" ∧ exporter.Value ≠ "" := by
          rw [← validateExporters_none g.Name, he]; simp
        simp only [reduceCtorEq, false_iff, not_and]
        intro hg
        exact absurd hg.2.2.2.2 this
    · have : ¬ ∀ source ∈ g.Sources,
          source.Type_ ≠ "" ∧ source.URL ≠ "" ∧ source.Interval ≠ 0 := by
        rw [← validateSources_none g.Name, hs]; simp
      simp only [reduceCtorEq, false_iff, not_and]
      intro hg
      exact absurd hg.2.2.2.1 this

/-- C14: `ValidateConfig` returns `nil` if and only if the configuration has at least
one group and every group has a non-empty name, at least one source and one exporter,
sources with non-empty type and URL and non-zero interval, and exporters with non-empty
type and value; otherwise it returns an error. -/
theorem ValidateConfig_nil_iff (config : Config) :
    (ValidateConfig config = none ↔ config.WellFormed) ∧
    (¬ config.WellFormed → ∃ err, ValidateConfig config = some err) := by
  have h : ValidateConfig config = none ↔ config.WellFormed := by
    unfold ValidateConfig Config.WellFormed
    by_cases h0 : config.Groups = []
    · simp [h0]
    · rw [if_neg (by simpa using h0), validateGroups_none]
      simp [h0]
  refine ⟨h, ?_⟩
  intro hn
  rcases hv : ValidateConfig config with _ | err
  · exact absurd (h.mp hv) hn
  · exact ⟨err, rfl⟩

/-- A response other than 429 ends `Export` at once: with `nil` when the status is below
400, with the request-failed error otherwise; one request has been sent. -/
theorem Export_of_response (lib : Lib) (fuel : Nat) (e e1 : WebhookExporter) (item : Item)
    (net net1 : Net) (req : Request) (resp : Response) (rest : List Reply)
    (hwait : e.waitLimiter fuel net = some (e1, net1))
    (hreq : e1.request lib item = .ok req)
    (hreply : net1.replies = Reply.response resp :: rest)
    (h429 : resp.StatusCode ≠ 429) :
    e.Export lib (fuel + 1) item net =
      some (if resp.StatusCode < 400 then none else some (requestFailed e1 item resp), e1,
        { net1 with replies := rest, sent := net1.sent ++ [req] }) := by
  simp only [WebhookExporter.Export, hwait, hreq, Net.Do, hreply]
  by_cases h : 400 ≤ resp.StatusCode
  · rw [if_pos h, if_neg h429, if_neg (by omega)]
  · rw [if_neg h, if_pos (by omega)]

/-- A 429 response whose body `json.Unmarshal` accepts makes `Export` pause for the
decoded `RetryAfter` and start again. -/
theorem Export_of_rate_limit (lib : Lib) (fuel : Nat) (e e1 : WebhookExporter) (item : Item)
    (net net1 : Net) (req : Request) (body : String) (rest : List Reply) (r : RateLimitResp)
    (hwait : e.waitLimiter fuel net = some (e1, net1))
    (hreq : e1.request lib item = .ok req)
    (hreply : net1.replies = Reply.response ⟨429, body⟩ :: rest)
    (hparse : lib.Unmarshal body = some r) :
    e.Export lib (fuel + 1) item net =
      e1.Export lib fuel item
        (Net.Sleep { net1 with replies := rest, sent := net1.sent ++ [req] }
          (durationOfFloat (round64 (r.RetryAfter * 1000000000)))) := by
  simp only [WebhookExporter.Export, hwait, hreq, Net.Do, hreply, hparse]
  simp

theorem demoHook_waitLimiter (fuel : Nat) (net : Net) : demoHook.waitLimiter fuel net = some (demoHook, net) :=
  rfl

theorem demoHook_request :
    demoHook.request demoLib demoItem
      = .ok ⟨"POST", "https://hooks.example.org/1", [("Content-Type", "application/json")],
          "\x7b\x7d"⟩ :=
  rfl

/-- C12, counterexample: to a response with status 304, which is not a 2xx status,
`Export` returns `nil`. -/
theorem Export_nil_on_not_modified :
    ¬ (200 ≤ (304 : Int) ∧ (304 : Int) < 300) ∧
    (demoHook.Export demoLib 1 demoItem (freshNet [.response ⟨304, ""⟩])).map (fun r => r.1)
      = some none := by
  refine ⟨by decide, ?_⟩
  rw [Export_of_response demoLib 0 demoHook demoHook demoItem _ _ _ ⟨304, ""⟩ []
    (demoHook_waitLimiter 0 _) demoHook_request rfl (by decide)]
  rfl

/-- C12, amended: once the request has been sent and answered by a response whose
status is not 429, `Export` returns at once, having sent that one request and taken no
pause: it returns `nil` if and only if the status is below 400, and for a status of 400
or more an error whose message carries the status code and the response body. -/
theorem Export_classifies_response (lib : Lib) (fuel : Nat) (e e1 : WebhookExporter)
    (item : Item) (net net1 : Net) (req : Request) (resp : Response) (rest : List Reply)
    (hwait : e.waitLimiter fuel net = some (e1, net1))
    (hreq : e1.request lib item = .ok req)
    (hreply : net1.replies = Reply.response resp :: rest)
    (h429 : resp.StatusCode ≠ 429) :
    (∃ err e2 net2, e.Export lib (fuel + 1) item net = some (err, e2, net2) ∧
      (err = none ↔ resp.StatusCode < 400) ∧
      net2.replies = rest ∧ net2.sent = net1.sent ++ [req] ∧ net2.slept = net1.slept) ∧
    (400 ≤ resp.StatusCode →
      e.Export lib (fuel + 1) item net =
        some (some ("webhook request failed: item=" ++ item.ID ++ " url=" ++ e1.config.Value
            ++ " status=" ++ toString resp.StatusCode ++ " body=" ++ resp.Body), e1,
          { net1 with replies := rest, sent := net1.sent ++ [req] })) := by
  have h := Export_of_response lib fuel e e1 item net net1 req resp rest hwait hreq hreply h429
  constructor
  · refine ⟨_, _, _, h, ?_, rfl, rfl, rfl⟩
    by_cases hlt : resp.StatusCode < 400
    · simp [hlt]
    · simp [hlt]
  · intro h400
    rw [h, if_neg (by omega)]
    rfl

/-- C12, witness: an exporter without rate limit whose endpoint answers 500 with body
`boom`. -/
theorem Export_classifies_response_witness :
    demoHook.waitLimiter 0 (freshNet [.response ⟨500, "boom"⟩])
      = some (demoHook, freshNet [.response ⟨500, "boom"⟩]) ∧
    demoHook.request demoLib demoItem
      = .ok ⟨"POST", "https://hooks.example.org/1", [("Content-Type", "application/json")],
          "\x7b\x7d"⟩ ∧
    (freshNet [.response ⟨500, "boom"⟩]).replies = [.response ⟨500, "boom"⟩] ∧
    (500 : Int) ≠ 429 ∧
    demoHook.Export demoLib 1 demoItem (freshNet [.response ⟨500, "boom"⟩]) =
      some (some ("webhook request failed: item=" ++ demoItem.ID ++ " url="
          ++ demoHook.config.Value ++ " status=" ++ toString (500 : Int) ++ " body=" ++ "boom"),
        demoHook,
        { freshNet [.response ⟨500, "boom"⟩] with
          replies := []
          sent := (freshNet [.response ⟨500, "boom"⟩]).sent ++
            [⟨"POST", "https://hooks.example.org/1",
              [("Content-Type", "application/json")], "\x7b\x7d"⟩] }) :=
  ⟨rfl, rfl, rfl, by decide,
    (Export_classifies_response demoLib 0 demoHook demoHook demoItem _ _ _ ⟨500, "boom"⟩ []
      (demoHook_waitLimiter 0 _) demoHook_request rfl (by decide)).2 (by decide)⟩

/-- C13, evaluated at the failing input: the endpoint answers 429 with the body of an
object without fields, which `json.Unmarshal` accepts leaving `RetryAfter` at zero, and
then 200; `Export` pauses for zero nanoseconds, sends the request a second time and
returns `nil`, instead of returning the delivery error after one request. -/
theorem Export_retries_on_empty_object :
    (demoHook.Export demoLib 2 demoItem
        (freshNet [.response ⟨429, "\x7b\x7d"⟩, .response ⟨200, "ok"⟩])).map
      (fun r => (r.1, r.2.2.sent.length, r.2.2.slept, r.2.2.replies))
      = some (none, 2, [0], []) := by
  rw [Export_of_rate_limit demoLib 1 demoHook demoHook demoItem _ _ _ "\x7b\x7d"
    [.response ⟨200, "ok"⟩] ⟨"", 0, false⟩ (demoHook_waitLimiter 1 _) demoHook_request rfl rfl]
  rw [Export_of_response demoLib 0 demoHook demoHook demoItem _ _ _ ⟨200, "ok"⟩ []
    (demoHook_waitLimiter 0 _) demoHook_request rfl (by decide)]
  simp [Net.Sleep, freshNet, round64_zero, durationOfFloat]

/-- What a poll yields, case by case: a fetch error is wrapped, an empty batch ends the
poll without `ProcessItems`, and otherwise the poll returns what `ProcessItems` returns. -/
theorem pollSource_cases {σ : Type} (store : Store σ) (exporters : List (Exporter σ))
    (source : Source σ) (sched : List Nat) (w : σ) :
    (∀ items e w1, source.Fetch w = ((items, some e), w1) →
      pollSource store exporters source sched w
        = some (some ("failed to fetch items: " ++ e), w1, [.fetch items.length (some e)])) ∧
    (∀ w1, source.Fetch w = (([], none), w1) →
      pollSource store exporters source sched w = some (none, w1, [.fetch 0 none])) ∧
    (∀ items w1, source.Fetch w = ((items, none), w1) → items ≠ [] →
      ∃ out, ProcessItems store items exporters sched w1 = some out ∧
        pollSource store exporters source sched w
          = some (out.result.map ProcessError.Error, out.world,
              [.fetch items.length none, .processItems items out.result])) := by
  refine ⟨?_, ?_, ?_⟩
  · intro items e w1 h
    simp [pollSource, h]
  · intro w1 h
    simp [pollSource, h]
  · intro items w1 h hne
    refine ⟨_, ProcessItems_eq store items exporters sched w1, ?_⟩
    have hlen : items.length ≠ 0 := by simpa using hne
    simp [pollSource, h, hlen, ProcessItems_eq store items exporters sched w1]

/-- Every poll returns, having called `Fetch` once. -/
theorem pollSource_returns {σ : Type} (store : Store σ) (exporters : List (Exporter σ))
    (source : Source σ) (sched : List Nat) (w : σ) :
    ∃ err w1 logged, pollSource store exporters source sched w = some (err, w1, logged) ∧
      Logged.cancelled ∉ logged ∧ logged.countP Logged.isFetch = 1 := by
  obtain ⟨h1, h2, h3⟩ := pollSource_cases store exporters source sched w
  rcases hf : source.Fetch w with ⟨⟨items, _ | e⟩, w1⟩
  · by_cases hne : items = []
    · subst hne
      exact ⟨_, _, _, h2 w1 hf, by simp, by simp [Logged.isFetch]⟩
    · obtain ⟨out, _, hp⟩ := h3 items w1 hf hne
      exact ⟨_, _, _, hp, by simp, by simp [Logged.isFetch]⟩
  · exact ⟨_, _, _, h1 items e w1 hf, by simp, by simp [Logged.isFetch]⟩

/-- A poll logs the error it gets and leaves the task on its way back to `select`. -/
theorem poll_eq {σ : Type} (store : Store σ) (exporters : List (Exporter σ))
    (source : Source σ) (sched : List Nat) (t : Task σ) :
    ∃ err w logged, pollSource store exporters source sched t.world = some (err, w, logged) ∧
      Logged.cancelled ∉ logged ∧ logged.countP Logged.isFetch = 1 ∧
      t.poll store exporters source sched =
        { t with
          world := w
          loc := .head
          log := t.log ++ logged ++
            match err with
            | some e =>
              [.logError ("Failed to poll source: source=" ++ source.GetType ++ " error=" ++ e)]
            | none => [] } := by
  obtain ⟨err, w, logged, hp, hc, hn⟩ := pollSource_returns store exporters source sched t.world
  refine ⟨err, w, logged, hp, hc, hn, ?_⟩
  cases err with
  | none => simp [Task.poll, hp]
  | some e => simp [Task.poll, hp]

/-- One event keeps a task of the loop in the loop: it has returned only with
`ctx.Done()` closed, it is blocked in `select` only with `ctx.Done()` open, it is never
stuck in a poll; only the cancellation signal closes `ctx.Done()`. -/
theorem step_reach {σ : Type} (store : Store σ) (exporters : List (Exporter σ))
    (source : Source σ) (t : Task σ) (ev : Event)
    (h : (t.loc = .returned → t.done = true) ∧ (t.loc = .parked → t.done = false) ∧
      t.loc ≠ .stuck ∧ t.loc ≠ .panicked) :
    ((t.step store exporters source ev).loc = .returned →
      (t.step store exporters source ev).done = true) ∧
    ((t.step store exporters source ev).loc = .parked →
      (t.step store exporters source ev).done = false) ∧
    (t.step store exporters source ev).loc ≠ .stuck ∧
    (t.step store exporters source ev).loc ≠ .panicked ∧
    ((t.step store exporters source ev).done = true → t.done = true ∨ ev = Event.cancel) ∧
    (ev ≠ Event.cancel → (t.step store exporters source ev).done = t.done ∧
      (Logged.cancelled ∉ t.log → Logged.cancelled ∉ (t.step store exporters source ev).log)) := by
  obtain ⟨world, loc, done, tick, log⟩ := t
  simp only at h
  cases ev with
  | cancel => cases loc <;> cases done <;> simp_all [Task.step]
  | tick => cases loc <;> cases done <;> simp_all [Task.step]
  | arrive pick =>
    cases loc <;> cases done <;> cases tick <;> cases pick <;> simp_all [Task.step]
  | poll sched =>
    obtain ⟨err, w, logged, hp, hc, hn, he⟩ := poll_eq store exporters source sched
      ⟨world, loc, done, tick, log⟩
    cases loc <;> cases done <;> cases err <;> simp_all [Task.step]

/-- The invariant of `step_reach` along the events of an execution. -/
theorem loop_reach {σ : Type} (store : Store σ) (exporters : List (Exporter σ))
    (source : Source σ) (events : List Event) :
    ∀ t : Task σ, ((t.loc = .returned → t.done = true) ∧ (t.loc = .parked → t.done = false) ∧
        t.loc ≠ .stuck ∧ t.loc ≠ .panicked) →
      (((events.foldl (Task.step store exporters source) t).loc = .returned →
          (events.foldl (Task.step store exporters source) t).done = true) ∧
        ((events.foldl (Task.step store exporters source) t).loc = .parked →
          (events.foldl (Task.step store exporters source) t).done = false) ∧
        (events.foldl (Task.step store exporters source) t).loc ≠ .stuck ∧
        (events.foldl (Task.step store exporters source) t).loc ≠ .panicked) ∧
      ((events.foldl (Task.step store exporters source) t).done = true →
        t.done = true ∨ Event.cancel ∈ events) ∧
      (Event.cancel ∉ events →
        (events.foldl (Task.step store exporters source) t).done = t.done ∧
        (Logged.cancelled ∉ t.log →
          Logged.cancelled ∉ (events.foldl (Task.step store exporters source) t).log)) := by
  induction events with
  | nil => intro t h; exact ⟨h, fun hd => Or.inl hd, fun _ => ⟨rfl, fun hc => hc⟩⟩
  | cons ev rest ih =>
    intro t h
    obtain ⟨s1, s2, s3, s4, s5, s6⟩ := step_reach store exporters source t ev h
    obtain ⟨i1, i2, i3⟩ := ih _ ⟨s1, s2, s3, s4⟩
    refine ⟨i1, ?_, ?_⟩
    · intro hd
      rcases i2 hd with hs | hm
      · rcases s5 hs with h0 | rfl
        · exact Or.inl h0
        · exact Or.inr (List.mem_cons_self _ _)
      · exact Or.inr (List.mem_cons_of_mem _ hm)
    · intro hnc
      have hev : ev ≠ Event.cancel := fun he => hnc (he ▸ List.mem_cons_self _ _)
      have hrest : Event.cancel ∉ rest := fun hm => hnc (List.mem_cons_of_mem _ hm)
      obtain ⟨j1, j2⟩ := i3 hrest
      obtain ⟨k1, k2⟩ := s6 hev
      exact ⟨by simp only [List.foldl_cons]; rw [j1, k1], fun hc => j2 (k2 hc)⟩

/-- After the panic of `time.NewTicker` nothing happens any more. -/
theorem step_panicked {σ : Type} (store : Store σ) (exporters : List (Exporter σ))
    (source : Source σ) (t : Task σ) (ev : Event) (h : t.loc = .panicked) :
    t.step store exporters source ev = t := by
  obtain ⟨world, loc, done, tick, log⟩ := t
  simp only at h
  subst h
  cases ev <;> simp [Task.step]

theorem loop_panicked {σ : Type} (store : Store σ) (exporters : List (Exporter σ))
    (source : Source σ) (events : List Event) :
    ∀ t : Task σ, t.loc = .panicked →
      events.foldl (Task.step store exporters source) t = t := by
  induction events with
  | nil => intro t _; rfl
  | cons ev rest ih =>
    intro t h
    simp only [List.foldl_cons]
    rw [step_panicked store exporters source t ev h]
    exact ih t h

/-- An execution goes on from where its first part ends. -/
theorem scheduleSource_append {σ : Type} (store : Store σ) (exporters : List (Exporter σ))
    (source : Source σ) (e1 e2 : List Event) (w : σ) :
    scheduleSource store exporters source (e1 ++ e2) w
      = e2.foldl (Task.step store exporters source)
          (scheduleSource store exporters source e1 w) := by
  unfold scheduleSource
  by_cases h : source.GetInterval ≤ 0
  · simp only [if_pos h]
    rw [loop_panicked store exporters source e2 _ rfl]
  · simp only [if_neg h, List.foldl_append]

/-- What holds of a task after any events: it has returned only with `ctx.Done()`
closed, which only the cancellation signal closes; it is blocked in `select` only with
`ctx.Done()` open; it is never stuck in a poll; and it has panicked exactly when the
interval of the source is not positive. -/
theorem scheduleSource_reach {σ : Type} (store : Store σ) (exporters : List (Exporter σ))
    (source : Source σ) (events : List Event) (w : σ) :
    ((scheduleSource store exporters source events w).loc = .returned →
      (scheduleSource store exporters source events w).done = true) ∧
    ((scheduleSource store exporters source events w).loc = .parked →
      (scheduleSource store exporters source events w).done = false) ∧
    (scheduleSource store exporters source events w).loc ≠ .stuck ∧
    ((scheduleSource store exporters source events w).loc = .panicked ↔
      source.GetInterval ≤ 0) ∧
    ((scheduleSource store exporters source events w).done = true → Event.cancel ∈ events) ∧
    (Event.cancel ∉ events →
      (scheduleSource store exporters source events w).done = false ∧
      Logged.cancelled ∉ (scheduleSource store exporters source events w).log) := by
  unfold scheduleSource
  by_cases h : source.GetInterval ≤ 0
  · rw [if_pos h]
    simp [h]
  · rw [if_neg h]
    obtain ⟨⟨r1, r2, r3, r4⟩, r5, r6⟩ := loop_reach store exporters source events
      ⟨w, .head, false, false, []⟩ (by simp)
    refine ⟨r1, r2, r3, ?_, ?_, ?_⟩
    · simp [h, r4]
    · intro hd
      rcases r5 hd with h0 | h0
      · simp at h0
      · exact h0
    · intro hnc
      obtain ⟨k1, k2⟩ := r6 hnc
      exact ⟨k1, k2 (by simp)⟩

/-- A task of the loop, with `ctx.Done()` open, that is let finish its poll and execute
its `select` has received the next tick once the ticker has fired. -/
theorem step_live {σ : Type} (store : Store σ) (exporters : List (Exporter σ))
    (source : Source σ) (t : Task σ) (sched : List Nat) (pick : Bool)
    (hd : t.done = false) (h1 : t.loc ≠ .stuck) (h2 : t.loc ≠ .panicked)
    (h3 : t.loc ≠ .returned) :
    ([Event.poll sched, Event.arrive pick, Event.tick].foldl
      (Task.step store exporters source) t).loc = .received := by
  obtain ⟨err, w, logged, hp, hc, hn, he⟩ := poll_eq store exporters source sched t
  obtain ⟨world, loc, done, tick, log⟩ := t
  simp only at hd h1 h2 h3
  subst hd
  cases loc <;> cases tick <;> cases err <;> simp_all [Task.step]

/-- C16: `scheduleSource` returns only in executions in which the cancellation signal
was raised; it never gets stuck in a poll, and it panics, in `time.NewTicker` and before
its loop, exactly when the interval of the source is not positive.  In every execution
without cancellation signal of a source with a positive interval, the task, let finish
its poll and execute its `select`, receives the next tick.  A task that has received a
tick calls `pollSource`, which returns; whatever it returns, the task is then back at its
`select`, with the error logged if there is one, and there, `ctx.Done()` being open, it
waits for the next tick or takes the one that is waiting.  A `Fetch` error is wrapped and
returned by `pollSource`, an aggregate error of `ProcessItems` is returned as it is, and
an empty batch ends the poll without a call of `ProcessItems`. -/
theorem scheduleSource_survives_errors {σ : Type} (store : Store σ)
    (exporters : List (Exporter σ)) (source : Source σ) :
    (∀ events w, (scheduleSource store exporters source events w).loc = .returned →
      Event.cancel ∈ events) ∧
    (∀ events w,
      (scheduleSource store exporters source events w).loc ≠ .stuck ∧
      ((scheduleSource store exporters source events w).loc = .panicked ↔
        source.GetInterval ≤ 0)) ∧
    (∀ events w sched pick, 0 < source.GetInterval → Event.cancel ∉ events →
      (scheduleSource store exporters source
        (events ++ [.poll sched, .arrive pick, .tick]) w).loc = .received) ∧
    (∀ events w sched, (scheduleSource store exporters source events w).loc = .received →
      ∃ err w1 logged,
        pollSource store exporters source sched
          (scheduleSource store exporters source events w).world = some (err, w1, logged) ∧
        scheduleSource store exporters source (events ++ [.poll sched]) w =
          { scheduleSource store exporters source events w with
            world := w1
            loc := .head
            log := (scheduleSource store exporters source events w).log ++ logged ++
              match err with
              | some e => [.logError
                  ("Failed to poll source: source=" ++ source.GetType ++ " error=" ++ e)]
              | none => [] } ∧
        ((scheduleSource store exporters source events w).done = false → ∀ pick,
          (scheduleSource store exporters source
              (events ++ [.poll sched, .arrive pick]) w).loc
            = if (scheduleSource store exporters source events w).tick = true
              then Loc.received else Loc.parked)) ∧
    (∀ sched w,
      (∀ items e w1, source.Fetch w = ((items, some e), w1) →
        pollSource store exporters source sched w
          = some (some ("failed to fetch items: " ++ e), w1,
              [.fetch items.length (some e)])) ∧
      (∀ w1, source.Fetch w = (([], none), w1) →
        pollSource store exporters source sched w = some (none, w1, [.fetch 0 none])) ∧
      (∀ items w1, source.Fetch w = ((items, none), w1) → items ≠ [] →
        ∃ out, ProcessItems store items exporters sched w1 = some out ∧
          pollSource store exporters source sched w
            = some (out.result.map ProcessError.Error, out.world,
                [.fetch items.length none, .processItems items out.result]))) := by
  refine ⟨?_, ?_, ?_, ?_, ?_⟩
  · intro events w hret
    obtain ⟨r1, _, _, _, r5, _⟩ := scheduleSource_reach store exporters source events w
    exact r5 (r1 hret)
  · intro events w
    obtain ⟨_, _, r3, r4, _, _⟩ := scheduleSource_reach store exporters source events w
    exact ⟨r3, r4⟩
  · intro events w sched pick hpos hnc
    obtain ⟨r1, _, r3, r4, _, r6⟩ := scheduleSource_reach store exporters source events w
    obtain ⟨hd, _⟩ := r6 hnc
    rw [scheduleSource_append]
    refine step_live store exporters source _ sched pick hd r3 ?_ ?_
    · intro hpan
      exact absurd (r4.mp hpan) (not_le.mpr hpos)
    · intro hret
      rw [r1 hret] at hd
      simp at hd
  · intro events w sched hrec
    obtain ⟨err, w1, logged, hp, _, _, he⟩ := poll_eq store exporters source sched
      (scheduleSource store exporters source events w)
    have hstep : scheduleSource store exporters source (events ++ [.poll sched]) w
        = (scheduleSource store exporters source events w).poll store exporters source
            sched := by
      rw [scheduleSource_append]
      simp [Task.step, hrec]
    refine ⟨err, w1, logged, hp, ?_, ?_⟩
    · rw [hstep, he]
    · intro hd pick
      have h2 : scheduleSource store exporters source
          (events ++ [.poll sched, .arrive pick]) w
          = ((scheduleSource store exporters source events w).poll store exporters source
              sched).step store exporters source (.arrive pick) := by
        rw [scheduleSource_append]
        simp [Task.step, hrec]
      rw [h2, he]
      cases ht : (scheduleSource store exporters source events w).tick <;>
        simp [Task.step, hd, ht]
  · intro sched w
    exact pollSource_cases store exporters source sched w

theorem fetches_append_of_not_mem {l : List Logged} (h : Logged.cancelled ∉ l)
    (r : List Logged) : fetchesAfterCancel (l ++ r) = fetchesAfterCancel r := by
  induction l with
  | nil => rfl
  | cons x rest ih =>
    have hx : x ≠ Logged.cancelled := fun hx => h (hx ▸ List.mem_cons_self _ _)
    have hr : Logged.cancelled ∉ rest := fun hm => h (List.mem_cons_of_mem _ hm)
    cases x <;> simp_all [fetchesAfterCancel]

theorem fetches_append_of_mem {l : List Logged} (h : Logged.cancelled ∈ l)
    (r : List Logged) :
    fetchesAfterCancel (l ++ r) = fetchesAfterCancel l + r.countP Logged.isFetch := by
  induction l with
  | nil => simp at h
  | cons x rest ih =>
    cases x with
    | cancelled => simp [fetchesAfterCancel, List.countP_append]
    | received => simp_all [fetchesAfterCancel]
    | fetch n e => simp_all [fetchesAfterCancel]
    | processItems its res => simp_all [fetchesAfterCancel]
    | logError msg => simp_all [fetchesAfterCancel]
    | returned => simp_all [fetchesAfterCancel]
    | panicked => simp_all [fetchesAfterCancel]

/-- Once the cancellation signal has been raised, and as long as the runtime does not
pick the ticker case at a `select` where both cases are ready, the calls of `Fetch` made
since the signal, plus the one still to come if the task holds a tick, stay within the
bound. -/
theorem step_bound {σ : Type} (store : Store σ) (exporters : List (Exporter σ))
    (source : Source σ) (B : Nat) (t : Task σ) (ev : Event)
    (hev : ev ≠ Event.arrive true)
    (h : t.done = true ∧ t.loc ≠ .parked ∧ Logged.cancelled ∈ t.log ∧
      fetchesAfterCancel t.log + (if t.loc = .received then 1 else 0) ≤ B) :
    (t.step store exporters source ev).done = true ∧
    (t.step store exporters source ev).loc ≠ .parked ∧
    Logged.cancelled ∈ (t.step store exporters source ev).log ∧
    fetchesAfterCancel (t.step store exporters source ev).log +
      (if (t.step store exporters source ev).loc = .received then 1 else 0) ≤ B := by
  obtain ⟨hd, hl, hc, hb⟩ := h
  cases ev with
  | cancel =>
    have : t.step store exporters source .cancel = t := by simp [Task.step, hd]
    rw [this]; exact ⟨hd, hl, hc, hb⟩
  | tick =>
    obtain ⟨world, loc, done, tick, log⟩ := t
    simp only at hd hl hc hb
    cases loc <;> simp_all [Task.step]
  | arrive pick =>
    have hp : pick = false := by
      cases pick
      · rfl
      · exact absurd rfl hev
    subst hp
    obtain ⟨world, loc, done, tick, log⟩ := t
    simp only at hd hl hc hb
    cases loc <;> simp_all [Task.step, fetches_append_of_mem hc, Logged.isFetch]
  | poll sched =>
    obtain ⟨err, w, logged, hp, hcl, hn, he⟩ := poll_eq store exporters source sched t
    by_cases hr : t.loc = .received
    · have hs : t.step store exporters source (.poll sched)
          = t.poll store exporters source sched := by simp [Task.step, hr]
      rw [hs, he]
      rw [if_pos hr] at hb
      refine ⟨hd, by simp, by simp [hc], ?_⟩
      simp only [List.append_assoc]
      rw [fetches_append_of_mem hc, List.countP_append, hn]
      cases err <;> simp [Logged.isFetch] <;> omega
    · have hs : t.step store exporters source (.poll sched) = t := by simp [Task.step, hr]
      rw [hs]; exact ⟨hd, hl, hc, hb⟩

theorem loop_bound {σ : Type} (store : Store σ) (exporters : List (Exporter σ))
    (source : Source σ) (B : Nat) (events : List Event)
    (hev : Event.arrive true ∉ events) :
    ∀ t : Task σ, (t.done = true ∧ t.loc ≠ .parked ∧ Logged.cancelled ∈ t.log ∧
        fetchesAfterCancel t.log + (if t.loc = .received then 1 else 0) ≤ B) →
      fetchesAfterCancel (events.foldl (Task.step store exporters source) t).log ≤ B := by
  induction events with
  | nil =>
    intro t h
    have := h.2.2.2
    simp only [List.foldl_nil]
    omega
  | cons ev rest ih =>
    intro t h
    have h1 : ev ≠ Event.arrive true := fun he => hev (he ▸ List.mem_cons_self _ _)
    have h2 : Event.arrive true ∉ rest := fun hm => hev (List.mem_cons_of_mem _ hm)
    exact ih h2 _ (step_bound store exporters source B t ev h1 h)

/-- C15, counterexample: two executions in which `Fetch` is called after the
cancellation signal.  In the first the signal is raised and the ticker fires while the
task is on its way back to its `select`; there both cases are ready, the runtime picks
the ticker case, and the pending tick starts a poll.  In the second the signal is raised
between the receipt of a tick and the call of `pollSource`. -/
theorem scheduleSource_fetches_after_cancel :
    (scheduleSource demoStore [okHook "news"] quietSource
        [.arrive false, .tick, .poll [], .cancel, .tick, .arrive true, .poll []]
        emptyRedis).log
      = [.received, .fetch 0 none, .cancelled, .received, .fetch 0 none] ∧
    fetchesAfterCancel (scheduleSource demoStore [okHook "news"] quietSource
        [.arrive false, .tick, .poll [], .cancel, .tick, .arrive true, .poll []]
        emptyRedis).log = 1 ∧
    (scheduleSource demoStore [okHook "news"] quietSource
        [.arrive false, .tick, .cancel, .poll []] emptyRedis).log
      = [.received, .cancelled, .fetch 0 none] ∧
    fetchesAfterCancel (scheduleSource demoStore [okHook "news"] quietSource
        [.arrive false, .tick, .cancel, .poll []] emptyRedis).log = 1 := by
  decide

/-- C15, amended: a source task blocked in its `select` when the cancellation signal is
raised returns at once, without a `Fetch`; a task that executes its `select` after the
signal returns, without a `Fetch`, unless a tick is waiting and the runtime picks the
ticker case; a task that has returned does nothing more.  Hence, in every execution in
which, after the signal, the runtime never picks the ticker case with both cases ready,
no `Fetch` is called after the signal, except the one of the poll whose tick the task
had received, without having called `pollSource` yet, when the signal was raised: at
most one. -/
theorem scheduleSource_cancel {σ : Type} (store : Store σ) (exporters : List (Exporter σ))
    (source : Source σ) :
    (∀ events w, (scheduleSource store exporters source events w).loc = .parked →
      scheduleSource store exporters source (events ++ [.cancel]) w
        = { scheduleSource store exporters source events w with
            done := true
            loc := .returned
            log := (scheduleSource store exporters source events w).log
              ++ [.cancelled, .returned] }) ∧
    (∀ events w pick, (scheduleSource store exporters source events w).loc = .head →
      (scheduleSource store exporters source events w).done = true →
      ((scheduleSource store exporters source events w).tick = false ∨ pick = false) →
      scheduleSource store exporters source (events ++ [.arrive pick]) w
        = { scheduleSource store exporters source events w with
            loc := .returned
            log := (scheduleSource store exporters source events w).log ++ [.returned] }) ∧
    (∀ events w ev, (scheduleSource store exporters source events w).loc = .returned →
      scheduleSource store exporters source (events ++ [ev]) w
        = scheduleSource store exporters source events w) ∧
    (∀ e1 e2 w, Event.cancel ∉ e1 → Event.arrive true ∉ e2 →
      fetchesAfterCancel
          (scheduleSource store exporters source (e1 ++ Event.cancel :: e2) w).log
        ≤ if (scheduleSource store exporters source e1 w).loc = .received then 1 else 0) := by
  refine ⟨?_, ?_, ?_, ?_⟩
  · intro events w hpark
    obtain ⟨_, r2, _, _, _, _⟩ := scheduleSource_reach store exporters source events w
    rw [scheduleSource_append]
    simp [Task.step, hpark, r2 hpark]
  · intro events w pick hhead hd hpick
    rw [scheduleSource_append]
    rcases hpick with ht | hp
    · simp [Task.step, hhead, hd, ht]
    · simp [Task.step, hhead, hd, hp]
  · intro events w ev hret
    obtain ⟨r1, _, _, _, _, _⟩ := scheduleSource_reach store exporters source events w
    rw [scheduleSource_append]
    cases ev <;> simp [Task.step, hret, r1 hret]
  · intro e1 e2 w hnc hpick
    by_cases hint : source.GetInterval ≤ 0
    · have hlog : (scheduleSource store exporters source (e1 ++ Event.cancel :: e2) w).log
          = [.panicked] := by
        simp [scheduleSource, hint]
      rw [hlog]
      simp [fetchesAfterCancel]
    · obtain ⟨_, _, _, r4, _, r6⟩ := scheduleSource_reach store exporters source e1 w
      obtain ⟨hd, hc⟩ := r6 hnc
      have hpan : (scheduleSource store exporters source e1 w).loc ≠ .panicked :=
        fun h => hint (r4.mp h)
      rw [scheduleSource_append, List.foldl_cons]
      apply loop_bound store exporters source _ e2 hpick
      generalize scheduleSource store exporters source e1 w = t at hd hc hpan
      obtain ⟨world, loc, done, tick, log⟩ := t
      simp only at hd hc hpan
      subst hd
      have h1 := fetches_append_of_not_mem hc [Logged.cancelled]
      have h2 := fetches_append_of_not_mem hc [Logged.cancelled, Logged.returned]
      cases loc <;>
        simp_all [Task.step, fetchesAfterCancel, Logged.isFetch]

/-- C15, witness: the signal is raised while the task, its poll over, is on its way
back to `select`, the ticker fires, and the runtime picks the case `ctx.Done()`: no
`Fetch` is called after the signal. -/
theorem scheduleSource_cancel_witness :
    Event.cancel ∉ [Event.arrive false, .tick, .poll []] ∧
    Event.arrive true ∉ [Event.tick, .arrive false] ∧
    (scheduleSource demoStore [okHook "news"] quietSource
      ([.arrive false, .tick, .poll []] ++ Event.cancel :: [.tick, .arrive false])
      emptyRedis).loc = .returned ∧
    fetchesAfterCancel (scheduleSource demoStore [okHook "news"] quietSource
      ([.arrive false, .tick, .poll []] ++ Event.cancel :: [.tick, .arrive false])
      emptyRedis).log ≤ 0 :=
  ⟨by decide, by decide, by decide,
    le_trans ((scheduleSource_cancel demoStore [okHook "news"] quietSource).2.2.2
      [.arrive false, .tick, .poll []] [.tick, .arrive false] emptyRedis
      (by decide) (by decide)) (by decide)⟩

/-- C17, on the code: an exporter built by `Factory.CreateExporter` is a
`*WebhookExporter`, which has no method `GetSourceTTL`, so that for exporters built by
the factory every `MarkProcessed` of `ProcessItems` is called with a nil `sourceTTL`,
whatever TTL the sources of the group declare. -/
theorem factory_exporters_pass_nil_ttl {σ : Type} (store : Store σ) (items : List Item)
    (exporters : List (Exporter σ)) (sched : List Nat) (w : σ)
    (hfac : ∀ ex ∈ exporters, ∃ cfg group now e deliver,
      CreateExporter cfg group now = .ok e ∧ ex = e.toExporter deliver) :
    (∀ ex ∈ exporters, ex.GetSourceTTL = none ∧ sourceTTLOf ex = none) ∧
    ∃ out, ProcessItems store items exporters sched w = some out ∧
      ∀ i id ty ttl err, (i, Action.markProcessed id ty ttl err) ∈ out.trace → ttl = none := by
  have hnone : ∀ ex ∈ exporters, ex.GetSourceTTL = none ∧ sourceTTLOf ex = none := by
    intro ex hex
    obtain ⟨cfg, group, now, e, deliver, _, rfl⟩ := hfac ex hex
    exact ⟨rfl, rfl⟩
  refine ⟨hnone, ?_⟩
  obtain ⟨st, hinv, hdone, hres⟩ := ProcessItems_final store items exporters sched w
  refine ⟨_, hres, ?_⟩
  intro i id ty ttl err hm
  simp only at hm
  obtain ⟨item, exporter, hu⟩ := trace_unit hinv hm
  have hex : exporter ∈ exporters := (mem_unitsOf.mp (List.getElem?_mem hu)).2.1
  have httl := (hnone exporter hex).2
  have ha := mem_actsOf.mpr hm
  rcases done_cases (final_unit hinv hdone hu) with h | h | ⟨b, e, h⟩ | ⟨e, h⟩ | ⟨e, h⟩ <;>
  · rw [h] at ha
    simp only [httl, List.mem_cons, List.mem_singleton, List.not_mem_nil, or_false,
      reduceCtorEq, false_or, or_self, Action.markProcessed.injEq] at ha <;>
    exact ha.2.2.1

/-- C17, at the failing input: the source of group `news` declares a TTL of one hour,
its exporter comes from the factory, the delivery succeeds, and `MarkProcessed` is
called with a nil `sourceTTL`: the entry expires after the default 60 s. -/
theorem factory_exporters_pass_nil_ttl_witness :
    (NewRSSSource demoSourceConfig "news").GetSourceTTL = some 3600000000000 ∧
    (∀ ex ∈ [(NewWebhookExporter demoExporterConfig "news" 0).toExporter
        (fun (_ : Item) (w : MemRedis) => ((none : Option Error), w))],
      ∃ cfg group now e deliver,
        CreateExporter cfg group now = .ok e ∧ ex = e.toExporter deliver) ∧
    (ProcessItems demoStore [demoItem]
        [(NewWebhookExporter demoExporterConfig "news" 0).toExporter
          (fun (_ : Item) (w : MemRedis) => ((none : Option Error), w))] [] emptyRedis).map
        (fun out => (out.world, out.trace))
      = some (⟨0, [("bridgr:processed:webhook:abc123", "1", some 60000000000)]⟩,
          [(0, Action.hasProcessed "abc123" "webhook" false none),
           (0, Action.export demoItem none),
           (0, Action.markProcessed "abc123" "webhook" none none)]) ∧
    ∃ out, ProcessItems demoStore [demoItem]
        [(NewWebhookExporter demoExporterConfig "news" 0).toExporter
          (fun (_ : Item) (w : MemRedis) => ((none : Option Error), w))] [] emptyRedis = some out ∧
      ∀ i id ty ttl err, (i, Action.markProcessed id ty ttl err) ∈ out.trace → ttl = none :=
  have hfac : ∀ ex ∈ [(NewWebhookExporter demoExporterConfig "news" 0).toExporter
      (fun (_ : Item) (w : MemRedis) => ((none : Option Error), w))],
      ∃ cfg group now e deliver,
        CreateExporter cfg group now = .ok e ∧ ex = e.toExporter deliver := by
    intro ex hex
    rw [List.mem_singleton] at hex
    exact ⟨demoExporterConfig, "news", 0, _, _, rfl, hex⟩
  ⟨by decide, hfac, by decide,
    (factory_exporters_pass_nil_ttl demoStore [demoItem] _ [] emptyRedis hfac).2⟩

end Bridgr
